import Mathlib

/-!
# Verification development for the byacc closure / Warshall / argument-parsing code

Shallow embedding of `warshall.c`, `closure.c`, and of `getargs` and the temporary file
names of `create_file_names` in `main.c`.

Conventions of the embedding.
* A C array of `unsigned` words is a `List Nat`; a pointer into it is the `Nat`
  offset from the array base.  Reads are `rd`, writes are `wr`.
* `BITS_PER_WORD` comes from `defs.h`; it is the parameter `W` of every
  definition that depends on it (byacc has `W = 32`).
* A `while` loop over pointers is `whileLoop cond body fuel`: it yields `none` when
  the fuel runs out before the loop condition becomes false.  The theorems on
  `warshall.c` show that every fuel above `n * WORDSIZE(n)` gives a result.
* A `for` loop with a counter that its body does not change is a fold over the
  range of the counter; a scan of a sentinel-terminated list and a walk of a
  pointer up to an end pointer are recursions on the list that is left.
* `getargs` works on `argv[i .. argc)`, the arguments from index `i` on, and a
  call of `usage()`, which does not return, is the result `none` of its loops.
-/

namespace Byacc

/-! ## Memory and loops -/

/-- Read of the word at offset `p` (`*p`). -/
def rd (R : List Nat) (p : Nat) : Nat := R.getD p 0

/-- Write of the word at offset `p` (`*p = v`). -/
def wr (R : List Nat) (p : Nat) (v : Nat) : List Nat := R.set p v

/-- Loop `while (cond) body` bounded by fuel; `none` when the fuel is used up. -/
def whileLoop {σ : Type} (cond : σ → Bool) (body : σ → Option σ) : Nat → σ → Option σ
  | 0, _ => none
  | fuel + 1, s => if cond s then (body s).bind (whileLoop cond body fuel) else some s

/-- Modelled from the spec: the macro `WORDSIZE(n)` of `defs.h`, the number of
`W`-bit words of a row of `n` bits, `⌈n/W⌉`. -/
def WORDSIZE (W n : Nat) : Nat := (n + (W - 1)) / W

/-! ## warshall.c -/

/-- Locals of the innermost loop of `transitive_closure`. -/
structure OrState where
  R : List Nat
  rowj : Nat
  rp : Nat

/-- Locals of the row loop of `transitive_closure`. -/
structure RowState where
  R : List Nat
  rowj : Nat
  ccol : Nat

/-- Locals of the pivot loop of `transitive_closure`. -/
structure PivotState where
  R : List Nat
  i : Nat
  cword : Nat
  rowi : Nat

/-- Innermost loop: `while (rowj < rend) *rowj++ |= *rp++;`. -/
def tc_or_row (rend : Nat) (fuel : Nat) (s : OrState) : Option OrState :=
  whileLoop (fun s => decide (s.rowj < rend))
    (fun s => some
      { R := wr s.R s.rowj (rd s.R s.rowj ||| rd s.R s.rp), rowj := s.rowj + 1, rp := s.rp + 1 })
    fuel s

/-- Row loop: `while (rowj < relend) { if (*ccol & (1 << i)) ... else rowj += rowsize; ccol += rowsize; }`. -/
def tc_rows (rowsize relend i rowi : Nat) (fuel : Nat) (s : RowState) : Option RowState :=
  whileLoop (fun s => decide (s.rowj < relend))
    (fun s =>
      if rd s.R s.ccol &&& (1 <<< i) ≠ 0 then
        (tc_or_row (s.rowj + rowsize) fuel { R := s.R, rowj := s.rowj, rp := rowi }).map
          (fun t => { R := t.R, rowj := t.rowj, ccol := s.ccol + rowsize })
      else
        some { R := s.R, rowj := s.rowj + rowsize, ccol := s.ccol + rowsize })
    fuel s

/-- Pivot loop of `transitive_closure`, from an arbitrary state. -/
def tc_pivots (W rowsize relend : Nat) (fuel : Nat) (s : PivotState) : Option PivotState :=
  whileLoop (fun s => decide (s.rowi < relend))
    (fun s =>
      (tc_rows rowsize relend s.i s.rowi fuel { R := s.R, rowj := 0, ccol := s.cword }).map
        (fun t =>
          if s.i + 1 ≥ W then { R := t.R, i := 0, cword := s.cword + 1, rowi := s.rowi + rowsize }
          else { R := t.R, i := s.i + 1, cword := s.cword, rowi := s.rowi + rowsize }))
    fuel s

/-- The function `transitive_closure(R, n)`: the contents of `R` on return. -/
def transitive_closure (W : Nat) (fuel : Nat) (R : List Nat) (n : Nat) : Option (List Nat) :=
  let rowsize := WORDSIZE W n
  let relend := n * rowsize
  (tc_pivots W rowsize relend fuel { R := R, i := 0, cword := 0, rowi := 0 }).map (fun s => s.R)

/-- Locals of the diagonal loop of `reflexive_transitive_closure`. -/
structure DiagState where
  R : List Nat
  i : Nat
  rp : Nat

/-- Diagonal loop: `while (rp < relend) { *rp |= (1 << i); if (++i >= BITS_PER_WORD) { i = 0; rp++; } rp += rowsize; }`. -/
def rtc_diag (W rowsize relend : Nat) (fuel : Nat) (s : DiagState) : Option DiagState :=
  whileLoop (fun s => decide (s.rp < relend))
    (fun s =>
      let R1 := wr s.R s.rp (rd s.R s.rp ||| (1 <<< s.i))
      if s.i + 1 ≥ W then some { R := R1, i := 0, rp := s.rp + 1 + rowsize }
      else some { R := R1, i := s.i + 1, rp := s.rp + rowsize })
    fuel s

/-- The function `reflexive_transitive_closure(R, n)`: the contents of `R` on return. -/
def reflexive_transitive_closure (W : Nat) (fuel : Nat) (R : List Nat) (n : Nat) :
    Option (List Nat) :=
  (transitive_closure W fuel R n).bind (fun R1 =>
    let rowsize := WORDSIZE W n
    let relend := n * rowsize
    (rtc_diag W rowsize relend fuel { R := R1, i := 0, rp := 0 }).map (fun s => s.R))

/-- Bit `(i, j)` of a packed matrix whose rows are `rowsize` words of `W` bits,
least-significant bit first. -/
def bitAt (W rowsize : Nat) (R : List Nat) (i j : Nat) : Bool :=
  (rd R (i * rowsize + j / W)).testBit (j % W)

/-- The `n`-by-`n` relation stored in a packed matrix: `i` is related to `j`. -/
def rel (W : Nat) (R : List Nat) (n : Nat) (i j : Nat) : Prop :=
  i < n ∧ j < n ∧ bitAt W (WORDSIZE W n) R i j = true

/-- Padding bits (columns `n` and above of each row) are clear. -/
def PaddingClear (W : Nat) (R : List Nat) (n : Nat) : Prop :=
  ∀ i, i < n → ∀ j, j < WORDSIZE W n * W → n ≤ j → bitAt W (WORDSIZE W n) R i j = false

/-- Word-level effect of one pivot pass of `transitive_closure` on an `n`-row matrix
with rows of `rs` words: row `k` is OR-ed into every row whose bit `k` is set. -/
def PassSpec (W rs n k : Nat) (R1 R2 : List Nat) : Prop :=
  R2.length = R1.length ∧
  ∀ r w, w < rs → rd R2 (r * rs + w) =
    if r < n ∧ rd R1 (r * rs + k / W) &&& (1 <<< (k % W)) ≠ 0
    then rd R1 (r * rs + w) ||| rd R1 (k * rs + w) else rd R1 (r * rs + w)

/-- The relation stored in a packed matrix of `n` rows of `WORDSIZE W n` words, every
column of the row (padding columns included) taken into account. -/
def relx (W : Nat) (R : List Nat) (n : Nat) (i j : Nat) : Prop :=
  i < n ∧ j < WORDSIZE W n * W ∧ bitAt W (WORDSIZE W n) R i j = true

/-! ## closure.c -/

/-- The grammar tables read by `closure.c` (globals of `main.c`).  Entries that may be
negative (`ritem`, the `derives` lists with their sentinel) are integers; rule numbers,
symbol numbers and item positions are naturals.  `derives A` is the list `derives[A]`
points to, sentinel included. -/
structure Grammar where
  ntokens : Nat
  nvars : Nat
  nsyms : Nat
  start_symbol : Nat
  nrules : Nat
  ritem : List Int
  rlhs : List Nat
  rrhs : List Nat
  derives : Nat → List Int

/-- Modelled from the spec: the macro `ISVAR(s)` of `defs.h`; nonterminals are the
symbols from `start_symbol` on. -/
def ISVAR (g : Grammar) (s : Int) : Bool := decide ((g.start_symbol : Int) ≤ s)

/-- Modelled from the spec: the macro `SETBIT(r, n)` of `defs.h`, which sets bit `n`
(least-significant bit first) of the bit row starting at offset `r`. -/
def SETBIT (W : Nat) (R : List Nat) (r n : Nat) : List Nat :=
  wr R (r + n / W) (rd R (r + n / W) ||| (1 <<< (n % W)))

/-- Read `ritem[k]`. -/
def ritemAt (g : Grammar) (k : Nat) : Int := g.ritem.getD k 0

/-- Read `rrhs[r]`. -/
def rrhsAt (g : Grammar) (r : Nat) : Nat := g.rrhs.getD r 0

/-- Inner loop of `set_EFF`: `for (rule = *sp; rule > 0; rule = *++sp) { ... }`, on the
list `sp` points into.  The scan of a list also ends where the list ends. -/
def set_EFF_scan (W : Nat) (g : Grammar) (row : Nat) : List Int → List Nat → List Nat
  | [], EFF => EFF
  | rule :: sp, EFF =>
    if rule > 0 then
      let symbol := ritemAt g (rrhsAt g rule.toNat)
      if ISVAR g symbol then
        set_EFF_scan W g row sp (SETBIT W EFF row (symbol - g.start_symbol).toNat)
      else set_EFF_scan W g row sp EFF
    else EFF

/-- Outer loop of `set_EFF`: `for (i = start_symbol; i < nsyms; i++) { ...; row += rowsize; }`;
the state is the matrix and the offset `row`. -/
def set_EFF_rows (W : Nat) (g : Grammar) (rowsize : Nat) (EFF : List Nat) : List Nat × Nat :=
  (List.range' g.start_symbol (g.nsyms - g.start_symbol)).foldl
    (fun st i => (set_EFF_scan W g st.2 (g.derives i) st.1, st.2 + rowsize)) (EFF, 0)

/-- The function `set_EFF()`: the contents of the freshly allocated, zeroed `EFF`. -/
def set_EFF (W : Nat) (fuel : Nat) (g : Grammar) : Option (List Nat) :=
  let rowsize := WORDSIZE W g.nvars
  let EFF := List.replicate (g.nvars * rowsize) 0
  reflexive_transitive_closure W fuel (set_EFF_rows W g rowsize EFF).1 g.nvars

/-- Innermost loop of `set_first_derives`: `while ((rule = *rp++) >= 0) SETBIT(rrow, rule);`. -/
def set_first_derives_scan (W : Nat) (rrow : Nat) : List Int → List Nat → List Nat
  | [], fd => fd
  | rule :: rp, fd =>
    if rule ≥ 0 then set_first_derives_scan W rrow rp (SETBIT W fd rrow rule.toNat) else fd

/-- Locals of the column loop of `set_first_derives`. -/
structure ColState where
  fd : List Nat
  k : Nat
  cword : Nat
  vrow : Nat

/-- Body of the column loop of `set_first_derives`, for the symbol `j`:
`if (k >= BITS_PER_WORD) { cword = *vrow++; k = 0; } if (cword & (1 << k)) { ... }`, then `k++`. -/
def set_first_derives_col (W : Nat) (g : Grammar) (EFF : List Nat) (rrow : Nat)
    (s : ColState) (j : Nat) : ColState :=
  let s1 : ColState :=
    if s.k ≥ W then { fd := s.fd, k := 0, cword := rd EFF s.vrow, vrow := s.vrow + 1 } else s
  let fd1 :=
    if s1.cword &&& (1 <<< s1.k) ≠ 0 then set_first_derives_scan W rrow (g.derives j) s1.fd
    else s1.fd
  { fd := fd1, k := s1.k + 1, cword := s1.cword, vrow := s1.vrow }

/-- Column loop of `set_first_derives`: `for (j = start_symbol; j < nsyms; k++, j++) { ... }`. -/
def set_first_derives_cols (W : Nat) (g : Grammar) (EFF : List Nat) (rrow : Nat)
    (s : ColState) : ColState :=
  (List.range' g.start_symbol (g.nsyms - g.start_symbol)).foldl
    (set_first_derives_col W g EFF rrow) s

/-- Row loop of `set_first_derives`: `for (i = start_symbol; i < nsyms; i++) { ...; rrow += rulesetsize; }`;
the state is the matrix (the allocated block) and the offset `rrow` into it.  The local
`cword` has no value before its first assignment in the column loop (it starts as `0`
here), and the statement `vrow += varsetsize` at the end of the body has no effect,
`vrow` being assigned anew at the top. -/
def set_first_derives_rows (W : Nat) (g : Grammar) (EFF : List Nat)
    (rulesetsize varsetsize : Nat) (fd : List Nat) : List Nat × Nat :=
  (List.range' g.start_symbol (g.nsyms - g.start_symbol)).foldl
    (fun st i =>
      let vrow := (i - g.ntokens) * varsetsize
      let s := set_first_derives_cols W g EFF st.2 { fd := st.1, k := W, cword := 0, vrow := vrow }
      (s.fd, st.2 + rulesetsize))
    (fd, 0)

/-- The function `set_first_derives()`: the allocated block of `nvars * rulesetsize` words;
the C pointer `first_derives` is this block shifted down by `ntokens * rulesetsize`. -/
def set_first_derives (W : Nat) (fuel : Nat) (g : Grammar) : Option (List Nat) :=
  let rulesetsize := WORDSIZE W g.nrules
  let varsetsize := WORDSIZE W g.nvars
  let fd := List.replicate (g.nvars * rulesetsize) 0
  (set_EFF W fuel g).map (fun EFF => (set_first_derives_rows W g EFF rulesetsize varsetsize fd).1)

/-- Loop `while (rsp < rsend) *rsp++ |= *dsp++;` of `closure`, on the rest of `ruleset`. -/
def closure_or (fd : List Nat) : List Nat → Nat → List Nat
  | [], _ => []
  | x :: rsp, dsp => (x ||| rd fd dsp) :: closure_or fd rsp (dsp + 1)

/-- First kernel loop of `closure`: `for (csp = nucleus; csp < csend; ++csp) { ... }`. -/
def closure_ruleset (W : Nat) (g : Grammar) (first_derives : List Nat) (rulesetsize : Nat) :
    List Nat → List Nat → List Nat
  | [], ruleset => ruleset
  | c :: csp, ruleset =>
    let symbol := ritemAt g c
    if ISVAR g symbol then
      closure_ruleset W g first_derives rulesetsize csp
        (closure_or first_derives ruleset
          (symbol.toNat * rulesetsize - g.ntokens * rulesetsize))
    else closure_ruleset W g first_derives rulesetsize csp ruleset

/-- Loop `while (csp < csend && *csp < itemno) *itemsetend++ = *csp++;`; the state is the
rest of the kernel and the item set written so far. -/
def closure_copy_lt (itemno : Nat) : List Nat → List Nat → List Nat × List Nat
  | [], itemset => ([], itemset)
  | c :: csp, itemset =>
    if c < itemno then closure_copy_lt itemno csp (itemset ++ [c]) else (c :: csp, itemset)

/-- Loop `while (csp < csend && *csp == itemno) ++csp;`. -/
def closure_skip_eq (itemno : Nat) : List Nat → List Nat
  | [] => []
  | c :: csp => if c = itemno then closure_skip_eq itemno csp else c :: csp

/-- Body of `if (word & (1 << i))` in `closure`, for the item `itemno`. -/
def closure_emit (itemno : Nat) (st : List Nat × List Nat) : List Nat × List Nat :=
  let st1 := closure_copy_lt itemno st.1 st.2
  (closure_skip_eq itemno st1.1, st1.2 ++ [itemno])

/-- Bit loop of `closure`: `for (i = 0; i < BITS_PER_WORD; ++i) if (word & (1 << i)) { ... }`. -/
def closure_bits (W : Nat) (g : Grammar) (ruleno word : Nat) (st : List Nat × List Nat) :
    List Nat × List Nat :=
  (List.range W).foldl
    (fun st i => if word &&& (1 <<< i) ≠ 0 then closure_emit (rrhsAt g (ruleno + i)) st else st)
    st

/-- Word loop of `closure`: `for (rsp = ruleset; rsp < rsend; ++rsp) { ...; ruleno += BITS_PER_WORD; }`. -/
def closure_words (W : Nat) (g : Grammar) : List Nat → Nat → List Nat × List Nat →
    List Nat × List Nat
  | [], _, st => st
  | word :: rsp, ruleno, st =>
    closure_words W g rsp (ruleno + W) (if word ≠ 0 then closure_bits W g ruleno word st else st)

/-- The function `closure(nucleus, n)`: the items written to `itemset .. itemsetend`. -/
def closure (W : Nat) (g : Grammar) (first_derives : List Nat) (nucleus : List Nat) : List Nat :=
  let rulesetsize := WORDSIZE W g.nrules
  let ruleset := closure_ruleset W g first_derives rulesetsize nucleus
    (List.replicate rulesetsize 0)
  let st := closure_words W g ruleset 0 (nucleus, [])
  st.2 ++ st.1

/-- The rule numbers of a `derives` list: its entries before the first negative one. -/
def rulesOf : List Int → List Nat
  | [] => []
  | rule :: rp => if rule ≥ 0 then rule.toNat :: rulesOf rp else []

/-- Every rule number listed in the `derives` list of a nonterminal is below `nrules`. -/
def DerivesInRange (g : Grammar) : Prop :=
  ∀ j, j < g.nvars → ∀ rule ∈ rulesOf (g.derives (g.start_symbol + j)), rule < g.nrules

/-- The symbol numbering of the grammar: nonterminals follow the tokens, and the start
symbol is the first nonterminal. -/
def SymbolsOK (g : Grammar) : Prop :=
  g.start_symbol = g.ntokens ∧ g.nsyms = g.ntokens + g.nvars

/-- Read `rlhs[r]`. -/
def rlhsAt (g : Grammar) (r : Nat) : Nat := g.rlhs.getD r 0

/-- The list `derives[B]` of every nonterminal `B` holds exactly the rules with left-hand
side `B`. -/
def DerivesExact (g : Grammar) : Prop :=
  ∀ j, j < g.nvars →
    (∀ r ∈ rulesOf (g.derives (g.start_symbol + j)),
      r < g.nrules ∧ rlhsAt g r = g.start_symbol + j) ∧
    (∀ r, r < g.nrules → rlhsAt g r = g.start_symbol + j →
      r ∈ rulesOf (g.derives (g.start_symbol + j)))

/-- An expression grammar in the data model of the spec, used as a concrete instance:
tokens `$end error + * ( id` are 0..5, nonterminals `$accept E T F` are 6..9, and the rules
are 0: `$accept → E $end`, 1: `E → E + T`, 2: `E → T`, 3: `T → T * F`, 4: `T → F`,
5: `F → ( E )`, 6: `F → id`. -/
def exprGrammar : Grammar :=
  { ntokens := 6, nvars := 4, nsyms := 10, start_symbol := 6, nrules := 7,
    ritem := [7, 0, -1, 7, 2, 8, -2, 8, -3, 8, 3, 9, -4, 9, -5, 4, 7, 4, -6, 5, -7],
    rlhs := [6, 7, 7, 8, 8, 9, 9],
    rrhs := [0, 3, 7, 9, 13, 15, 19],
    derives := fun A =>
      if A = 6 then [0, -1] else if A = 7 then [1, 2, -1] else if A = 8 then [3, 4, -1]
      else if A = 9 then [5, 6, -1] else [] }

/-- The positions of the set bits of a row of `W`-bit words, in ascending order. -/
def setBits (W : Nat) (row : List Nat) : List Nat :=
  (List.range (row.length * W)).filter (fun r => (rd row (r / W)).testBit (r % W))

/-- The kernel items are positions of `ritem`, and the symbols after their dots are
symbols of the grammar. -/
def KernelOK (g : Grammar) (nucleus : List Nat) : Prop :=
  ∀ c ∈ nucleus, c < g.ritem.length ∧ ritemAt g c < g.nsyms

/-- `rrhs` is strictly increasing in the rule number. -/
def RrhsIncreasing (g : Grammar) : Prop :=
  ∀ r2, r2 < g.nrules → ∀ r1, r1 < r2 → rrhsAt g r1 < rrhsAt g r2

/-- The smallest grammar in the data model of the spec, with the augmented rule at index
0: tokens `$end x` are 0..1, nonterminals `$accept S` are 2..3, and the rules are
0: `$accept → S $end` and 1: `S → x`. -/
def augGrammar : Grammar :=
  { ntokens := 2, nvars := 2, nsyms := 4, start_symbol := 2, nrules := 2,
    ritem := [3, 0, -1, 1, -2],
    rlhs := [2, 3],
    rrhs := [0, 3],
    derives := fun A => if A = 2 then [0, -1] else if A = 3 then [1, -1] else [] }

/-- The rule numbers that the loop of `set_EFF` visits in a `derives` list: its entries
before the first entry that is not positive. -/
def scannedRules : List Int → List Nat
  | [] => []
  | rule :: sp => if rule > 0 then rule.toNat :: scannedRules sp else []

/-- One step of the relation that `set_EFF` records before the closure: a rule that its
loop visits in `derives[X]` has the nonterminal `Y` as the first symbol of its right-hand
side. -/
def ScanStep (g : Grammar) (X Y : Nat) : Prop :=
  ∃ r, r ∈ scannedRules (g.derives X) ∧ ritemAt g (rrhsAt g r) = (Y : Int) ∧
    g.start_symbol ≤ Y

/-- The first right-hand-side entry of every rule that `set_EFF` visits is below `nsyms`. -/
def FirstSymbolsOK (g : Grammar) : Prop :=
  ∀ j, j < g.nvars → ∀ r ∈ scannedRules (g.derives (g.start_symbol + j)),
    ritemAt g (rrhsAt g r) < g.nsyms

/-- No `derives` list of a nonterminal holds the rule number 0. -/
def NoRuleZero (g : Grammar) : Prop :=
  ∀ j, j < g.nvars → ∀ r ∈ rulesOf (g.derives (g.start_symbol + j)), 0 < r

/-! ## main.c: `getargs` -/

/-- A C string: its characters up to the terminating NUL, which is not stored. -/
abbrev CStr := List Char

/-- The values of `input_file` that `getargs` distinguishes. -/
inductive FilePtr where
  | null
  | stdin
deriving DecidableEq

/-- The globals of `main.c` that `getargs` reads or writes. -/
structure Globals where
  dflag : Nat
  lflag : Nat
  rflag : Nat
  tflag : Nat
  vflag : Nat
  symbol_prefix : Option CStr
  file_prefix : CStr
  myname : CStr
  input_file : FilePtr
  input_file_name : CStr
deriving DecidableEq

/-- How a call of `getargs` ends: `exit(status)` or a normal return. -/
inductive Outcome where
  | exit (status : Nat)
  | returned (st : Globals)
deriving DecidableEq

/-- The function `usage()`: prints the usage line and calls `exit(1)`. -/
def usage : Outcome := Outcome.exit 1

/-- The globals as initialised in `main.c`. -/
def initialGlobals : Globals :=
  { dflag := 0, lflag := 0, rflag := 0, tflag := 0, vflag := 0, symbol_prefix := none,
    file_prefix := ['y'], myname := ['y', 'a', 'c', 'c'], input_file := FilePtr.null,
    input_file_name := [] }

/-- The character `*s` of a C string: its first character, NUL when it is empty. -/
def peek (s : CStr) : Char := s.headD (Char.ofNat 0)

/-- The cases `'d'`, `'l'`, `'r'`, `'t'`, `'v'` and `default` shared by the two `switch`
statements of `getargs`: set the flag of the letter; `none` stands for the call of
`usage()`. -/
def getargs_flag (c : Char) (st : Globals) : Option Globals :=
  if c = 'd' then some { st with dflag := 1 }
  else if c = 'l' then some { st with lflag := 1 }
  else if c = 'r' then some { st with rflag := 1 }
  else if c = 't' then some { st with tflag := 1 }
  else if c = 'v' then some { st with vflag := 1 }
  else none

/-- The loop `for (;;) switch (*++s) { ... }` over the characters that follow the first
letter of an option cluster (`s` is what follows the current character). -/
def getargs_cluster : CStr → Globals → Option Globals
  | [], st => some st
  | c :: s, st =>
    if c = Char.ofNat 0 then some st else (getargs_flag c st).bind (getargs_cluster s)

/-- The code after the label `no_more_options`, where `rest` is `argv[i .. argc)`:
`if (i + 1 != argc) usage(); input_file_name = argv[i];`. -/
def getargs_no_more_options (rest : List CStr) (st : Globals) : Option Globals :=
  match rest with
  | [f] => some { st with input_file_name := f }
  | _ => none

/-- The loop `for (i = 1; i < argc; ++i)` of `getargs` followed by the code after
`no_more_options`; the first argument is `argv[i .. argc)`, and `none` stands for the call
of `usage()`. -/
def getargs_options : List CStr → Globals → Option Globals
  | [], st => getargs_no_more_options [] st
  | s :: rest, st =>
    if peek s ≠ '-' then getargs_no_more_options (s :: rest) st
    else if peek s.tail = Char.ofNat 0 then
      (if rest ≠ [] then none else some { st with input_file := FilePtr.stdin })
    else if peek s.tail = '-' then getargs_no_more_options rest st
    else if peek s.tail = 'b' then
      if peek s.tail.tail ≠ Char.ofNat 0 then
        getargs_options rest { st with file_prefix := s.tail.tail }
      else
        match rest with
        | v :: rest2 => getargs_options rest2 { st with file_prefix := v }
        | [] => none
    else if peek s.tail = 'p' then
      if peek s.tail.tail ≠ Char.ofNat 0 then
        getargs_options rest { st with symbol_prefix := some s.tail.tail }
      else
        match rest with
        | v :: rest2 => getargs_options rest2 { st with symbol_prefix := some v }
        | [] => none
    else
      ((getargs_flag (peek s.tail) st).bind (getargs_cluster s.tail.tail)).bind
        (getargs_options rest)

/-- The function `getargs(argc, argv)` with `argc = argv.length`. -/
def getargs (argv : List CStr) (st : Globals) : Outcome :=
  let st1 := match argv with
    | a :: _ => { st with myname := a }
    | [] => st
  match getargs_options (argv.drop 1) st1 with
  | some st2 => Outcome.returned st2
  | none => usage

/-- The letters of the five flags. -/
def flagLetters : List Char := ['d', 'l', 'r', 't', 'v']

/-- The flag that belongs to a letter (`0` for a letter without flag). -/
def flagOf (c : Char) (st : Globals) : Nat :=
  if c = 'd' then st.dflag
  else if c = 'l' then st.lflag
  else if c = 'r' then st.rflag
  else if c = 't' then st.tflag
  else if c = 'v' then st.vflag
  else 0

/-- No argument contains a NUL character: the arguments are C strings. -/
def NoNul (args : List CStr) : Prop := ∀ a ∈ args, Char.ofNat 0 ∉ a

/-- The arguments are option arguments that `getargs` accepts: clusters of flag letters,
`-b` or `-p` with an attached value, and `-b` or `-p` followed by a separate value. -/
inductive OptionArgs : List CStr → Prop where
  | nil : OptionArgs []
  | cluster (c : Char) (cs : CStr) (rest : List CStr) :
      c ∈ flagLetters → (∀ x ∈ cs, x ∈ flagLetters) → OptionArgs rest →
      OptionArgs (('-' :: c :: cs) :: rest)
  | b_attached (v : CStr) (rest : List CStr) :
      peek v ≠ Char.ofNat 0 → OptionArgs rest → OptionArgs (('-' :: 'b' :: v) :: rest)
  | b_separate (v : CStr) (rest : List CStr) :
      OptionArgs rest → OptionArgs (['-', 'b'] :: v :: rest)
  | p_attached (v : CStr) (rest : List CStr) :
      peek v ≠ Char.ofNat 0 → OptionArgs rest → OptionArgs (('-' :: 'p' :: v) :: rest)
  | p_separate (v : CStr) (rest : List CStr) :
      OptionArgs rest → OptionArgs (['-', 'p'] :: v :: rest)

/-- The letters of the option-cluster arguments (`-` followed by letters) that precede the
end of the options; the values of `-b` and `-p`, attached or separate, and everything from
the first non-option argument, `-` or `--` on are left out. -/
def clusterLetters : List CStr → List Char
  | [] => []
  | s :: rest =>
    if peek s ≠ '-' then []
    else if s.tail = [] then []
    else if peek s.tail = '-' then []
    else if peek s.tail = 'b' ∨ peek s.tail = 'p' then
      if s.tail.tail ≠ [] then clusterLetters rest
      else
        match rest with
        | _ :: rest2 => clusterLetters rest2
        | [] => []
    else s.tail ++ clusterLetters rest

/-- The globals `input_file`, `input_file_name` and `myname` agree in two states. -/
def SameFiles (st st1 : Globals) : Prop :=
  st1.input_file = st.input_file ∧ st1.input_file_name = st.input_file_name ∧
  st1.myname = st.myname

/-! ## closure.c: the reads of `rrhs` in `closure` -/

/-- The indices `ruleno + i` at which the bit loop of `closure` reads `rrhs[ruleno + i]`,
appended to `reads` in the order of the reads: the loop
`for (i = 0; i < BITS_PER_WORD; ++i) if (word & (1 << i)) { itemno = rrhs[ruleno + i]; ... }`. -/
def closure_bits_reads (W : Nat) (ruleno word : Nat) (reads : List Nat) : List Nat :=
  (List.range W).foldl
    (fun reads i => if word &&& (1 <<< i) ≠ 0 then reads ++ [ruleno + i] else reads)
    reads

/-- The indices at which the word loop of `closure` reads `rrhs`. -/
def closure_words_reads (W : Nat) : List Nat → Nat → List Nat → List Nat
  | [], _, reads => reads
  | word :: rsp, ruleno, reads =>
    closure_words_reads W rsp (ruleno + W)
      (if word ≠ 0 then closure_bits_reads W ruleno word reads else reads)

/-- The indices at which `closure(nucleus, n)` reads `rrhs`, in the order of the reads. -/
def closure_reads (W : Nat) (g : Grammar) (first_derives : List Nat) (nucleus : List Nat) :
    List Nat :=
  let rulesetsize := WORDSIZE W g.nrules
  let ruleset := closure_ruleset W g first_derives rulesetsize nucleus
    (List.replicate rulesetsize 0)
  closure_words_reads W ruleset 0 []


/-! ## closure.c: grammars for the repeated closure -/

/-- The first right-hand-side position `rrhs[r]` of every rule is a position of `ritem`,
and the entry there is below `nsyms`. -/
def ItemsOK (g : Grammar) : Prop :=
  ∀ r, r < g.nrules → rrhsAt g r < g.ritem.length ∧ ritemAt g (rrhsAt g r) < g.nsyms

/-- No nonterminal that occurs in `ritem` has the rule number 0 in its `derives` list. -/
def RuleZeroUnused (g : Grammar) : Prop :=
  ∀ k, k < g.ritem.length → ∀ j, j < g.nvars →
    ritemAt g k = ((g.start_symbol + j : Nat) : Int) →
    ∀ r ∈ rulesOf (g.derives (g.start_symbol + j)), 0 < r

/-- A grammar whose rule 0 has a left-hand side that occurs on a right-hand side: tokens
`$end c d` are 0..2, nonterminals `S A B` are 3..5, and the rules are 0: `A → B c`,
1: `S → A`, 2: `B → d`. -/
def ruleZeroGrammar : Grammar :=
  { ntokens := 3, nvars := 3, nsyms := 6, start_symbol := 3, nrules := 3,
    ritem := [5, 1, -1, 4, -2, 2, -3],
    rlhs := [4, 3, 5],
    rrhs := [0, 3, 5],
    derives := fun s =>
      if s = 3 then [1, -1] else if s = 4 then [0, -1] else if s = 5 then [2, -1] else [] }


/-! ## Warshall's algorithm on a Boolean matrix, and the packing of a relation

These definitions follow the words of the specification, not the source; the word-level
`transitive_closure` of warshall.c is compared with them. -/

/-- Specification level: the step of Warshall's algorithm for the pivot `k` and the row `i`
of an `n`-by-`n` Boolean matrix, in place: if the entry `(i, k)` is set, the whole row `k`
is ORed into the row `i`. -/
def spec_warshall_row (n k i : Nat) (M : Nat → Nat → Bool) : Nat → Nat → Bool :=
  if M i k then fun a b => if a = i ∧ b < n then M i b || M k b else M a b else M

/-- Specification level: the pass of Warshall's algorithm for the pivot `k`, over the rows
`0 .. n - 1` in ascending order. -/
def spec_warshall_pass (n k : Nat) (M : Nat → Nat → Bool) : Nat → Nat → Bool :=
  (List.range n).foldl (fun M1 i => spec_warshall_row n k i M1) M

/-- Specification level: Warshall's algorithm on an `n`-by-`n` Boolean matrix, the pivot
loop outermost and the row loop inside it. -/
def spec_warshall (n : Nat) (M : Nat → Nat → Bool) : Nat → Nat → Bool :=
  (List.range n).foldl (fun M1 k => spec_warshall_pass n k M1) M

/-- Specification level: the word whose bit `b`, for `b < W`, is `f b`, least significant
bit first. -/
def spec_pack_word (W : Nat) (f : Nat → Bool) : Nat :=
  (List.range W).foldl (fun acc b => if f b then acc ||| (1 <<< b) else acc) 0

/-- Specification level: the `n`-by-`n` relation `M` packed into rows of `WORDSIZE(n)`
words; bit `b` of word `w` of row `i` is the entry `(i, w * W + b)`, and the bits of the
columns from `n` on are clear. -/
def spec_pack (W n : Nat) (M : Nat → Nat → Bool) : List Nat :=
  (List.range (n * WORDSIZE W n)).map (fun q =>
    spec_pack_word W (fun b =>
      decide (q % WORDSIZE W n * W + b < n) &&
        M (q / WORDSIZE W n) (q % WORDSIZE W n * W + b)))

/-- Specification level: the `n`-by-`n` Boolean matrix that a packed matrix holds. -/
def spec_unpack (W n : Nat) (R : List Nat) : Nat → Nat → Bool :=
  fun i j => decide (i < n ∧ j < n) && bitAt W (WORDSIZE W n) R i j


/-! ## main.c: the temporary file names of `create_file_names` -/

/-- The global `temp_form` of main.c. -/
def temp_form : CStr := "yacc.XXXXXXX".toList

/-- A block of `n` bytes from `MALLOC(n)`; `junk` gives the bytes that the fresh block
happens to hold.  The allocation is taken to succeed (the other case calls `no_space()`). -/
def MALLOC (junk : Nat → Char) (n : Nat) : List Char := (List.range n).map junk

/-- The library function `strcpy(dst + off, src)` on a buffer: the characters of `src` and
the terminating NUL are stored from the offset `off` on. -/
def strcpy : List Char → Nat → CStr → List Char
  | dst, off, [] => dst.set off (Char.ofNat 0)
  | dst, off, c :: src => strcpy (dst.set off c) (off + 1) src

/-- The C string that a buffer holds: its characters before the first NUL. -/
def cstring (buf : List Char) : CStr := buf.takeWhile (fun c => decide (c ≠ Char.ofNat 0))

/-- The buffers of the three temporary file names. -/
structure TempNames where
  action_file_name : List Char
  text_file_name : List Char
  union_file_name : List Char

/-- The function `create_file_names()` up to its calls of `mktemp`: the buffers
`action_file_name`, `text_file_name` and `union_file_name` as they are passed to `mktemp`.
The argument `env_TMPDIR` is the result of `getenv("TMPDIR")`, `none` for the null
pointer. -/
def create_file_names (env_TMPDIR : Option CStr) (junk : Nat → Nat → Char) : TempNames :=
  let tmpdir : CStr := env_TMPDIR.getD "/tmp".toList
  let len := tmpdir.length
  let i := len + 13
  let i := if len ≠ 0 ∧ tmpdir.getD (len - 1) (Char.ofNat 0) ≠ '/' then i + 1 else i
  let action := MALLOC (junk 0) i
  let text := MALLOC (junk 1) i
  let union := MALLOC (junk 2) i
  let action := strcpy action 0 tmpdir
  let text := strcpy text 0 tmpdir
  let union := strcpy union 0 tmpdir
  let slash : Bool := decide (len ≠ 0 ∧ tmpdir.getD (len - 1) (Char.ofNat 0) ≠ '/')
  let action := if slash then action.set len '/' else action
  let text := if slash then text.set len '/' else text
  let union := if slash then union.set len '/' else union
  let len := if slash then len + 1 else len
  let action := strcpy action len temp_form
  let text := strcpy text len temp_form
  let union := strcpy union len temp_form
  { action_file_name := action.set (len + 5) 'a',
    text_file_name := text.set (len + 5) 't',
    union_file_name := union.set (len + 5) 'u' }


/-! ## Tables numbered as byacc numbers its rules -/

/-- A grammar with the rule numbers of byacc, where the number of a rule is the absolute
value of its end sentinel in `ritem` and the rules 0 and 1 are not used: tokens
`$end error x +` are 0..3, nonterminals `$accept E T` are 4..6, and the rules are
2: `$accept → E $end`, 3: `E → E + T`, 4: `E → T`, 5: `T → x`. -/
def yaccGrammar : Grammar :=
  { ntokens := 4, nvars := 3, nsyms := 7, start_symbol := 4, nrules := 6,
    ritem := [-1, 5, 0, -2, 5, 3, 6, -3, 6, -4, 2, -5],
    rlhs := [0, 0, 4, 5, 5, 6],
    rrhs := [0, 0, 1, 4, 8, 10],
    derives := fun s =>
      if s = 4 then [2, -1] else if s = 5 then [3, 4, -1] else if s = 6 then [5, -1] else [] }

/-- The array `rrhs` is strictly increasing over the rule numbers from 1 on. -/
def RrhsIncreasingFromOne (g : Grammar) : Prop :=
  ∀ r2, r2 < g.nrules → ∀ r1, r1 < r2 → 0 < r1 → rrhsAt g r1 < rrhsAt g r2


/-! ## main.c: the `-b` and `-p` options among the option arguments -/

/-- The value of the last `-b` option among the option arguments, the arguments that
precede the end of the options (the first non-option argument, `-` or `--`); the separate
value of a `-b` or `-p` is the next argument and is no option argument itself.  The result
is `none` when there is no `-b` option. -/
def lastOptionB : List CStr → Option CStr
  | [] => none
  | s :: rest =>
    if peek s ≠ '-' then none
    else if s.tail = [] then none
    else if peek s.tail = '-' then none
    else if peek s.tail = 'b' then
      if s.tail.tail ≠ [] then
        match lastOptionB rest with
        | some w => some w
        | none => some s.tail.tail
      else
        match rest with
        | v :: rest2 =>
          match lastOptionB rest2 with
          | some w => some w
          | none => some v
        | [] => none
    else if peek s.tail = 'p' then
      if s.tail.tail ≠ [] then lastOptionB rest
      else
        match rest with
        | _ :: rest2 => lastOptionB rest2
        | [] => none
    else lastOptionB rest

/-- The value of the last `-p` option among the option arguments, `none` when there is no
`-p` option. -/
def lastOptionP : List CStr → Option CStr
  | [] => none
  | s :: rest =>
    if peek s ≠ '-' then none
    else if s.tail = [] then none
    else if peek s.tail = '-' then none
    else if peek s.tail = 'p' then
      if s.tail.tail ≠ [] then
        match lastOptionP rest with
        | some w => some w
        | none => some s.tail.tail
      else
        match rest with
        | v :: rest2 =>
          match lastOptionP rest2 with
          | some w => some w
          | none => some v
        | [] => none
    else if peek s.tail = 'b' then
      if s.tail.tail ≠ [] then lastOptionP rest
      else
        match rest with
        | _ :: rest2 => lastOptionP rest2
        | [] => none
    else lastOptionP rest


/-! ## Basic lemmas: memory, loops, bit tests -/

theorem rd_wr (R : List Nat) (p q v : Nat) :
    rd (wr R p v) q = if p = q ∧ p < R.length then v else rd R q := by
  unfold rd wr
  rw [List.getD_eq_getElem?_getD, List.getD_eq_getElem?_getD, List.getElem?_set]
  by_cases h : p = q
  · subst h
    by_cases h2 : p < R.length
    · simp [h2]
    · simp [h2, List.getElem?_eq_none (Nat.le_of_not_lt h2)]
  · simp [h]

theorem length_wr (R : List Nat) (p v : Nat) : (wr R p v).length = R.length := by
  unfold wr; exact List.length_set R p v

theorem list_eq_of_rd (R1 R2 : List Nat) (hl : R1.length = R2.length)
    (h : ∀ q, q < R1.length → rd R1 q = rd R2 q) : R1 = R2 := by
  apply List.ext_getElem hl
  intro q h1 h2
  have := h q h1
  unfold rd at this
  rw [List.getD_eq_getElem?_getD, List.getD_eq_getElem?_getD,
    List.getElem?_eq_getElem h1, List.getElem?_eq_getElem h2] at this
  simpa using this

theorem rd_of_le (R : List Nat) (q : Nat) (h : R.length ≤ q) : rd R q = 0 := by
  unfold rd
  rw [List.getD_eq_getElem?_getD, List.getElem?_eq_none h]
  rfl

theorem whileLoop_spec {σ : Type} (cond : σ → Bool) (body : σ → Option σ)
    (Inv : σ → Prop) (μ : σ → Nat)
    (hstep : ∀ s, Inv s → cond s = true → ∃ s', body s = some s' ∧ Inv s' ∧ μ s' < μ s) :
    ∀ fuel s, Inv s → μ s < fuel →
      ∃ s', whileLoop cond body fuel s = some s' ∧ Inv s' ∧ cond s' = false := by
  intro fuel
  induction fuel with
  | zero => intro s _ h; omega
  | succ fuel ih =>
    intro s hs hf
    by_cases hc : cond s = true
    · obtain ⟨s1, hb, hi, hm⟩ := hstep s hs hc
      obtain ⟨s2, h2, hi2, hc2⟩ := ih s1 hi (by omega)
      exact ⟨s2, by simp [whileLoop, hc, hb, h2], hi2, hc2⟩
    · exact ⟨s, by simp [whileLoop, hc], hs, by simpa using hc⟩

theorem and_shift_ne_zero (x i : Nat) : x &&& (1 <<< i) ≠ 0 ↔ x.testBit i = true := by
  rw [Nat.one_shiftLeft, Nat.and_two_pow]
  cases h : x.testBit i <;> simp [Bool.toNat]

theorem idx_lt {r m w rs : Nat} (h : r < m) (hw : w < rs) : r * rs + w < m * rs := by
  have : (r + 1) * rs ≤ m * rs := Nat.mul_le_mul_right rs h
  rw [Nat.add_mul] at this
  omega

theorem idx_row_eq {r r2 w w2 rs : Nat} (hw : w < rs) (hw2 : w2 < rs)
    (h : r * rs + w = r2 * rs + w2) : r = r2 ∧ w = w2 := by
  have hr : r = r2 := by
    rcases Nat.lt_trichotomy r r2 with h1 | h1 | h1
    · have := idx_lt h1 hw; omega
    · exact h1
    · have := idx_lt h1 hw2; omega
  subst hr
  exact ⟨rfl, by omega⟩

/-! ## Closed forms of the loops of `transitive_closure` -/

theorem tc_or_row_spec (R : List Nat) (a b rs fuel : Nat) (hf : rs < fuel)
    (hno : a = b ∨ b + rs ≤ a ∨ a + rs ≤ b) (hlen : a + rs ≤ R.length) :
    ∃ t, tc_or_row (a + rs) fuel { R := R, rowj := a, rp := b } = some t ∧
      t.rowj = a + rs ∧ t.R.length = R.length ∧
      ∀ q, rd t.R q = if a ≤ q ∧ q < a + rs then rd R q ||| rd R (b + (q - a)) else rd R q := by
  have key := whileLoop_spec (fun s : OrState => decide (s.rowj < a + rs))
    (fun s => some
      { R := wr s.R s.rowj (rd s.R s.rowj ||| rd s.R s.rp), rowj := s.rowj + 1, rp := s.rp + 1 })
    (fun s => a ≤ s.rowj ∧ s.rowj ≤ a + rs ∧ s.rp + a = b + s.rowj ∧ s.R.length = R.length ∧
      ∀ q, rd s.R q = if a ≤ q ∧ q < s.rowj then rd R q ||| rd R (b + (q - a)) else rd R q)
    (fun s => a + rs - s.rowj)
    (by
      intro s ⟨h1, h2, h3, h4, h5⟩ hc
      have hc : s.rowj < a + rs := by simpa using hc
      refine ⟨_, rfl, ⟨by simp; omega, by simp; omega, by simp; omega, ?_, ?_⟩, by simp; omega⟩
      · simp [length_wr, h4]
      · intro q
        simp only
        rw [rd_wr]
        have e1 : rd s.R s.rowj = rd R s.rowj := by
          rw [h5]; simp
        have e2 : rd s.R s.rp = rd R s.rp := by
          rw [h5]
          rcases hno with h | h | h
          · have : s.rp = s.rowj := by omega
            rw [this]; simp
          · have : ¬ (a ≤ s.rp ∧ s.rp < s.rowj) := by omega
            simp [this]
          · have : ¬ (a ≤ s.rp ∧ s.rp < s.rowj) := by omega
            simp [this]
        by_cases hq : s.rowj = q
        · subst hq
          have hb : b + (s.rowj - a) = s.rp := by omega
          have : s.rowj < s.R.length := by omega
          simp [this, e1, e2, hb, h1]
        · rw [h5 q]
          have : (a ≤ q ∧ q < s.rowj + 1) ↔ (a ≤ q ∧ q < s.rowj) := by omega
          simp [hq, this])
    fuel { R := R, rowj := a, rp := b }
    (by
      refine ⟨by simp, by simp, by simp, by simp, ?_⟩
      intro q
      have : ¬ (a ≤ q ∧ q < a) := by omega
      simp [this])
    (by simp; omega)
  obtain ⟨t, ht, ⟨h1, h2, _, h4, h5⟩, hc⟩ := key
  have hc : ¬ t.rowj < a + rs := by simpa using hc
  have : t.rowj = a + rs := by omega
  exact ⟨t, ht, this, h4, by rw [← this]; exact h5⟩

theorem row_succ_le {a b rs : Nat} (h : a < b) : a * rs + rs ≤ b * rs := by
  have : (a + 1) * rs ≤ b * rs := Nat.mul_le_mul_right rs h
  rw [Nat.add_mul] at this
  simpa using this

theorem row_range_iff {r m w rs : Nat} (hw : w < rs) :
    (m * rs ≤ r * rs + w ∧ r * rs + w < m * rs + rs) ↔ r = m := by
  constructor
  · intro ⟨h1, h2⟩
    rcases Nat.lt_trichotomy r m with h | h | h
    · have := @idx_lt r m w rs h hw; omega
    · exact h
    · have : (m + 1) * rs ≤ r * rs := Nat.mul_le_mul_right rs h
      rw [Nat.add_mul] at this; omega
  · intro h; subst h; omega

theorem tc_rows_spec (R : List Nat) (n rs i cw k fuel : Nat) (hlen : R.length = n * rs)
    (hk : k < n) (hcw : cw < rs) (hf : n * rs < fuel) :
    ∃ t, tc_rows rs (n * rs) i (k * rs) fuel { R := R, rowj := 0, ccol := cw } = some t ∧
      t.R.length = R.length ∧
      ∀ r w, w < rs → rd t.R (r * rs + w) =
        if r < n ∧ rd R (r * rs + cw) &&& (1 <<< i) ≠ 0
        then rd R (r * rs + w) ||| rd R (k * rs + w) else rd R (r * rs + w) := by
  have hrs : rs ≤ n * rs := by
    have := Nat.mul_le_mul_right rs (show 1 ≤ n by omega)
    simpa using this
  have key := whileLoop_spec (fun s : RowState => decide (s.rowj < n * rs))
    (fun s =>
      if rd s.R s.ccol &&& (1 <<< i) ≠ 0 then
        (tc_or_row (s.rowj + rs) fuel { R := s.R, rowj := s.rowj, rp := k * rs }).map
          (fun t => { R := t.R, rowj := t.rowj, ccol := s.ccol + rs })
      else
        some { R := s.R, rowj := s.rowj + rs, ccol := s.ccol + rs })
    (fun s => ∃ m, m ≤ n ∧ s.rowj = m * rs ∧ s.ccol = m * rs + cw ∧ s.R.length = R.length ∧
      ∀ r w, w < rs → rd s.R (r * rs + w) =
        if r < m ∧ rd R (r * rs + cw) &&& (1 <<< i) ≠ 0
        then rd R (r * rs + w) ||| rd R (k * rs + w) else rd R (r * rs + w))
    (fun s => n * rs - s.rowj)
    (by
      intro s ⟨m, hm, hj, hc, hl, hq⟩ hcond
      have hcond : s.rowj < n * rs := by simpa using hcond
      have hmn : m < n := by
        rcases Nat.lt_or_ge m n with h | h
        · exact h
        · have : m = n := by omega
          subst this; omega
      have hnext : (m + 1) * rs ≤ n * rs := Nat.mul_le_mul_right rs hmn
      have hsucc : (m + 1) * rs = m * rs + rs := by rw [Nat.add_mul]; simp
      have htest : rd s.R s.ccol = rd R (m * rs + cw) := by
        rw [hc, hq m cw hcw]; simp
      by_cases ht : rd s.R s.ccol &&& (1 <<< i) ≠ 0
      · have hno : m * rs = k * rs ∨ k * rs + rs ≤ m * rs ∨ m * rs + rs ≤ k * rs := by
          rcases Nat.lt_trichotomy m k with h | h | h
          · right; right; exact row_succ_le h
          · left; rw [h]
          · right; left; exact row_succ_le h
        obtain ⟨t, ht1, ht2, ht3, ht4⟩ :=
          tc_or_row_spec s.R (m * rs) (k * rs) rs fuel (by omega) hno (by omega)
        refine ⟨{ R := t.R, rowj := t.rowj, ccol := s.ccol + rs }, ?_, ?_, ?_⟩
        · show (if rd s.R s.ccol &&& (1 <<< i) ≠ 0 then _ else _) = _
          rw [if_pos ht, hj, ht1]; rfl
        · refine ⟨m + 1, hmn, by simp; omega, by simp; omega, by simp; omega, ?_⟩
          intro r w hw
          simp only
          rw [ht4]
          have hrow : rd s.R (k * rs + w) = rd R (k * rs + w) := by
            rw [hq k w hw]
            split
            · exact Nat.or_self _
            · rfl
          by_cases hr : r = m
          · subst hr
            have h1 : r * rs ≤ r * rs + w ∧ r * rs + w < r * rs + rs := by omega
            have h2 : k * rs + (r * rs + w - r * rs) = k * rs + w := by omega
            have h3 : rd R (r * rs + cw) &&& (1 <<< i) ≠ 0 := by rw [← htest]; exact ht
            rw [if_pos h1, h2, hrow, hq r w hw]
            simp [h3]
          · have h1 : ¬ (m * rs ≤ r * rs + w ∧ r * rs + w < m * rs + rs) := by
              rw [row_range_iff hw]; exact hr
            rw [if_neg h1, hq r w hw]
            have : r < m + 1 ↔ r < m := by omega
            simp only [this]
        · simp only; omega
      · refine ⟨{ R := s.R, rowj := s.rowj + rs, ccol := s.ccol + rs }, ?_, ?_, ?_⟩
        · show (if rd s.R s.ccol &&& (1 <<< i) ≠ 0 then _ else _) = _
          rw [if_neg ht]
        · refine ⟨m + 1, hmn, by simp; omega, by simp; omega, hl, ?_⟩
          intro r w hw
          simp only
          rw [hq r w hw]
          by_cases hr : r = m
          · subst hr
            have h3 : ¬ rd R (r * rs + cw) &&& (1 <<< i) ≠ 0 := by rw [← htest]; exact ht
            simp [h3]
          · have : r < m + 1 ↔ r < m := by omega
            simp only [this]
        · simp only; omega)
    fuel { R := R, rowj := 0, ccol := cw }
    ⟨0, by omega, by simp, by simp, rfl, by intro r w _; simp⟩
    (by simp; omega)
  obtain ⟨t, ht, ⟨m, hm, hj, _, hl, hq⟩, hc⟩ := key
  have hc : ¬ t.rowj < n * rs := by simpa using hc
  have hmn : m = n := by
    rcases Nat.lt_or_ge m n with h | h
    · have := @row_succ_le m n rs h; omega
    · omega
  subst hmn
  exact ⟨t, ht, hl, hq⟩

theorem le_wordsize_mul (W n : Nat) (hW : 0 < W) : n ≤ WORDSIZE W n * W := by
  unfold WORDSIZE
  have h1 := Nat.div_add_mod (n + (W - 1)) W
  have h2 := Nat.mod_lt (n + (W - 1)) hW
  rw [Nat.mul_comm] at h1
  omega

theorem wordsize_pos (W n : Nat) (hW : 0 < W) (hn : 0 < n) : 0 < WORDSIZE W n := by
  have := le_wordsize_mul W n hW
  rcases Nat.eq_zero_or_pos (WORDSIZE W n) with h | h
  · rw [h] at this; omega
  · exact h

theorem div_lt_wordsize {W n k : Nat} (hW : 0 < W) (hk : k < n) : k / W < WORDSIZE W n := by
  rw [Nat.div_lt_iff_lt_mul hW]
  have := le_wordsize_mul W n hW
  omega

theorem succ_div_mod (W k : Nat) (hW : 0 < W) :
    (k % W + 1 ≥ W → (k + 1) % W = 0 ∧ (k + 1) / W = k / W + 1) ∧
    (¬ k % W + 1 ≥ W → (k + 1) % W = k % W + 1 ∧ (k + 1) / W = k / W) := by
  have h1 := Nat.div_add_mod k W
  have h2 := Nat.mod_lt k hW
  have e : k + 1 = (k % W + 1) + W * (k / W) := by omega
  constructor
  · intro h
    have h3 : k % W + 1 = W := by omega
    rw [e, Nat.add_mul_mod_self_left, Nat.add_mul_div_left _ _ hW, h3]
    simp [Nat.div_self hW]; omega
  · intro h
    have h3 : k % W + 1 < W := by omega
    rw [e, Nat.add_mul_mod_self_left, Nat.add_mul_div_left _ _ hW,
      Nat.mod_eq_of_lt h3, Nat.div_eq_of_lt h3]
    simp

/-- Invariant rule for `transitive_closure`: with enough fuel the function returns, and
any property established initially and preserved by each pivot pass holds of the result. -/
theorem transitive_closure_inv (W : Nat) (hW : 0 < W) (R : List Nat) (n : Nat)
    (hlen : R.length = n * WORDSIZE W n) (Inv : Nat → List Nat → Prop) (h0 : Inv 0 R)
    (hstep : ∀ k R1 R2, k < n → R1.length = R.length → Inv k R1 →
      PassSpec W (WORDSIZE W n) n k R1 R2 → Inv (k + 1) R2)
    (fuel : Nat) (hf : n * WORDSIZE W n < fuel) :
    ∃ R2, transitive_closure W fuel R n = some R2 ∧ R2.length = R.length ∧ Inv n R2 := by
  have key := whileLoop_spec (fun s : PivotState => decide (s.rowi < n * WORDSIZE W n))
    (fun s =>
      (tc_rows (WORDSIZE W n) (n * WORDSIZE W n) s.i s.rowi fuel
          { R := s.R, rowj := 0, ccol := s.cword }).map
        (fun t =>
          if s.i + 1 ≥ W then
            { R := t.R, i := 0, cword := s.cword + 1, rowi := s.rowi + WORDSIZE W n }
          else { R := t.R, i := s.i + 1, cword := s.cword, rowi := s.rowi + WORDSIZE W n }))
    (fun s => ∃ k, k ≤ n ∧ s.rowi = k * WORDSIZE W n ∧ s.i = k % W ∧ s.cword = k / W ∧
      s.R.length = R.length ∧ Inv k s.R)
    (fun s => n * WORDSIZE W n - s.rowi)
    (by
      intro s ⟨k, hk, hr, hi, hc, hl, hinv⟩ hcond
      have hcond : s.rowi < n * WORDSIZE W n := by simpa using hcond
      have hkn : k < n := by
        rcases Nat.lt_or_ge k n with h | h
        · exact h
        · have : k = n := by omega
          subst this; omega
      have hnext := @row_succ_le k n (WORDSIZE W n) hkn
      obtain ⟨t, ht1, ht2, ht3⟩ := tc_rows_spec s.R n (WORDSIZE W n) (k % W) (k / W) k fuel
        (by rw [hl, hlen]) hkn (div_lt_wordsize hW hkn) hf
      have hpass : PassSpec W (WORDSIZE W n) n k s.R t.R := ⟨ht2, ht3⟩
      have hinv2 := hstep k s.R t.R hkn hl hinv hpass
      have hsd := succ_div_mod W k hW
      have hpos : 0 < WORDSIZE W n := wordsize_pos W n hW (by omega)
      rw [← hr, ← hi, ← hc] at ht1
      refine ⟨(if s.i + 1 ≥ W then
            { R := t.R, i := 0, cword := s.cword + 1, rowi := s.rowi + WORDSIZE W n }
          else { R := t.R, i := s.i + 1, cword := s.cword, rowi := s.rowi + WORDSIZE W n }),
        by beta_reduce; rw [ht1]; rfl, ?_, ?_⟩
      · rw [hi] at *
        refine ⟨k + 1, hkn, ?_, ?_, ?_, ?_, ?_⟩
        · split <;> simp [hr, Nat.add_mul]
        · split
          · rename_i h; simp; exact (hsd.1 h).1.symm
          · rename_i h; simp; exact (hsd.2 h).1.symm
        · split
          · rename_i h; simp; rw [hc]; exact (hsd.1 h).2.symm
          · rename_i h; simp; rw [hc]; exact (hsd.2 h).2.symm
        · split <;> simp [ht2, hl]
        · split <;> exact hinv2
      · split <;> simp <;> omega)
    fuel { R := R, i := 0, cword := 0, rowi := 0 }
    ⟨0, by omega, by simp, by simp, by simp, rfl, h0⟩
    (by simp; omega)
  obtain ⟨t, ht, ⟨k, hk, hr, _, _, hl, hinv⟩, hc⟩ := key
  have hc : ¬ t.rowi < n * WORDSIZE W n := by simpa using hc
  have hkn : k = n := by
    rcases Nat.lt_or_ge k n with h | h
    · have := @row_succ_le k n (WORDSIZE W n) h
      have := wordsize_pos W n hW (by omega)
      omega
    · omega
  subst hkn
  refine ⟨t.R, ?_, hl, hinv⟩
  unfold transitive_closure tc_pivots
  simp only [ht, Option.map_some']

/-! ## Warshall's invariant at the level of bits -/

theorem pass_bitAt (W rs n k : Nat) (R1 R2 : List Nat) (hW : 0 < W)
    (h : PassSpec W rs n k R1 R2) (r c : Nat) (hr : r < n) (hc : c < rs * W) :
    bitAt W rs R2 r c = (bitAt W rs R1 r c || (bitAt W rs R1 r k && bitAt W rs R1 k c)) := by
  have hw : c / W < rs := by rw [Nat.div_lt_iff_lt_mul hW]; exact hc
  unfold bitAt
  rw [h.2 r (c / W) hw]
  by_cases ht : rd R1 (r * rs + k / W) &&& (1 <<< (k % W)) ≠ 0
  · rw [if_pos ⟨hr, ht⟩, Nat.testBit_or]
    rw [and_shift_ne_zero] at ht
    simp [ht]
  · have hn : ¬ (r < n ∧ rd R1 (r * rs + k / W) &&& (1 <<< (k % W)) ≠ 0) := fun h => ht h.2
    rw [if_neg hn]
    rw [and_shift_ne_zero] at ht
    simp [ht]

theorem pass_bounded (W rs n k : Nat) (R1 R2 : List Nat) (hl : R1.length = n * rs)
    (h : PassSpec W rs n k R1 R2) (hb : ∀ q, rd R1 q < 2 ^ W) : ∀ q, rd R2 q < 2 ^ W := by
  intro q
  by_cases hq : q < n * rs
  · have hrs : 0 < rs := by
      rcases Nat.eq_zero_or_pos rs with h0 | h0
      · subst h0; simp at hq
      · exact h0
    have e : q = q / rs * rs + q % rs := by
      have := Nat.div_add_mod q rs
      rw [Nat.mul_comm] at this; omega
    rw [e, h.2 (q / rs) (q % rs) (Nat.mod_lt q hrs)]
    split
    · exact Nat.or_lt_two_pow (hb _) (hb _)
    · exact hb _
  · rw [rd_of_le R2 q (by rw [h.1, hl]; omega)]
    exact Nat.two_pow_pos W

theorem relx_transGen_lt {W n : Nat} {R : List Nat} {i j : Nat}
    (h : Relation.TransGen (relx W R n) i j) : i < n ∧ j < WORDSIZE W n * W := by
  induction h with
  | single h => exact ⟨h.1, h.2.1⟩
  | tail _ h ih => exact ⟨ih.1, h.2.1⟩

theorem transitive_closure_bits (W n : Nat) (R : List Nat) (hW : 0 < W)
    (hlen : R.length = n * WORDSIZE W n) (fuel : Nat) (hf : n * WORDSIZE W n < fuel) :
    ∃ R2, transitive_closure W fuel R n = some R2 ∧ R2.length = R.length ∧
      (∀ r c, r < n → c < WORDSIZE W n * W →
        (bitAt W (WORDSIZE W n) R2 r c = true ↔ Relation.TransGen (relx W R n) r c)) ∧
      ((∀ q, rd R q < 2 ^ W) → ∀ q, rd R2 q < 2 ^ W) := by
  have hnW := le_wordsize_mul W n hW
  obtain ⟨R2, h1, h2, hA, hB, hC, hD⟩ := transitive_closure_inv W hW R n hlen
    (fun k R1 =>
      (∀ r c, r < n → c < WORDSIZE W n * W → bitAt W (WORDSIZE W n) R1 r c = true →
        Relation.TransGen (relx W R n) r c) ∧
      (∀ r c, r < n → c < WORDSIZE W n * W → bitAt W (WORDSIZE W n) R r c = true →
        bitAt W (WORDSIZE W n) R1 r c = true) ∧
      (∀ r m c, r < n → m < k → c < WORDSIZE W n * W → bitAt W (WORDSIZE W n) R1 r m = true →
        bitAt W (WORDSIZE W n) R1 m c = true → bitAt W (WORDSIZE W n) R1 r c = true) ∧
      ((∀ q, rd R q < 2 ^ W) → ∀ q, rd R1 q < 2 ^ W))
    ⟨fun r c hr hc h => Relation.TransGen.single ⟨hr, hc, h⟩, fun _ _ _ _ h => h,
      fun _ m _ _ hm => absurd hm (Nat.not_lt_zero m), fun h => h⟩
    (by
      intro k R1 R2 hk hl ⟨hA, hB, hC, hD⟩ hp
      have hkc : k < WORDSIZE W n * W := by omega
      have hbit := pass_bitAt W (WORDSIZE W n) n k R1 R2 hW hp
      have hmono : ∀ r c, r < n → c < WORDSIZE W n * W →
          bitAt W (WORDSIZE W n) R1 r c = true → bitAt W (WORDSIZE W n) R2 r c = true := by
        intro r c hr hc h
        rw [hbit r c hr hc, h]; rfl
      have hcolk : ∀ r, r < n →
          bitAt W (WORDSIZE W n) R2 r k = bitAt W (WORDSIZE W n) R1 r k := by
        intro r hr
        rw [hbit r k hr hkc]
        cases bitAt W (WORDSIZE W n) R1 r k <;> simp
      have hrowk : ∀ c, c < WORDSIZE W n * W →
          bitAt W (WORDSIZE W n) R2 k c = bitAt W (WORDSIZE W n) R1 k c := by
        intro c hc
        rw [hbit k c hk hc]
        cases bitAt W (WORDSIZE W n) R1 k c <;> simp
      refine ⟨?_, ?_, ?_, ?_⟩
      · intro r c hr hc h
        rw [hbit r c hr hc] at h
        simp only [Bool.or_eq_true, Bool.and_eq_true] at h
        rcases h with h | ⟨h3, h4⟩
        · exact hA r c hr hc h
        · exact Relation.TransGen.trans (hA r k hr hkc h3) (hA k c hk hc h4)
      · intro r c hr hc h
        exact hmono r c hr hc (hB r c hr hc h)
      · intro r m c hr hm hc h3 h4
        have hmn : m < n := by omega
        have hmc : m < WORDSIZE W n * W := by omega
        rcases Nat.lt_or_ge m k with hlt | hge
        · rw [hbit r m hr hmc] at h3
          rw [hbit m c hmn hc] at h4
          simp only [Bool.or_eq_true, Bool.and_eq_true] at h3 h4
          rw [hbit r c hr hc]
          simp only [Bool.or_eq_true, Bool.and_eq_true]
          rcases h3 with h3 | ⟨h3, h3b⟩ <;> rcases h4 with h4 | ⟨h4, h4b⟩
          · left; exact hC r m c hr hlt hc h3 h4
          · right; exact ⟨hC r m k hr hlt hkc h3 h4, h4b⟩
          · right; exact ⟨h3, hC k m c hk hlt hc h3b h4⟩
          · right; exact ⟨h3, h4b⟩
        · have hmk : m = k := by omega
          subst hmk
          rw [hcolk r hr] at h3
          rw [hrowk c hc] at h4
          rw [hbit r c hr hc, h3, h4]; simp
      · intro hb
        exact pass_bounded W (WORDSIZE W n) n k R1 R2 (by rw [hl, hlen]) hp (hD hb))
    fuel hf
  refine ⟨R2, h1, h2, ?_, hD⟩
  intro r c hr hc
  constructor
  · exact hA r c hr hc
  · intro h
    induction h with
    | single h => exact hB r _ hr h.2.1 h.2.2
    | tail hab hbc ih =>
      rename_i b c2
      exact hC r b c2 hr hbc.1 hbc.2.1 (ih (relx_transGen_lt hab).2)
        (hB b c2 hbc.1 hbc.2.1 hbc.2.2)

theorem relx_eq_rel_of_padding {W n : Nat} {R : List Nat} (hW : 0 < W)
    (hpad : PaddingClear W R n) (i j : Nat) : relx W R n i j ↔ rel W R n i j := by
  constructor
  · intro ⟨h1, h2, h3⟩
    refine ⟨h1, ?_, h3⟩
    rcases Nat.lt_or_ge j n with h | h
    · exact h
    · rw [hpad i h1 j h2 h] at h3; cases h3
  · intro ⟨h1, h2, h3⟩
    exact ⟨h1, by have := le_wordsize_mul W n hW; omega, h3⟩

/-! ## Closed form of the diagonal loop of `reflexive_transitive_closure` -/

theorem rtc_diag_spec (W n : Nat) (R : List Nat) (fuel : Nat) (hW : 0 < W)
    (hlen : R.length = n * WORDSIZE W n) (hf : n * WORDSIZE W n < fuel) :
    ∃ t, rtc_diag W (WORDSIZE W n) (n * WORDSIZE W n) fuel { R := R, i := 0, rp := 0 } = some t ∧
      t.R.length = R.length ∧
      ∀ q b, ((rd t.R q).testBit b = true ↔
        ((rd R q).testBit b = true ∨ ∃ r, r < n ∧ q = r * WORDSIZE W n + r / W ∧ b = r % W)) := by
  have key := whileLoop_spec (fun s : DiagState => decide (s.rp < n * WORDSIZE W n))
    (fun s =>
      let R1 := wr s.R s.rp (rd s.R s.rp ||| (1 <<< s.i))
      if s.i + 1 ≥ W then some { R := R1, i := 0, rp := s.rp + 1 + WORDSIZE W n }
      else some { R := R1, i := s.i + 1, rp := s.rp + WORDSIZE W n })
    (fun s => ∃ m, m ≤ n ∧ s.rp = m * WORDSIZE W n + m / W ∧ s.i = m % W ∧
      s.R.length = R.length ∧
      ∀ q b, ((rd s.R q).testBit b = true ↔
        ((rd R q).testBit b = true ∨ ∃ r, r < m ∧ q = r * WORDSIZE W n + r / W ∧ b = r % W)))
    (fun s => n * WORDSIZE W n - s.rp)
    (by
      intro s ⟨m, hm, hrp, hi, hl, hq⟩ hcond
      have hcond : s.rp < n * WORDSIZE W n := by simpa using hcond
      have hmn : m < n := by
        rcases Nat.lt_or_ge m n with h | h
        · exact h
        · have : m = n := by omega
          subst this
          have := Nat.zero_le (m / W)
          omega
      have hsd := succ_div_mod W m hW
      have hpos : 0 < WORDSIZE W n := wordsize_pos W n hW (by omega)
      have hbits : ∀ q b,
          ((rd (wr s.R s.rp (rd s.R s.rp ||| (1 <<< s.i))) q).testBit b = true ↔
            ((rd R q).testBit b = true ∨
              ∃ r, r < m + 1 ∧ q = r * WORDSIZE W n + r / W ∧ b = r % W)) := by
        intro q b
        rw [rd_wr]
        by_cases hqe : s.rp = q
        · subst hqe
          have hlt : s.rp < s.R.length := by rw [hl, hlen]; exact hcond
          rw [if_pos ⟨rfl, hlt⟩, Nat.testBit_or, Nat.one_shiftLeft, Nat.testBit_two_pow]
          simp only [Bool.or_eq_true, decide_eq_true_eq]
          rw [hq]
          constructor
          · rintro ((h | ⟨r, h1, h2, h3⟩) | h)
            · exact Or.inl h
            · exact Or.inr ⟨r, by omega, h2, h3⟩
            · exact Or.inr ⟨m, by omega, hrp, by omega⟩
          · rintro (h | ⟨r, h1, h2, h3⟩)
            · exact Or.inl (Or.inl h)
            · rcases Nat.lt_or_ge r m with h | h
              · exact Or.inl (Or.inr ⟨r, h, h2, h3⟩)
              · have : r = m := by omega
                subst this
                exact Or.inr (by omega)
        · have hne : ¬ (s.rp = q ∧ s.rp < s.R.length) := fun h => hqe h.1
          rw [if_neg hne, hq]
          constructor
          · rintro (h | ⟨r, h1, h2, h3⟩)
            · exact Or.inl h
            · exact Or.inr ⟨r, by omega, h2, h3⟩
          · rintro (h | ⟨r, h1, h2, h3⟩)
            · exact Or.inl h
            · rcases Nat.lt_or_ge r m with h | h
              · exact Or.inr ⟨r, h, h2, h3⟩
              · have : r = m := by omega
                subst this
                exact absurd (hrp.trans h2.symm) hqe
      by_cases hw : s.i + 1 ≥ W
      · refine ⟨DiagState.mk (wr s.R s.rp (rd s.R s.rp ||| (1 <<< s.i))) 0
            (s.rp + 1 + WORDSIZE W n), by beta_reduce; simp only [if_pos hw], ?_, ?_⟩
        · rw [hi] at hw
          have := hsd.1 hw
          refine ⟨m + 1, hmn, ?_, this.1.symm, by simp [length_wr, hl], hbits⟩
          simp only [hrp, this.2, Nat.add_mul]; omega
        · simp only; omega
      · refine ⟨DiagState.mk (wr s.R s.rp (rd s.R s.rp ||| (1 <<< s.i))) (s.i + 1)
            (s.rp + WORDSIZE W n), by beta_reduce; simp only [if_neg hw], ?_, ?_⟩
        · rw [hi] at hw
          have := hsd.2 hw
          refine ⟨m + 1, hmn, ?_, by simp only [hi]; exact this.1.symm,
            by simp [length_wr, hl], hbits⟩
          simp only [hrp, this.2, Nat.add_mul]; omega
        · simp only; omega)
    fuel { R := R, i := 0, rp := 0 }
    ⟨0, by omega, by simp, by simp, rfl, by
      intro q b
      constructor
      · intro h; exact Or.inl h
      · rintro (h | ⟨r, h1, _⟩)
        · exact h
        · omega⟩
    (by simp; omega)
  obtain ⟨t, ht, ⟨m, hm, hrp, _, hl, hq⟩, hc⟩ := key
  have hc : ¬ t.rp < n * WORDSIZE W n := by simpa using hc
  have hmn : m = n := by
    rcases Nat.lt_or_ge m n with h | h
    · have := @idx_lt m n (m / W) (WORDSIZE W n) h (div_lt_wordsize hW h)
      omega
    · omega
  subst hmn
  exact ⟨t, ht, hl, hq⟩

theorem rd_lt_of_forall (W : Nat) (R : List Nat) (h : ∀ w ∈ R, w < 2 ^ W) (q : Nat) :
    rd R q < 2 ^ W := by
  by_cases hq : q < R.length
  · have : rd R q = R[q] := by
      unfold rd
      rw [List.getD_eq_getElem?_getD, List.getElem?_eq_getElem hq]; rfl
    rw [this]
    exact h _ (List.getElem_mem hq)
  · rw [rd_of_le R q (by omega)]
    exact Nat.two_pow_pos W

theorem testBit_false_of_bounded {W x b : Nat} (hx : x < 2 ^ W) (hb : W ≤ b) :
    x.testBit b = false :=
  Nat.testBit_lt_two_pow (Nat.lt_of_lt_of_le hx (Nat.pow_le_pow_right (by decide) hb))

theorem diag_bit_iff {W rs n i j : Nat} (hW : 0 < W) (hi : i < n) (hj : j < rs * W)
    (hrs : ∀ r, r < n → r / W < rs) :
    (∃ r, r < n ∧ i * rs + j / W = r * rs + r / W ∧ j % W = r % W) ↔ i = j := by
  have hjw : j / W < rs := by rw [Nat.div_lt_iff_lt_mul hW]; exact hj
  constructor
  · rintro ⟨r, hr, h1, h2⟩
    obtain ⟨e1, e2⟩ := idx_row_eq hjw (hrs r hr) h1
    subst e1
    have a := Nat.div_add_mod j W
    have b := Nat.div_add_mod i W
    rw [e2, h2] at a
    omega
  · intro h
    subst h
    exact ⟨i, hi, rfl, rfl⟩

/-- Effect of `reflexive_transitive_closure` relative to `transitive_closure`, word by
word and bit by bit, with the bound on the words carried along. -/
theorem reflexive_transitive_closure_spec (W n : Nat) (R : List Nat) (fuel : Nat) (hW : 0 < W)
    (hlen : R.length = n * WORDSIZE W n) (hf : n * WORDSIZE W n < fuel) :
    ∃ R1 R2, transitive_closure W fuel R n = some R1 ∧
      reflexive_transitive_closure W fuel R n = some R2 ∧
      R1.length = R.length ∧ R2.length = R1.length ∧
      (∀ q b, ((rd R2 q).testBit b = true ↔
        ((rd R1 q).testBit b = true ∨
          ∃ i, i < n ∧ q = i * WORDSIZE W n + i / W ∧ b = i % W))) ∧
      (∀ i j, i < n → j < WORDSIZE W n * W →
        bitAt W (WORDSIZE W n) R2 i j = (bitAt W (WORDSIZE W n) R1 i j || decide (i = j))) ∧
      (∀ r c, r < n → c < WORDSIZE W n * W →
        (bitAt W (WORDSIZE W n) R1 r c = true ↔ Relation.TransGen (relx W R n) r c)) ∧
      ((∀ q, rd R q < 2 ^ W) → ∀ q, rd R2 q < 2 ^ W) := by
  obtain ⟨R1, h1, h2, h3, h4⟩ := transitive_closure_bits W n R hW hlen fuel hf
  obtain ⟨t, ht1, ht2, ht3⟩ := rtc_diag_spec W n R1 fuel hW (by rw [h2, hlen]) hf
  refine ⟨R1, t.R, h1, ?_, h2, ht2, ht3, ?_, h3, ?_⟩
  · unfold reflexive_transitive_closure
    rw [h1]
    simp only [Option.some_bind, ht1, Option.map_some']
  · intro i j hi hj
    rw [Bool.eq_iff_iff]
    unfold bitAt
    rw [ht3]
    simp only [Bool.or_eq_true, decide_eq_true_eq]
    rw [diag_bit_iff hW hi hj (fun r hr => div_lt_wordsize hW hr)]
  · intro hb q
    apply Nat.lt_pow_two_of_testBit
    intro b hbW
    rcases hx : (rd t.R q).testBit b with _ | _
    · rfl
    · rw [ht3] at hx
      rcases hx with hx | ⟨r, _, _, hx⟩
      · rw [testBit_false_of_bounded (h4 hb q) hbW] at hx; cases hx
      · have := Nat.mod_lt r hW
        omega

/-- A pivot pass leaves unchanged a matrix that is already closed under composition. -/
theorem pass_fixed (W n k : Nat) (R X : List Nat) (hW : 0 < W)
    (hlen : R.length = n * WORDSIZE W n) (hb : ∀ q, rd R q < 2 ^ W)
    (hclosed : ∀ r m c, r < n → m < n → c < WORDSIZE W n * W →
      bitAt W (WORDSIZE W n) R r m = true → bitAt W (WORDSIZE W n) R m c = true →
      bitAt W (WORDSIZE W n) R r c = true)
    (hk : k < n) (hp : PassSpec W (WORDSIZE W n) n k R X) : X = R := by
  apply list_eq_of_rd X R hp.1
  intro q hq
  rw [hp.1, hlen] at hq
  have hrs : 0 < WORDSIZE W n := wordsize_pos W n hW (by omega)
  have e : q = q / WORDSIZE W n * WORDSIZE W n + q % WORDSIZE W n := by
    have := Nat.div_add_mod q (WORDSIZE W n)
    rw [Nat.mul_comm] at this; omega
  have hw := Nat.mod_lt q hrs
  generalize q / WORDSIZE W n = r at e
  generalize q % WORDSIZE W n = w at e hw
  subst e
  rw [hp.2 r w hw]
  split
  · rename_i h
    obtain ⟨hr, ht⟩ := h
    rw [and_shift_ne_zero] at ht
    apply Nat.eq_of_testBit_eq
    intro b
    rw [Nat.testBit_or]
    rcases hx : (rd R (k * WORDSIZE W n + w)).testBit b with _ | _
    · simp
    · rcases Nat.lt_or_ge b W with hbW | hbW
      · have hc : w * W + b < WORDSIZE W n * W := idx_lt hw hbW
        have hdiv : (w * W + b) / W = w := by
          rw [Nat.add_comm, Nat.add_mul_div_right _ _ hW, Nat.div_eq_of_lt hbW]; simp
        have hmod : (w * W + b) % W = b := by
          rw [Nat.add_comm, Nat.add_mul_mod_self_right, Nat.mod_eq_of_lt hbW]
        have h1 : bitAt W (WORDSIZE W n) R r k = true := ht
        have h2 : bitAt W (WORDSIZE W n) R k (w * W + b) = true := by
          unfold bitAt; rw [hdiv, hmod]; exact hx
        have h3 := hclosed r k (w * W + b) hr hk hc h1 h2
        unfold bitAt at h3
        rw [hdiv, hmod] at h3
        simp [h3]
      · rw [testBit_false_of_bounded (hb _) hbW] at hx; cases hx
  · rfl

/-! ## Closed forms of the loops of `set_first_derives` -/

theorem foldl_range'_inv {σ : Type} (f : σ → Nat → σ) (Inv : Nat → σ → Prop) :
    ∀ (n a : Nat) (s0 : σ), Inv 0 s0 →
      (∀ m s, m < n → Inv m s → Inv (m + 1) (f s (a + m))) →
      Inv n ((List.range' a n).foldl f s0) := by
  intro n
  induction n generalizing Inv with
  | zero => intro a s0 h0 _; simpa using h0
  | succ n ih =>
    intro a s0 h0 hstep
    rw [List.range'_succ, List.foldl_cons]
    apply ih (fun m s => Inv (m + 1) s) (a + 1) (f s0 a)
    · have := hstep 0 s0 (by omega) h0
      simpa using this
    · intro m s hm hi
      have := hstep (m + 1) s (by omega) hi
      have e : a + 1 + m = a + (m + 1) := by omega
      rw [e]; exact this

theorem length_SETBIT (W : Nat) (R : List Nat) (r n : Nat) :
    (SETBIT W R r n).length = R.length := by
  unfold SETBIT; exact length_wr _ _ _

theorem testBit_SETBIT (W : Nat) (R : List Nat) (r n : Nat) (h : r + n / W < R.length)
    (q b : Nat) :
    ((rd (SETBIT W R r n) q).testBit b = true ↔
      ((rd R q).testBit b = true ∨ (q = r + n / W ∧ b = n % W))) := by
  unfold SETBIT
  rw [rd_wr]
  by_cases hq : r + n / W = q
  · subst hq
    rw [if_pos ⟨rfl, h⟩, Nat.testBit_or, Nat.one_shiftLeft, Nat.testBit_two_pow]
    simp only [Bool.or_eq_true, decide_eq_true_eq, true_and]
    constructor
    · rintro (h | h)
      · exact Or.inl h
      · exact Or.inr h.symm
    · rintro (h | h)
      · exact Or.inl h
      · exact Or.inr h.symm
  · have : ¬ (r + n / W = q ∧ r + n / W < R.length) := fun h => hq h.1
    rw [if_neg this]
    constructor
    · intro h; exact Or.inl h
    · rintro (h | ⟨h, _⟩)
      · exact h
      · exact absurd h.symm hq

theorem set_first_derives_scan_spec (W rrow : Nat) :
    ∀ (l : List Int) (fd : List Nat), (∀ rule ∈ rulesOf l, rrow + rule / W < fd.length) →
      (set_first_derives_scan W rrow l fd).length = fd.length ∧
      ∀ q b, ((rd (set_first_derives_scan W rrow l fd) q).testBit b = true ↔
        ((rd fd q).testBit b = true ∨
          ∃ rule, rule ∈ rulesOf l ∧ q = rrow + rule / W ∧ b = rule % W)) := by
  intro l
  induction l with
  | nil =>
    intro fd _
    refine ⟨rfl, fun q b => ?_⟩
    simp [set_first_derives_scan, rulesOf]
  | cons rule rp ih =>
    intro fd h
    by_cases hr : rule ≥ 0
    · have hro : rulesOf (rule :: rp) = rule.toNat :: rulesOf rp := by simp [rulesOf, hr]
      rw [hro] at h
      have h1 : rrow + rule.toNat / W < fd.length := h _ (List.mem_cons_self _ _)
      have h2 := ih (SETBIT W fd rrow rule.toNat) (by
        intro r hr2
        rw [length_SETBIT]
        exact h r (List.mem_cons_of_mem _ hr2))
      have e : set_first_derives_scan W rrow (rule :: rp) fd =
          set_first_derives_scan W rrow rp (SETBIT W fd rrow rule.toNat) := by
        simp [set_first_derives_scan, hr]
      rw [e, hro]
      refine ⟨by rw [h2.1, length_SETBIT], fun q b => ?_⟩
      rw [h2.2, testBit_SETBIT W fd rrow rule.toNat h1]
      simp only [List.mem_cons]
      constructor
      · rintro ((h | h) | ⟨r, h3, h4⟩)
        · exact Or.inl h
        · exact Or.inr ⟨rule.toNat, Or.inl rfl, h⟩
        · exact Or.inr ⟨r, Or.inr h3, h4⟩
      · rintro (h | ⟨r, h3 | h3, h4⟩)
        · exact Or.inl (Or.inl h)
        · subst h3; exact Or.inl (Or.inr h4)
        · exact Or.inr ⟨r, h3, h4⟩
    · have hro : rulesOf (rule :: rp) = [] := by simp [rulesOf, hr]
      have e : set_first_derives_scan W rrow (rule :: rp) fd = fd := by
        simp [set_first_derives_scan, hr]
      rw [e, hro]
      refine ⟨rfl, fun q b => ?_⟩
      simp

theorem set_first_derives_col_spec (W : Nat) (hW : 0 < W) (g : Grammar) (EFF : List Nat)
    (rrow v0 m j : Nat) (s : ColState)
    (hin : ∀ rule ∈ rulesOf (g.derives j), rrow + rule / W < s.fd.length)
    (hs : (s.k ≥ W ∧ m % W = 0 ∧ s.vrow = v0 + m / W) ∨
      (s.k < W ∧ s.k = m % W ∧ s.cword = rd EFF (v0 + m / W) ∧ s.vrow = v0 + m / W + 1)) :
    let t := set_first_derives_col W g EFF rrow s j
    ((t.k ≥ W ∧ (m + 1) % W = 0 ∧ t.vrow = v0 + (m + 1) / W) ∨
      (t.k < W ∧ t.k = (m + 1) % W ∧ t.cword = rd EFF (v0 + (m + 1) / W) ∧
        t.vrow = v0 + (m + 1) / W + 1)) ∧
    t.fd.length = s.fd.length ∧
    ∀ q b, ((rd t.fd q).testBit b = true ↔
      ((rd s.fd q).testBit b = true ∨
        ((rd EFF (v0 + m / W)).testBit (m % W) = true ∧
          ∃ rule, rule ∈ rulesOf (g.derives j) ∧ q = rrow + rule / W ∧ b = rule % W))) := by
  intro t
  have hmod := Nat.mod_lt m hW
  have hsd := succ_div_mod W m hW
  -- the state after the optional reload of `cword`
  obtain ⟨s1, hs1, hk, hc, hv, hfd⟩ : ∃ s1 : ColState,
      s1 = (if s.k ≥ W then
        ({ fd := s.fd, k := 0, cword := rd EFF s.vrow, vrow := s.vrow + 1 } : ColState) else s) ∧
      s1.k = m % W ∧ s1.cword = rd EFF (v0 + m / W) ∧ s1.vrow = v0 + m / W + 1 ∧
      s1.fd = s.fd := by
    refine ⟨_, rfl, ?_⟩
    rcases hs with ⟨h1, h2, h3⟩ | ⟨h1, h2, h3, h4⟩
    · rw [if_pos h1]
      exact ⟨h2.symm, by simp only [h3], by simp only [h3], rfl⟩
    · rw [if_neg (by omega)]
      exact ⟨h2, h3, h4, rfl⟩
  have ht : t = ColState.mk (if s1.cword &&& (1 <<< s1.k) ≠ 0 then
        set_first_derives_scan W rrow (g.derives j) s1.fd else s1.fd)
      (s1.k + 1) s1.cword s1.vrow := by
    rw [hs1]; rfl
  have hscan := set_first_derives_scan_spec W rrow (g.derives j) s.fd hin
  refine ⟨?_, ?_, ?_⟩
  · rw [ht]
    simp only [hk, hc, hv]
    by_cases h : m % W + 1 ≥ W
    · left
      have := hsd.1 h
      exact ⟨h, this.1, by rw [this.2]; omega⟩
    · right
      have := hsd.2 h
      exact ⟨by omega, this.1.symm, by rw [this.2], by rw [this.2]⟩
  · rw [ht]
    simp only [hfd]
    split
    · exact hscan.1
    · rfl
  · intro q b
    rw [ht]
    simp only [hfd, hk, hc]
    by_cases h : rd EFF (v0 + m / W) &&& (1 <<< (m % W)) ≠ 0
    · rw [if_pos h, hscan.2]
      rw [and_shift_ne_zero] at h
      simp only [h, true_and]
    · rw [if_neg h]
      rw [and_shift_ne_zero] at h
      simp only [h, false_and, or_false]
      simp

theorem set_first_derives_cols_spec (W : Nat) (hW : 0 < W) (g : Grammar) (EFF : List Nat)
    (rrow v0 : Nat) (fd : List Nat)
    (hin : ∀ j, j < g.nsyms - g.start_symbol →
      ∀ rule ∈ rulesOf (g.derives (g.start_symbol + j)), rrow + rule / W < fd.length) :
    (set_first_derives_cols W g EFF rrow
        { fd := fd, k := W, cword := 0, vrow := v0 }).fd.length = fd.length ∧
    ∀ q b, ((rd (set_first_derives_cols W g EFF rrow
        { fd := fd, k := W, cword := 0, vrow := v0 }).fd q).testBit b = true ↔
      ((rd fd q).testBit b = true ∨
        ∃ j, j < g.nsyms - g.start_symbol ∧ (rd EFF (v0 + j / W)).testBit (j % W) = true ∧
          ∃ rule, rule ∈ rulesOf (g.derives (g.start_symbol + j)) ∧
            q = rrow + rule / W ∧ b = rule % W)) := by
  have key := foldl_range'_inv (set_first_derives_col W g EFF rrow)
    (fun m s =>
      ((s.k ≥ W ∧ m % W = 0 ∧ s.vrow = v0 + m / W) ∨
        (s.k < W ∧ s.k = m % W ∧ s.cword = rd EFF (v0 + m / W) ∧ s.vrow = v0 + m / W + 1)) ∧
      s.fd.length = fd.length ∧
      ∀ q b, ((rd s.fd q).testBit b = true ↔
        ((rd fd q).testBit b = true ∨
          ∃ j, j < m ∧ (rd EFF (v0 + j / W)).testBit (j % W) = true ∧
            ∃ rule, rule ∈ rulesOf (g.derives (g.start_symbol + j)) ∧
              q = rrow + rule / W ∧ b = rule % W)))
    (g.nsyms - g.start_symbol) g.start_symbol { fd := fd, k := W, cword := 0, vrow := v0 }
    (by
      refine ⟨Or.inl ⟨by simp, by simp, by simp⟩, rfl, fun q b => ?_⟩
      constructor
      · intro h; exact Or.inl h
      · rintro (h | ⟨j, hj, _⟩)
        · exact h
        · omega)
    (by
      intro m s hm ⟨h1, h2, h3⟩
      have hstep := set_first_derives_col_spec W hW g EFF rrow v0 m (g.start_symbol + m) s
        (by rw [h2]; exact hin m hm) h1
      refine ⟨hstep.1, by rw [hstep.2.1, h2], fun q b => ?_⟩
      rw [hstep.2.2, h3]
      constructor
      · rintro ((h | ⟨j, hj, h4⟩) | ⟨h4, h5⟩)
        · exact Or.inl h
        · exact Or.inr ⟨j, by omega, h4⟩
        · exact Or.inr ⟨m, by omega, h4, h5⟩
      · rintro (h | ⟨j, hj, h4, h5⟩)
        · exact Or.inl (Or.inl h)
        · rcases Nat.lt_or_ge j m with hlt | hge
          · exact Or.inl (Or.inr ⟨j, hlt, h4, h5⟩)
          · have : j = m := by omega
            subst this
            exact Or.inr ⟨h4, h5⟩)
  exact ⟨key.2.1, key.2.2⟩

theorem set_first_derives_rows_spec (W : Nat) (hW : 0 < W) (g : Grammar) (EFF : List Nat)
    (hsym : SymbolsOK g) (hd : DerivesInRange g) (fd : List Nat)
    (hlen : fd.length = g.nvars * WORDSIZE W g.nrules) :
    (set_first_derives_rows W g EFF (WORDSIZE W g.nrules) (WORDSIZE W g.nvars) fd).1.length =
      fd.length ∧
    ∀ q b, ((rd (set_first_derives_rows W g EFF (WORDSIZE W g.nrules)
        (WORDSIZE W g.nvars) fd).1 q).testBit b = true ↔
      ((rd fd q).testBit b = true ∨
        ∃ a, a < g.nvars ∧ ∃ j, j < g.nvars ∧
          bitAt W (WORDSIZE W g.nvars) EFF a j = true ∧
          ∃ rule, rule ∈ rulesOf (g.derives (g.start_symbol + j)) ∧
            q = a * WORDSIZE W g.nrules + rule / W ∧ b = rule % W)) := by
  obtain ⟨hs1, hs2⟩ := hsym
  have hnv : g.nsyms - g.start_symbol = g.nvars := by omega
  have key := foldl_range'_inv
    (fun (st : List Nat × Nat) i =>
      let vrow := (i - g.ntokens) * WORDSIZE W g.nvars
      let s := set_first_derives_cols W g EFF st.2
        { fd := st.1, k := W, cword := 0, vrow := vrow }
      (s.fd, st.2 + WORDSIZE W g.nrules))
    (fun m st =>
      st.2 = m * WORDSIZE W g.nrules ∧ st.1.length = fd.length ∧
      ∀ q b, ((rd st.1 q).testBit b = true ↔
        ((rd fd q).testBit b = true ∨
          ∃ a, a < m ∧ ∃ j, j < g.nvars ∧
            bitAt W (WORDSIZE W g.nvars) EFF a j = true ∧
            ∃ rule, rule ∈ rulesOf (g.derives (g.start_symbol + j)) ∧
              q = a * WORDSIZE W g.nrules + rule / W ∧ b = rule % W)))
    (g.nsyms - g.start_symbol) g.start_symbol (fd, 0)
    (by
      refine ⟨by simp, rfl, fun q b => ?_⟩
      constructor
      · intro h; exact Or.inl h
      · rintro (h | ⟨a, ha, _⟩)
        · exact h
        · omega)
    (by
      intro m st hm ⟨h1, h2, h3⟩
      have hmv : m < g.nvars := by omega
      have hcols := set_first_derives_cols_spec W hW g EFF st.2
        ((g.start_symbol + m - g.ntokens) * WORDSIZE W g.nvars) st.1 (by
          intro j hj rule hr
          have hrn := hd j (by omega) rule hr
          have := @idx_lt m g.nvars (rule / W) (WORDSIZE W g.nrules) hmv
            (div_lt_wordsize hW hrn)
          rw [h1, h2, hlen]; exact this)
      have hv : g.start_symbol + m - g.ntokens = m := by omega
      beta_reduce
      refine ⟨by simp only [h1, Nat.add_mul]; omega, by rw [hcols.1, h2], fun q b => ?_⟩
      rw [hcols.2, h3, h1, hnv, hv]
      unfold bitAt
      constructor
      · rintro ((h | ⟨a, ha, h4⟩) | ⟨j, hj, h4⟩)
        · exact Or.inl h
        · exact Or.inr ⟨a, by omega, h4⟩
        · exact Or.inr ⟨m, by omega, j, hj, h4⟩
      · rintro (h | ⟨a, ha, j, hj, h4⟩)
        · exact Or.inl (Or.inl h)
        · rcases Nat.lt_or_ge a m with hlt | hge
          · exact Or.inl (Or.inr ⟨a, hlt, j, hj, h4⟩)
          · have : a = m := by omega
            subst this
            exact Or.inr ⟨j, hj, h4⟩)
  rw [hnv] at key
  unfold set_first_derives_rows
  rw [hnv]
  exact ⟨key.2.1, key.2.2⟩

theorem rd_replicate_zero (n q : Nat) : rd (List.replicate n 0) q = 0 := by
  unfold rd
  rw [List.getD_eq_getElem?_getD]
  by_cases h : q < n
  · rw [List.getElem?_eq_getElem (by simpa using h)]; simp
  · rw [List.getElem?_eq_none (by simpa using h)]; rfl

/-- Contents of the matrix built by `set_first_derives` in terms of the matrix `EFF` that
`set_EFF` returned: bit `(a, r)` is set iff some set bit `(a, j)` of `EFF` has rule `r` in
the `derives` list of nonterminal `start_symbol + j`. -/
theorem set_first_derives_spec (W : Nat) (hW : 0 < W) (g : Grammar) (fuel : Nat)
    (hsym : SymbolsOK g) (hd : DerivesInRange g) (EFF : List Nat)
    (he : set_EFF W fuel g = some EFF) :
    ∃ fd, set_first_derives W fuel g = some fd ∧
      fd.length = g.nvars * WORDSIZE W g.nrules ∧
      ∀ a r, a < g.nvars → r < WORDSIZE W g.nrules * W →
        (bitAt W (WORDSIZE W g.nrules) fd a r = true ↔
          ∃ j, j < g.nvars ∧ bitAt W (WORDSIZE W g.nvars) EFF a j = true ∧
            r ∈ rulesOf (g.derives (g.start_symbol + j))) := by
  have hrows := set_first_derives_rows_spec W hW g EFF hsym hd
    (List.replicate (g.nvars * WORDSIZE W g.nrules) 0) (by simp)
  refine ⟨_, by unfold set_first_derives; rw [he]; rfl, ?_, ?_⟩
  · rw [hrows.1]; simp
  · intro a r ha hr
    have hrw : r / W < WORDSIZE W g.nrules := by rw [Nat.div_lt_iff_lt_mul hW]; exact hr
    unfold bitAt
    rw [hrows.2, rd_replicate_zero]
    simp only [Nat.zero_testBit, Bool.false_eq_true, false_or]
    constructor
    · rintro ⟨a2, ha2, j, hj, h1, rule, h2, h3, h4⟩
      have hrule := hd j hj rule h2
      obtain ⟨e1, e2⟩ := idx_row_eq hrw (div_lt_wordsize hW hrule) h3
      subst e1
      have e3 : r = rule := by
        have x := Nat.div_add_mod r W
        have y := Nat.div_add_mod rule W
        rw [e2, h4] at x
        omega
      subst e3
      exact ⟨j, hj, h1, h2⟩
    · rintro ⟨j, hj, h1, h2⟩
      exact ⟨a, ha, j, hj, h1, r, h2, rfl, rfl⟩

theorem length_set_EFF_scan (W : Nat) (g : Grammar) (row : Nat) :
    ∀ (l : List Int) (EFF : List Nat), (set_EFF_scan W g row l EFF).length = EFF.length := by
  intro l
  induction l with
  | nil => intro EFF; rfl
  | cons rule sp ih =>
    intro EFF
    unfold set_EFF_scan
    split
    · simp only
      split
      · rw [ih, length_SETBIT]
      · rw [ih]
    · rfl

theorem length_set_EFF_rows (W : Nat) (g : Grammar) (rowsize : Nat) (EFF : List Nat) :
    (set_EFF_rows W g rowsize EFF).1.length = EFF.length := by
  unfold set_EFF_rows
  exact foldl_range'_inv
    (fun (st : List Nat × Nat) i => (set_EFF_scan W g st.2 (g.derives i) st.1, st.2 + rowsize))
    (fun _ st => st.1.length = EFF.length) _ _ _ rfl
    (by intro m st _ h; simp only [length_set_EFF_scan, h])

/-- With enough fuel `set_EFF` returns a matrix of `nvars` rows. -/
theorem set_EFF_returns (W : Nat) (hW : 0 < W) (g : Grammar) (fuel : Nat)
    (hf : g.nvars * WORDSIZE W g.nvars < fuel) :
    ∃ EFF, set_EFF W fuel g = some EFF ∧ EFF.length = g.nvars * WORDSIZE W g.nvars := by
  have hl : (set_EFF_rows W g (WORDSIZE W g.nvars)
      (List.replicate (g.nvars * WORDSIZE W g.nvars) 0)).1.length =
      g.nvars * WORDSIZE W g.nvars := by
    rw [length_set_EFF_rows]; simp
  obtain ⟨R1, R2, _, h2, h3, h4, _⟩ := reflexive_transitive_closure_spec W g.nvars _ fuel hW hl hf
  exact ⟨R2, h2, by rw [h4, h3, hl]⟩

/-! ## Closed form of `set_EFF` -/

theorem set_EFF_scan_spec (W : Nat) (g : Grammar) (row : Nat) :
    ∀ (l : List Int) (EFF : List Nat),
      (∀ r ∈ scannedRules l, ISVAR g (ritemAt g (rrhsAt g r)) = true →
        row + (ritemAt g (rrhsAt g r) - g.start_symbol).toNat / W < EFF.length) →
      (set_EFF_scan W g row l EFF).length = EFF.length ∧
      ∀ q b, ((rd (set_EFF_scan W g row l EFF) q).testBit b = true ↔
        ((rd EFF q).testBit b = true ∨
          ∃ r, r ∈ scannedRules l ∧ ISVAR g (ritemAt g (rrhsAt g r)) = true ∧
            q = row + (ritemAt g (rrhsAt g r) - g.start_symbol).toNat / W ∧
            b = (ritemAt g (rrhsAt g r) - g.start_symbol).toNat % W)) := by
  intro l
  induction l with
  | nil =>
    intro EFF _
    refine ⟨rfl, fun q b => ?_⟩
    simp [set_EFF_scan, scannedRules]
  | cons rule sp ih =>
    intro EFF h
    by_cases hr : rule > 0
    · have hro : scannedRules (rule :: sp) = rule.toNat :: scannedRules sp := by
        simp [scannedRules, hr]
      rw [hro] at h
      by_cases hv : ISVAR g (ritemAt g (rrhsAt g rule.toNat)) = true
      · have h1 := h _ (List.mem_cons_self _ _) hv
        have h2 := ih (SETBIT W EFF row
          (ritemAt g (rrhsAt g rule.toNat) - g.start_symbol).toNat) (by
            intro r hr2 hv2
            rw [length_SETBIT]
            exact h r (List.mem_cons_of_mem _ hr2) hv2)
        have e : set_EFF_scan W g row (rule :: sp) EFF = set_EFF_scan W g row sp
            (SETBIT W EFF row (ritemAt g (rrhsAt g rule.toNat) - g.start_symbol).toNat) := by
          simp [set_EFF_scan, hr, hv]
        rw [e, hro]
        refine ⟨by rw [h2.1, length_SETBIT], fun q b => ?_⟩
        rw [h2.2, testBit_SETBIT W EFF row _ h1]
        simp only [List.mem_cons]
        constructor
        · rintro ((h | h) | ⟨r, h3, h4⟩)
          · exact Or.inl h
          · exact Or.inr ⟨rule.toNat, Or.inl rfl, hv, h⟩
          · exact Or.inr ⟨r, Or.inr h3, h4⟩
        · rintro (h | ⟨r, h3 | h3, h4⟩)
          · exact Or.inl (Or.inl h)
          · subst h3; exact Or.inl (Or.inr h4.2)
          · exact Or.inr ⟨r, h3, h4⟩
      · have h2 := ih EFF (fun r hr2 hv2 => h r (List.mem_cons_of_mem _ hr2) hv2)
        have e : set_EFF_scan W g row (rule :: sp) EFF = set_EFF_scan W g row sp EFF := by
          simp [set_EFF_scan, hr, hv]
        rw [e, hro]
        refine ⟨h2.1, fun q b => ?_⟩
        rw [h2.2]
        simp only [List.mem_cons]
        constructor
        · rintro (h | ⟨r, h3, h4⟩)
          · exact Or.inl h
          · exact Or.inr ⟨r, Or.inr h3, h4⟩
        · rintro (h | ⟨r, h3 | h3, h4⟩)
          · exact Or.inl h
          · subst h3; exact absurd h4.1 hv
          · exact Or.inr ⟨r, h3, h4⟩
    · have hro : scannedRules (rule :: sp) = [] := by simp [scannedRules, hr]
      have e : set_EFF_scan W g row (rule :: sp) EFF = EFF := by
        simp [set_EFF_scan, hr]
      rw [e, hro]
      refine ⟨rfl, fun q b => ?_⟩
      simp

/-- The matrix that the loop of `set_EFF` builds before the closure: bit `(a, b)` is set iff
a rule visited in `derives[start_symbol + a]` begins with the nonterminal
`start_symbol + b`. -/
theorem set_EFF_rows_spec (W : Nat) (hW : 0 < W) (g : Grammar) (hsym : SymbolsOK g)
    (hfs : FirstSymbolsOK g) :
    (set_EFF_rows W g (WORDSIZE W g.nvars)
      (List.replicate (g.nvars * WORDSIZE W g.nvars) 0)).1.length =
        g.nvars * WORDSIZE W g.nvars ∧
    ∀ a c, a < g.nvars → c < WORDSIZE W g.nvars * W →
      (bitAt W (WORDSIZE W g.nvars) (set_EFF_rows W g (WORDSIZE W g.nvars)
        (List.replicate (g.nvars * WORDSIZE W g.nvars) 0)).1 a c = true ↔
        (c < g.nvars ∧ ScanStep g (g.start_symbol + a) (g.start_symbol + c))) := by
  obtain ⟨hs1, hs2⟩ := hsym
  have hnv : g.nsyms - g.start_symbol = g.nvars := by omega
  have hsymlt : ∀ j, j < g.nvars → ∀ r ∈ scannedRules (g.derives (g.start_symbol + j)),
      ISVAR g (ritemAt g (rrhsAt g r)) = true →
      (ritemAt g (rrhsAt g r) - g.start_symbol).toNat < g.nvars := by
    intro j hj r hr hv
    have h1 := hfs j hj r hr
    unfold ISVAR at hv
    have hv : (g.start_symbol : Int) ≤ ritemAt g (rrhsAt g r) := by simpa using hv
    omega
  have key := foldl_range'_inv
    (fun (st : List Nat × Nat) i =>
      (set_EFF_scan W g st.2 (g.derives i) st.1, st.2 + WORDSIZE W g.nvars))
    (fun m st =>
      st.2 = m * WORDSIZE W g.nvars ∧ st.1.length = g.nvars * WORDSIZE W g.nvars ∧
      ∀ q b, ((rd st.1 q).testBit b = true ↔
        ∃ a, a < m ∧ ∃ r, r ∈ scannedRules (g.derives (g.start_symbol + a)) ∧
          ISVAR g (ritemAt g (rrhsAt g r)) = true ∧
          q = a * WORDSIZE W g.nvars +
            (ritemAt g (rrhsAt g r) - g.start_symbol).toNat / W ∧
          b = (ritemAt g (rrhsAt g r) - g.start_symbol).toNat % W))
    (g.nsyms - g.start_symbol) g.start_symbol
    (List.replicate (g.nvars * WORDSIZE W g.nvars) 0, 0)
    (by
      refine ⟨by simp, by simp, fun q b => ?_⟩
      rw [rd_replicate_zero]
      simp)
    (by
      intro m st hm ⟨h1, h2, h3⟩
      have hmv : m < g.nvars := by omega
      have hscan := set_EFF_scan_spec W g st.2 (g.derives (g.start_symbol + m)) st.1 (by
        intro r hr hv
        have := @idx_lt m g.nvars _ (WORDSIZE W g.nvars) hmv
          (div_lt_wordsize hW (hsymlt m hmv r hr hv))
        rw [h1, h2]; exact this)
      beta_reduce
      refine ⟨by simp only [h1, Nat.add_mul]; omega, by rw [hscan.1, h2], fun q b => ?_⟩
      rw [hscan.2, h3, h1]
      constructor
      · rintro (⟨a, ha, h4⟩ | h4)
        · exact ⟨a, by omega, h4⟩
        · exact ⟨m, by omega, h4⟩
      · rintro ⟨a, ha, h4⟩
        rcases Nat.lt_or_ge a m with hlt | hge
        · exact Or.inl ⟨a, hlt, h4⟩
        · have : a = m := by omega
          subst this
          exact Or.inr h4)
  rw [hnv] at key
  unfold set_EFF_rows
  rw [hnv]
  refine ⟨key.2.1, ?_⟩
  intro a c ha hc
  have hcw : c / W < WORDSIZE W g.nvars := by rw [Nat.div_lt_iff_lt_mul hW]; exact hc
  unfold bitAt
  rw [key.2.2]
  constructor
  · rintro ⟨a2, ha2, r, hr, hv, h4, h5⟩
    have hlt := hsymlt a2 ha2 r hr hv
    obtain ⟨e1, e2⟩ := idx_row_eq hcw (div_lt_wordsize hW hlt) h4
    subst e1
    have e3 : c = (ritemAt g (rrhsAt g r) - g.start_symbol).toNat := by
      have x := Nat.div_add_mod c W
      have y := Nat.div_add_mod (ritemAt g (rrhsAt g r) - g.start_symbol).toNat W
      rw [e2, h5] at x
      omega
    unfold ISVAR at hv
    have hv : (g.start_symbol : Int) ≤ ritemAt g (rrhsAt g r) := by simpa using hv
    refine ⟨by omega, r, hr, by omega, by omega⟩
  · rintro ⟨_, r, hr, h1, h2⟩
    have e : (ritemAt g (rrhsAt g r) - g.start_symbol).toNat = c := by omega
    refine ⟨a, ha, r, hr, ?_, by rw [e], by rw [e]⟩
    unfold ISVAR
    simp only [decide_eq_true_eq]
    omega

theorem scanStep_target (g : Grammar) (hsym : SymbolsOK g) (hfs : FirstSymbolsOK g)
    (a Y : Nat) (ha : a < g.nvars) (h : ScanStep g (g.start_symbol + a) Y) :
    ∃ c, Y = g.start_symbol + c ∧ c < g.nvars := by
  obtain ⟨r, hr, h1, h2⟩ := h
  have := hfs a ha r hr
  obtain ⟨hs1, hs2⟩ := hsym
  exact ⟨Y - g.start_symbol, by omega, by omega⟩

/-- What `set_EFF` computes: with enough fuel it returns, and bit `(a, c)` of the result is
set iff `c < nvars` and `start_symbol + c` is reached from `start_symbol + a` by a chain,
possibly empty, of steps through the rules that the loop of `set_EFF` visits. -/
theorem set_EFF_spec (W : Nat) (hW : 0 < W) (g : Grammar) (fuel : Nat) (hsym : SymbolsOK g)
    (hfs : FirstSymbolsOK g) (hf : g.nvars * WORDSIZE W g.nvars < fuel) :
    ∃ EFF, set_EFF W fuel g = some EFF ∧ EFF.length = g.nvars * WORDSIZE W g.nvars ∧
      ∀ a c, a < g.nvars → c < WORDSIZE W g.nvars * W →
        (bitAt W (WORDSIZE W g.nvars) EFF a c = true ↔
          (c < g.nvars ∧
            Relation.ReflTransGen (ScanStep g) (g.start_symbol + a) (g.start_symbol + c))) := by
  obtain ⟨hl, hrows⟩ := set_EFF_rows_spec W hW g hsym hfs
  obtain ⟨R1, R2, _, h2, h3, h4, _, h6, h7, _⟩ :=
    reflexive_transitive_closure_spec W g.nvars _ fuel hW hl hf
  have hnW := le_wordsize_mul W g.nvars hW
  have hA : ∀ a c, Relation.TransGen (relx W (set_EFF_rows W g (WORDSIZE W g.nvars)
      (List.replicate (g.nvars * WORDSIZE W g.nvars) 0)).1 g.nvars) a c →
      c < g.nvars ∧
        Relation.TransGen (ScanStep g) (g.start_symbol + a) (g.start_symbol + c) := by
    intro a c h
    induction h with
    | single h =>
      obtain ⟨x1, x2⟩ := (hrows _ _ h.1 h.2.1).1 h.2.2
      exact ⟨x1, Relation.TransGen.single x2⟩
    | tail _ h ih =>
      obtain ⟨x1, x2⟩ := (hrows _ _ h.1 h.2.1).1 h.2.2
      exact ⟨x1, Relation.TransGen.tail ih.2 x2⟩
  have hB : ∀ X Y, Relation.TransGen (ScanStep g) X Y → ∀ a, X = g.start_symbol + a →
      a < g.nvars → ∃ c, Y = g.start_symbol + c ∧ c < g.nvars ∧
        Relation.TransGen (relx W (set_EFF_rows W g (WORDSIZE W g.nvars)
          (List.replicate (g.nvars * WORDSIZE W g.nvars) 0)).1 g.nvars) a c := by
    intro X Y h
    induction h with
    | single h =>
      intro a ea ha
      subst ea
      obtain ⟨c, ec, hc⟩ := scanStep_target g hsym hfs a _ ha h
      subst ec
      exact ⟨c, rfl, hc, Relation.TransGen.single
        ⟨ha, by omega, (hrows a c ha (by omega)).2 ⟨hc, h⟩⟩⟩
    | tail _ h ih =>
      intro a ea ha
      obtain ⟨z, ez, hz, hzt⟩ := ih a ea ha
      subst ez
      obtain ⟨c, ec, hc⟩ := scanStep_target g hsym hfs z _ hz h
      subst ec
      exact ⟨c, rfl, hc, Relation.TransGen.tail hzt
        ⟨hz, by omega, (hrows z c hz (by omega)).2 ⟨hc, h⟩⟩⟩
  refine ⟨R2, h2, by rw [h4, h3, hl], ?_⟩
  intro a c ha hc
  rw [h6 a c ha hc]
  simp only [Bool.or_eq_true, decide_eq_true_eq]
  rw [h7 a c ha hc]
  constructor
  · rintro (h | h)
    · obtain ⟨x1, x2⟩ := hA a c h
      exact ⟨x1, x2.to_reflTransGen⟩
    · subst h
      exact ⟨ha, Relation.ReflTransGen.refl⟩
  · rintro ⟨h1, h⟩
    rcases Relation.reflTransGen_iff_eq_or_transGen.1 h with e | h
    · right; omega
    · left
      obtain ⟨c2, e, _, h5⟩ := hB _ _ h a rfl ha
      have : c = c2 := by omega
      subst this
      exact h5

theorem scannedRules_eq_rulesOf :
    ∀ l : List Int, (∀ r ∈ rulesOf l, 0 < r) → scannedRules l = rulesOf l := by
  intro l
  induction l with
  | nil => intro _; rfl
  | cons rule sp ih =>
    intro h
    by_cases hr : rule ≥ 0
    · have hro : rulesOf (rule :: sp) = rule.toNat :: rulesOf sp := by simp [rulesOf, hr]
      rw [hro] at h
      have hpos : 0 < rule.toNat := h _ (List.mem_cons_self _ _)
      have hr2 : rule > 0 := by omega
      rw [hro]
      simp only [scannedRules, hr2, if_true]
      rw [ih (fun r hr3 => h r (List.mem_cons_of_mem _ hr3))]
    · have hr2 : ¬ rule > 0 := by omega
      simp [scannedRules, rulesOf, hr, hr2]

theorem derivesInRange_of_exact {g : Grammar} (h : DerivesExact g) : DerivesInRange g :=
  fun j hj rule hr => ((h j hj).1 rule hr).1

/-! ## The merge walk of `closure` -/

theorem closure_copy_lt_eq (d : Nat) :
    ∀ (csp out : List Nat), closure_copy_lt d csp out =
      (csp.dropWhile (fun c => decide (c < d)), out ++ csp.takeWhile (fun c => decide (c < d))) := by
  intro csp
  induction csp with
  | nil => intro out; simp [closure_copy_lt]
  | cons c csp ih =>
    intro out
    by_cases h : c < d
    · simp [closure_copy_lt, h, ih]
    · simp [closure_copy_lt, h]

theorem closure_skip_eq_eq (d : Nat) :
    ∀ csp : List Nat, closure_skip_eq d csp = csp.dropWhile (fun c => decide (c = d)) := by
  intro csp
  induction csp with
  | nil => simp [closure_skip_eq]
  | cons c csp ih =>
    by_cases h : c = d
    · simp [closure_skip_eq, h, ih]
    · simp [closure_skip_eq, h]

theorem sorted_dropWhile_lt (d : Nat) :
    ∀ l : List Nat, l.Pairwise (· < ·) →
      ∀ y ∈ l.dropWhile (fun c => decide (c < d)), d ≤ y := by
  intro l
  induction l with
  | nil => intro _ y hy; simp at hy
  | cons c l ih =>
    intro hl y hy
    rw [List.pairwise_cons] at hl
    by_cases h : c < d
    · rw [List.dropWhile_cons_of_pos (by simpa using h)] at hy
      exact ih hl.2 y hy
    · rw [List.dropWhile_cons_of_neg (by simpa using h)] at hy
      rcases List.mem_cons.1 hy with e | e
      · omega
      · have := hl.1 y e; omega

theorem sorted_dropWhile_eq (d : Nat) :
    ∀ l : List Nat, l.Pairwise (· < ·) → (∀ y ∈ l, d ≤ y) →
      ∀ y ∈ l.dropWhile (fun c => decide (c = d)), d < y := by
  intro l
  induction l with
  | nil => intro _ _ y hy; simp at hy
  | cons c l ih =>
    intro hl hge y hy
    rw [List.pairwise_cons] at hl
    by_cases h : c = d
    · rw [List.dropWhile_cons_of_pos (by simpa using h)] at hy
      exact ih hl.2 (fun z hz => hge z (List.mem_cons_of_mem _ hz)) y hy
    · rw [List.dropWhile_cons_of_neg (by simpa using h)] at hy
      have hc := hge c (List.mem_cons_self _ _)
      rcases List.mem_cons.1 hy with e | e
      · omega
      · have := hl.1 y e; omega

theorem mem_dropWhile_eq_split (d : Nat) (l : List Nat) (x : Nat) :
    x ∈ l ↔ (x ∈ l.dropWhile (fun c => decide (c = d)) ∨
      (x = d ∧ x ∈ l.takeWhile (fun c => decide (c = d)))) := by
  constructor
  · intro h
    rw [← List.takeWhile_append_dropWhile (fun c => decide (c = d)) l, List.mem_append] at h
    rcases h with h | h
    · right
      exact ⟨by simpa using List.mem_takeWhile_imp h, h⟩
    · left; exact h
  · rintro (h | ⟨_, h⟩)
    · exact (List.dropWhile_sublist _).subset h
    · exact (List.takeWhile_sublist _).subset h

/-- The merge walk: emitting a strictly increasing list `D` of items into a strictly
increasing rest of kernel yields, together with the final copy of the rest, the strictly
increasing list of the union. -/
theorem closure_emit_fold :
    ∀ (D csp out : List Nat), D.Pairwise (· < ·) → csp.Pairwise (· < ·) →
      out.Pairwise (· < ·) → (∀ x ∈ out, ∀ y ∈ csp, x < y) → (∀ x ∈ out, ∀ y ∈ D, x < y) →
      ((D.foldl (fun st d => closure_emit d st) (csp, out)).2 ++
        (D.foldl (fun st d => closure_emit d st) (csp, out)).1).Pairwise (· < ·) ∧
      ∀ x, x ∈ (D.foldl (fun st d => closure_emit d st) (csp, out)).2 ++
          (D.foldl (fun st d => closure_emit d st) (csp, out)).1 ↔
        (x ∈ out ∨ x ∈ csp ∨ x ∈ D) := by
  intro D
  induction D with
  | nil =>
    intro csp out _ hc ho hoc _
    simp only [List.foldl_nil]
    refine ⟨List.pairwise_append.2 ⟨ho, hc, hoc⟩, fun x => ?_⟩
    simp
  | cons d D ih =>
    intro csp out hD hc ho hoc hoD
    rw [List.pairwise_cons] at hD
    rw [List.foldl_cons]
    have hemit : closure_emit d (csp, out) =
        ((csp.dropWhile (fun c => decide (c < d))).dropWhile (fun c => decide (c = d)),
          out ++ csp.takeWhile (fun c => decide (c < d)) ++ [d]) := by
      simp [closure_emit, closure_copy_lt_eq, closure_skip_eq_eq]
    rw [hemit]
    have htake : ∀ x ∈ csp.takeWhile (fun c => decide (c < d)), x < d := by
      intro x hx; simpa using List.mem_takeWhile_imp hx
    have htsub := List.takeWhile_sublist (l := csp) (fun c => decide (c < d))
    have hdsub := List.dropWhile_sublist (l := csp) (fun c => decide (c < d))
    have hd2sub := List.dropWhile_sublist (l := csp.dropWhile (fun c => decide (c < d)))
      (fun c => decide (c = d))
    have hge := sorted_dropWhile_lt d csp hc
    have hgt := sorted_dropWhile_eq d _ (hc.sublist hdsub) hge
    have hout1 : (out ++ csp.takeWhile (fun c => decide (c < d)) ++ [d]).Pairwise (· < ·) := by
      rw [List.pairwise_append, List.pairwise_append]
      refine ⟨⟨ho, hc.sublist htsub, fun x hx y hy => hoc x hx y (htsub.subset hy)⟩,
        List.pairwise_singleton _ _, ?_⟩
      intro x hx y hy
      rw [List.mem_singleton] at hy
      subst hy
      rcases List.mem_append.1 hx with h | h
      · exact hoD x h y (List.mem_cons_self _ _)
      · exact htake x h
    have hle : ∀ x ∈ out ++ csp.takeWhile (fun c => decide (c < d)) ++ [d], x ≤ d := by
      intro x hx
      rcases List.mem_append.1 hx with h | h
      · rcases List.mem_append.1 h with h | h
        · exact Nat.le_of_lt (hoD x h d (List.mem_cons_self _ _))
        · exact Nat.le_of_lt (htake x h)
      · rw [List.mem_singleton] at h; omega
    obtain ⟨r1, r2⟩ := ih _ _ hD.2 ((hc.sublist hdsub).sublist hd2sub) hout1
      (fun x hx y hy => Nat.lt_of_le_of_lt (hle x hx) (hgt y hy))
      (fun x hx y hy => Nat.lt_of_le_of_lt (hle x hx) (hD.1 y hy))
    refine ⟨r1, fun x => ?_⟩
    rw [r2]
    have hsplit : x ∈ csp ↔ (x ∈ csp.takeWhile (fun c => decide (c < d)) ∨
        x ∈ csp.dropWhile (fun c => decide (c < d))) := by
      rw [← List.mem_append, List.takeWhile_append_dropWhile]
    have hsplit2 := mem_dropWhile_eq_split d (csp.dropWhile (fun c => decide (c < d))) x
    have hl1 : x ∈ out ++ csp.takeWhile (fun c => decide (c < d)) ++ [d] ↔
        (x ∈ out ∨ x ∈ csp.takeWhile (fun c => decide (c < d)) ∨ x = d) := by
      simp [List.mem_append, or_assoc]
    have hl2 : x ∈ d :: D ↔ (x = d ∨ x ∈ D) := List.mem_cons
    rw [hl1, hl2, hsplit, hsplit2]
    constructor
    · rintro ((h | h | h) | h | h)
      · exact Or.inl h
      · exact Or.inr (Or.inl (Or.inl h))
      · exact Or.inr (Or.inr (Or.inl h))
      · exact Or.inr (Or.inl (Or.inr (Or.inl h)))
      · exact Or.inr (Or.inr (Or.inr h))
    · rintro (h | (h | h | ⟨h, _⟩) | h | h)
      · exact Or.inl (Or.inl h)
      · exact Or.inl (Or.inr (Or.inl h))
      · exact Or.inr (Or.inl h)
      · exact Or.inl (Or.inr (Or.inr h))
      · exact Or.inl (Or.inr (Or.inr h))
      · exact Or.inr (Or.inr h)

/-! ## The bit enumeration of `closure` -/

theorem rd_cons_zero (x : Nat) (l : List Nat) : rd (x :: l) 0 = x := rfl

theorem rd_cons_succ (x : Nat) (l : List Nat) (w : Nat) : rd (x :: l) (w + 1) = rd l w := rfl

theorem foldl_if_eq {σ : Type} (p : Nat → Prop) [DecidablePred p] (h : Nat → Nat)
    (f : Nat → σ → σ) :
    ∀ (l : List Nat) (st : σ),
      l.foldl (fun st i => if p i then f (h i) st else st) st =
        ((l.filter (fun i => decide (p i))).map h).foldl (fun st d => f d st) st := by
  intro l
  induction l with
  | nil => intro st; rfl
  | cons i l ih =>
    intro st
    by_cases hp : p i
    · simp [List.filter_cons, hp, ih]
    · simp [List.filter_cons, hp, ih]

theorem closure_bits_eq (W : Nat) (g : Grammar) (ruleno word : Nat)
    (st : List Nat × List Nat) :
    closure_bits W g ruleno word st =
      (((List.range W).filter (fun i => word.testBit i)).map
        (fun i => rrhsAt g (ruleno + i))).foldl (fun st d => closure_emit d st) st := by
  unfold closure_bits
  rw [foldl_if_eq (fun i => word &&& (1 <<< i) ≠ 0) (fun i => rrhsAt g (ruleno + i))
    (fun d st => closure_emit d st)]
  congr 2
  apply List.filter_congr
  intro i _
  rw [Bool.eq_iff_iff, decide_eq_true_iff]
  exact and_shift_ne_zero word i

theorem setBits_cons (W : Nat) (hW : 0 < W) (word : Nat) (rest : List Nat) :
    setBits W (word :: rest) =
      (List.range W).filter (fun i => word.testBit i) ++ (setBits W rest).map (fun r => W + r) := by
  unfold setBits
  have e : (word :: rest).length * W = W + rest.length * W := by
    simp [Nat.succ_mul, Nat.add_comm]
  rw [e, List.range_add, List.filter_append, List.filter_map]
  congr 1
  · apply List.filter_congr
    intro i hi
    rw [List.mem_range] at hi
    rw [Nat.div_eq_of_lt hi, Nat.mod_eq_of_lt hi, rd_cons_zero]
  · congr 1
    apply List.filter_congr
    intro i _
    simp only [Function.comp]
    rw [Nat.add_div_left _ hW, Nat.add_mod_left, rd_cons_succ]

theorem closure_words_eq (W : Nat) (hW : 0 < W) (g : Grammar) :
    ∀ (l : List Nat) (ruleno : Nat) (st : List Nat × List Nat),
      closure_words W g l ruleno st =
        ((setBits W l).map (fun r => rrhsAt g (ruleno + r))).foldl
          (fun st d => closure_emit d st) st := by
  intro l
  induction l with
  | nil => intro ruleno st; simp [closure_words, setBits]
  | cons word rest ih =>
    intro ruleno st
    have hguard : (if word ≠ 0 then closure_bits W g ruleno word st else st) =
        closure_bits W g ruleno word st := by
      by_cases h : word = 0
      · subst h
        rw [if_neg (by simp), closure_bits_eq]
        simp
      · rw [if_pos h]
    unfold closure_words
    rw [hguard, ih, closure_bits_eq, setBits_cons W hW, List.map_append, List.foldl_append,
      List.map_map]
    congr 2
    funext r
    simp only [Function.comp]
    rw [Nat.add_assoc]

theorem mem_setBits (W : Nat) (row : List Nat) (r : Nat) :
    r ∈ setBits W row ↔ (r < row.length * W ∧ (rd row (r / W)).testBit (r % W) = true) := by
  unfold setBits
  rw [List.mem_filter, List.mem_range]

theorem setBits_sorted (W : Nat) (row : List Nat) : (setBits W row).Pairwise (· < ·) :=
  List.Pairwise.filter _ (List.pairwise_lt_range _)

theorem closure_or_spec (fd : List Nat) :
    ∀ (l : List Nat) (dsp : Nat), (closure_or fd l dsp).length = l.length ∧
      ∀ w, w < l.length → rd (closure_or fd l dsp) w = rd l w ||| rd fd (dsp + w) := by
  intro l
  induction l with
  | nil => intro dsp; exact ⟨rfl, fun w hw => by simp at hw⟩
  | cons x l ih =>
    intro dsp
    obtain ⟨h1, h2⟩ := ih (dsp + 1)
    refine ⟨by simp [closure_or, h1], fun w hw => ?_⟩
    cases w with
    | zero => simp [closure_or, rd_cons_zero]
    | succ w =>
      unfold closure_or
      rw [rd_cons_succ, rd_cons_succ, h2 w (by simpa using hw)]
      congr 2
      omega

theorem closure_ruleset_spec (W : Nat) (g : Grammar) (fd : List Nat) (rs : Nat) :
    ∀ (nucleus ruleset : List Nat), ruleset.length = rs →
      (closure_ruleset W g fd rs nucleus ruleset).length = rs ∧
      ∀ w b, w < rs →
        ((rd (closure_ruleset W g fd rs nucleus ruleset) w).testBit b = true ↔
          ((rd ruleset w).testBit b = true ∨
            ∃ c, c ∈ nucleus ∧ ISVAR g (ritemAt g c) = true ∧
              (rd fd ((ritemAt g c).toNat * rs - g.ntokens * rs + w)).testBit b = true)) := by
  intro nucleus
  induction nucleus with
  | nil =>
    intro ruleset hl
    refine ⟨hl, fun w b _ => ?_⟩
    simp [closure_ruleset]
  | cons c csp ih =>
    intro ruleset hl
    by_cases hv : ISVAR g (ritemAt g c) = true
    · have hor := closure_or_spec fd ruleset ((ritemAt g c).toNat * rs - g.ntokens * rs)
      obtain ⟨h1, h2⟩ := ih _ (hor.1.trans hl)
      have e : closure_ruleset W g fd rs (c :: csp) ruleset =
          closure_ruleset W g fd rs csp
            (closure_or fd ruleset ((ritemAt g c).toNat * rs - g.ntokens * rs)) := by
        simp [closure_ruleset, hv]
      rw [e]
      refine ⟨h1, fun w b hw => ?_⟩
      rw [h2 w b hw, hor.2 w (by omega), Nat.testBit_or]
      simp only [Bool.or_eq_true, List.mem_cons]
      constructor
      · rintro ((h | h) | ⟨c2, h3, h4⟩)
        · exact Or.inl h
        · exact Or.inr ⟨c, Or.inl rfl, hv, h⟩
        · exact Or.inr ⟨c2, Or.inr h3, h4⟩
      · rintro (h | ⟨c2, h3 | h3, h4⟩)
        · exact Or.inl (Or.inl h)
        · subst h3; exact Or.inl (Or.inr h4.2)
        · exact Or.inr ⟨c2, h3, h4⟩
    · obtain ⟨h1, h2⟩ := ih ruleset hl
      have e : closure_ruleset W g fd rs (c :: csp) ruleset =
          closure_ruleset W g fd rs csp ruleset := by
        simp [closure_ruleset, hv]
      rw [e]
      refine ⟨h1, fun w b hw => ?_⟩
      rw [h2 w b hw]
      simp only [List.mem_cons]
      constructor
      · rintro (h | ⟨c2, h3, h4⟩)
        · exact Or.inl h
        · exact Or.inr ⟨c2, Or.inr h3, h4⟩
      · rintro (h | ⟨c2, h3 | h3, h4⟩)
        · exact Or.inl h
        · subst h3; exact absurd h4.1 hv
        · exact Or.inr ⟨c2, h3, h4⟩

/-- The rule set that `closure` accumulates for a kernel. -/
theorem closure_unfold (W : Nat) (hW : 0 < W) (g : Grammar) (fd nucleus : List Nat) :
    closure W g fd nucleus =
      (((setBits W (closure_ruleset W g fd (WORDSIZE W g.nrules) nucleus
          (List.replicate (WORDSIZE W g.nrules) 0))).map (rrhsAt g)).foldl
        (fun st d => closure_emit d st) (nucleus, [])).2 ++
      (((setBits W (closure_ruleset W g fd (WORDSIZE W g.nrules) nucleus
          (List.replicate (WORDSIZE W g.nrules) 0))).map (rrhsAt g)).foldl
        (fun st d => closure_emit d st) (nucleus, [])).1 := by
  unfold closure
  simp only
  rw [closure_words_eq W hW]
  simp only [Nat.zero_add]

theorem mem_setBits_ruleset (W : Nat) (hW : 0 < W) (g : Grammar) (fd nucleus : List Nat)
    (r : Nat) :
    r ∈ setBits W (closure_ruleset W g fd (WORDSIZE W g.nrules) nucleus
        (List.replicate (WORDSIZE W g.nrules) 0)) ↔
      (r < WORDSIZE W g.nrules * W ∧ ∃ c, c ∈ nucleus ∧ ISVAR g (ritemAt g c) = true ∧
        bitAt W (WORDSIZE W g.nrules) fd ((ritemAt g c).toNat - g.ntokens) r = true) := by
  have hspec := closure_ruleset_spec W g fd (WORDSIZE W g.nrules) nucleus
    (List.replicate (WORDSIZE W g.nrules) 0) (by simp)
  rw [mem_setBits, hspec.1]
  constructor
  · rintro ⟨h1, h2⟩
    have hw : r / W < WORDSIZE W g.nrules := by rw [Nat.div_lt_iff_lt_mul hW]; exact h1
    rw [hspec.2 _ _ hw, rd_replicate_zero] at h2
    simp only [Nat.zero_testBit, Bool.false_eq_true, false_or] at h2
    obtain ⟨c, hc, hv, hb⟩ := h2
    refine ⟨h1, c, hc, hv, ?_⟩
    unfold bitAt
    rw [Nat.sub_mul]; exact hb
  · rintro ⟨h1, c, hc, hv, hb⟩
    have hw : r / W < WORDSIZE W g.nrules := by rw [Nat.div_lt_iff_lt_mul hW]; exact h1
    refine ⟨h1, ?_⟩
    rw [hspec.2 _ _ hw]
    right
    refine ⟨c, hc, hv, ?_⟩
    unfold bitAt at hb
    rw [Nat.sub_mul] at hb; exact hb

/-- Correctness of `closure` for any matrix whose rows, as far as the kernel reads them,
have set bits only at rule numbers below `nrules`. -/
theorem closure_of_bits_in_range (W : Nat) (hW : 0 < W) (g : Grammar) (fd nucleus : List Nat)
    (hrr : RrhsIncreasing g) (hk : nucleus.Pairwise (· < ·))
    (hbits : ∀ c ∈ nucleus, ISVAR g (ritemAt g c) = true → ∀ r, r < WORDSIZE W g.nrules * W →
      bitAt W (WORDSIZE W g.nrules) fd ((ritemAt g c).toNat - g.ntokens) r = true →
      r < g.nrules) :
    (closure W g fd nucleus).Pairwise (· < ·) ∧
    ∀ x, x ∈ closure W g fd nucleus ↔
      (x ∈ nucleus ∨ ∃ c, c ∈ nucleus ∧ ∃ r, r < g.nrules ∧ ISVAR g (ritemAt g c) = true ∧
        bitAt W (WORDSIZE W g.nrules) fd ((ritemAt g c).toNat - g.ntokens) r = true ∧
        x = rrhsAt g r) := by
  have hlt : ∀ r ∈ setBits W (closure_ruleset W g fd (WORDSIZE W g.nrules) nucleus
      (List.replicate (WORDSIZE W g.nrules) 0)), r < g.nrules := by
    intro r hr
    rw [mem_setBits_ruleset W hW] at hr
    obtain ⟨h1, c, hc, hv, hb⟩ := hr
    exact hbits c hc hv r h1 hb
  have hD : ((setBits W (closure_ruleset W g fd (WORDSIZE W g.nrules) nucleus
      (List.replicate (WORDSIZE W g.nrules) 0))).map (rrhsAt g)).Pairwise (· < ·) := by
    rw [List.pairwise_map]
    exact List.Pairwise.imp_of_mem (fun {a b} _ hb hab => hrr b (hlt b hb) a hab)
      (setBits_sorted W _)
  obtain ⟨h1, h2⟩ := closure_emit_fold _ nucleus [] hD hk List.Pairwise.nil
    (fun x hx => by simp at hx) (fun x hx => by simp at hx)
  rw [closure_unfold W hW]
  refine ⟨h1, fun x => ?_⟩
  rw [h2]
  simp only [List.not_mem_nil, false_or, List.mem_map]
  constructor
  · rintro (h | ⟨r, hr, rfl⟩)
    · exact Or.inl h
    · have hrn := hlt r hr
      rw [mem_setBits_ruleset W hW] at hr
      obtain ⟨_, c, hc, hv, hb⟩ := hr
      exact Or.inr ⟨c, hc, r, hrn, hv, hb, rfl⟩
  · rintro (h | ⟨c, hc, r, hrn, hv, hb, rfl⟩)
    · exact Or.inl h
    · refine Or.inr ⟨r, ?_, rfl⟩
      rw [mem_setBits_ruleset W hW]
      have := le_wordsize_mul W g.nrules hW
      exact ⟨by omega, c, hc, hv, hb⟩

/-! ## Lemmas on `getargs` -/

theorem sameFiles_refl (st : Globals) : SameFiles st st := ⟨rfl, rfl, rfl⟩

theorem sameFiles_trans {a b c : Globals} (h1 : SameFiles a b) (h2 : SameFiles b c) :
    SameFiles a c :=
  ⟨h2.1.trans h1.1, h2.2.1.trans h1.2.1, h2.2.2.trans h1.2.2⟩

theorem peek_nil : peek [] = Char.ofNat 0 := rfl

theorem peek_cons (c : Char) (s : CStr) : peek (c :: s) = c := rfl

theorem getargs_flag_some (c : Char) (st st1 : Globals) (h : getargs_flag c st = some st1) :
    c ∈ flagLetters ∧ SameFiles st st1 ∧
    ∀ x, x ∈ flagLetters → flagOf x st1 = if x = c then 1 else flagOf x st := by
  unfold getargs_flag at h
  have hx : ∀ x, x ∈ flagLetters → x = 'd' ∨ x = 'l' ∨ x = 'r' ∨ x = 't' ∨ x = 'v' := by
    intro x hx; simpa [flagLetters] using hx
  split at h
  · cases h; rename_i hc; subst hc
    refine ⟨by decide, ⟨rfl, rfl, rfl⟩, fun x hxm => ?_⟩
    rcases hx x hxm with e | e | e | e | e <;> subst e <;> simp [flagOf]
  split at h
  · cases h; rename_i hc; subst hc
    refine ⟨by decide, ⟨rfl, rfl, rfl⟩, fun x hxm => ?_⟩
    rcases hx x hxm with e | e | e | e | e <;> subst e <;> simp [flagOf]
  split at h
  · cases h; rename_i hc; subst hc
    refine ⟨by decide, ⟨rfl, rfl, rfl⟩, fun x hxm => ?_⟩
    rcases hx x hxm with e | e | e | e | e <;> subst e <;> simp [flagOf]
  split at h
  · cases h; rename_i hc; subst hc
    refine ⟨by decide, ⟨rfl, rfl, rfl⟩, fun x hxm => ?_⟩
    rcases hx x hxm with e | e | e | e | e <;> subst e <;> simp [flagOf]
  split at h
  · cases h; rename_i hc; subst hc
    refine ⟨by decide, ⟨rfl, rfl, rfl⟩, fun x hxm => ?_⟩
    rcases hx x hxm with e | e | e | e | e <;> subst e <;> simp [flagOf]
  · cases h

theorem getargs_flag_of_mem (c : Char) (st : Globals) (h : c ∈ flagLetters) :
    ∃ st1, getargs_flag c st = some st1 := by
  have hx : c = 'd' ∨ c = 'l' ∨ c = 'r' ∨ c = 't' ∨ c = 'v' := by
    simpa [flagLetters] using h
  rcases hx with e | e | e | e | e <;> subst e <;> simp [getargs_flag]

theorem flagLetters_ne {c : Char} (h : c ∈ flagLetters) :
    c ≠ Char.ofNat 0 ∧ c ≠ '-' ∧ c ≠ 'b' ∧ c ≠ 'p' := by
  have hx : c = 'd' ∨ c = 'l' ∨ c = 'r' ∨ c = 't' ∨ c = 'v' := by
    simpa [flagLetters] using h
  rcases hx with e | e | e | e | e <;> subst e <;> decide

theorem getargs_cluster_some :
    ∀ (cs : CStr) (st st1 : Globals), Char.ofNat 0 ∉ cs → getargs_cluster cs st = some st1 →
      (∀ x ∈ cs, x ∈ flagLetters) ∧ SameFiles st st1 ∧
      ∀ x, x ∈ flagLetters → flagOf x st1 = if x ∈ cs then 1 else flagOf x st := by
  intro cs
  induction cs with
  | nil =>
    intro st st1 _ h
    simp only [getargs_cluster] at h
    cases h
    exact ⟨by simp, sameFiles_refl _, by simp⟩
  | cons c cs ih =>
    intro st st1 hn h
    have hc : c ≠ Char.ofNat 0 := fun e => hn (by rw [e]; exact List.mem_cons_self _ _)
    have hn2 : Char.ofNat 0 ∉ cs := fun e => hn (List.mem_cons_of_mem _ e)
    simp only [getargs_cluster, if_neg hc] at h
    cases h1 : getargs_flag c st with
    | none => rw [h1] at h; cases h
    | some st2 =>
      rw [h1] at h
      simp only [Option.some_bind] at h
      obtain ⟨a1, a2, a3⟩ := getargs_flag_some c st st2 h1
      obtain ⟨b1, b2, b3⟩ := ih st2 st1 hn2 h
      refine ⟨?_, sameFiles_trans a2 b2, fun x hx => ?_⟩
      · intro x hx
        rcases List.mem_cons.1 hx with e | e
        · rw [e]; exact a1
        · exact b1 x e
      · rw [b3 x hx, a3 x hx]
        by_cases e1 : x ∈ cs <;> by_cases e2 : x = c <;> simp [e1, e2]

theorem getargs_cluster_of_mem :
    ∀ (cs : CStr) (st : Globals), (∀ x ∈ cs, x ∈ flagLetters) →
      ∃ st1, getargs_cluster cs st = some st1 ∧ SameFiles st st1 := by
  intro cs
  induction cs with
  | nil => intro st _; exact ⟨st, rfl, sameFiles_refl _⟩
  | cons c cs ih =>
    intro st h
    have hc := h c (List.mem_cons_self _ _)
    obtain ⟨st2, h2⟩ := getargs_flag_of_mem c st hc
    obtain ⟨st3, h3, h4⟩ := ih st2 (fun x hx => h x (List.mem_cons_of_mem _ hx))
    refine ⟨st3, ?_, sameFiles_trans (getargs_flag_some c st st2 h2).2.1 h4⟩
    simp only [getargs_cluster, if_neg (flagLetters_ne hc).1, h2, Option.some_bind, h3]

theorem getargs_options_cons (s : CStr) (rest : List CStr) (st : Globals) :
    getargs_options (s :: rest) st =
      if peek s ≠ '-' then getargs_no_more_options (s :: rest) st
      else if peek s.tail = Char.ofNat 0 then
        (if rest ≠ [] then none else some { st with input_file := FilePtr.stdin })
      else if peek s.tail = '-' then getargs_no_more_options rest st
      else if peek s.tail = 'b' then
        if peek s.tail.tail ≠ Char.ofNat 0 then
          getargs_options rest { st with file_prefix := s.tail.tail }
        else
          match rest with
          | v :: rest2 => getargs_options rest2 { st with file_prefix := v }
          | [] => none
      else if peek s.tail = 'p' then
        if peek s.tail.tail ≠ Char.ofNat 0 then
          getargs_options rest { st with symbol_prefix := some s.tail.tail }
        else
          match rest with
          | v :: rest2 => getargs_options rest2 { st with symbol_prefix := some v }
          | [] => none
      else
        ((getargs_flag (peek s.tail) st).bind (getargs_cluster s.tail.tail)).bind
          (getargs_options rest) := by
  cases rest <;> rfl

/-- Scanning accepted option arguments: the loop of `getargs` consumes them and goes on
with what follows, leaving `input_file`, `input_file_name` and `myname` as they were. -/
theorem getargs_options_skip (pre : List CStr) (h : OptionArgs pre) :
    ∀ (rest : List CStr) (st : Globals),
      ∃ st1, getargs_options (pre ++ rest) st = getargs_options rest st1 ∧ SameFiles st st1 := by
  induction h with
  | nil => intro rest st; exact ⟨st, rfl, sameFiles_refl _⟩
  | cluster c cs pre2 hc hcs _ ih =>
    intro rest st
    obtain ⟨n1, n2, n3, n4⟩ := flagLetters_ne hc
    obtain ⟨st2, h2⟩ := getargs_flag_of_mem c st hc
    obtain ⟨st3, h3, h4⟩ := getargs_cluster_of_mem cs st2 hcs
    obtain ⟨st4, h5, h6⟩ := ih rest st3
    refine ⟨st4, ?_, sameFiles_trans (sameFiles_trans (getargs_flag_some c st st2 h2).2.1 h4) h6⟩
    rw [← h5, List.cons_append, getargs_options_cons]
    simp [peek, n1, n2, n3, n4, h2, h3]
  | b_attached v pre2 hv _ ih =>
    intro rest st
    obtain ⟨st4, h5, h6⟩ := ih rest { st with file_prefix := v }
    refine ⟨st4, ?_, h6⟩
    rw [← h5]
    rw [List.cons_append, getargs_options_cons]
    simp [peek_cons, hv]
  | b_separate v pre2 _ ih =>
    intro rest st
    obtain ⟨st4, h5, h6⟩ := ih rest { st with file_prefix := v }
    refine ⟨st4, ?_, h6⟩
    rw [← h5, List.cons_append, List.cons_append, getargs_options_cons]
    simp [peek]
  | p_attached v pre2 hv _ ih =>
    intro rest st
    obtain ⟨st4, h5, h6⟩ := ih rest { st with symbol_prefix := some v }
    refine ⟨st4, ?_, h6⟩
    rw [← h5]
    rw [List.cons_append, getargs_options_cons]
    simp [peek_cons, hv]
  | p_separate v pre2 _ ih =>
    intro rest st
    obtain ⟨st4, h5, h6⟩ := ih rest { st with symbol_prefix := some v }
    refine ⟨st4, ?_, h6⟩
    rw [← h5, List.cons_append, List.cons_append, getargs_options_cons]
    simp [peek]

theorem getargs_no_more_options_some (rest : List CStr) (st st1 : Globals)
    (h : getargs_no_more_options rest st = some st1) :
    ∃ f, rest = [f] ∧ st1 = { st with input_file_name := f } := by
  unfold getargs_no_more_options at h
  split at h
  · rename_i f
    cases h
    exact ⟨f, rfl, rfl⟩
  · cases h

/-- Case analysis of one round of the option loop of `getargs` that ends in a normal
return. -/
theorem getargs_options_inv (s : CStr) (rest : List CStr) (st st1 : Globals)
    (hn : Char.ofNat 0 ∉ s) (h : getargs_options (s :: rest) st = some st1) :
    (peek s ≠ '-' ∧ rest = [] ∧ st1 = { st with input_file_name := s }) ∨
    (s = ['-'] ∧ rest = [] ∧ st1 = { st with input_file := FilePtr.stdin }) ∨
    (∃ t f, s = '-' :: '-' :: t ∧ rest = [f] ∧ st1 = { st with input_file_name := f }) ∨
    (∃ v, s = '-' :: 'b' :: v ∧ peek v ≠ Char.ofNat 0 ∧
      getargs_options rest { st with file_prefix := v } = some st1) ∨
    (∃ v rest2, s = ['-', 'b'] ∧ rest = v :: rest2 ∧
      getargs_options rest2 { st with file_prefix := v } = some st1) ∨
    (∃ v, s = '-' :: 'p' :: v ∧ peek v ≠ Char.ofNat 0 ∧
      getargs_options rest { st with symbol_prefix := some v } = some st1) ∨
    (∃ v rest2, s = ['-', 'p'] ∧ rest = v :: rest2 ∧
      getargs_options rest2 { st with symbol_prefix := some v } = some st1) ∨
    (∃ c cs st2 st3, s = '-' :: c :: cs ∧ getargs_flag c st = some st2 ∧
      getargs_cluster cs st2 = some st3 ∧ getargs_options rest st3 = some st1) := by
  rw [getargs_options_cons] at h
  by_cases h1 : peek s ≠ '-'
  · rw [if_pos h1] at h
    obtain ⟨f, e1, e2⟩ := getargs_no_more_options_some _ _ _ h
    cases e1
    exact Or.inl ⟨h1, rfl, e2⟩
  rw [if_neg h1] at h
  have h1 : peek s = '-' := by simpa using h1
  cases s with
  | nil => simp [peek] at h1
  | cons a t =>
    rw [peek_cons] at h1
    subst h1
    simp only [List.tail_cons] at h
    cases t with
    | nil =>
      rw [if_pos peek_nil] at h
      right; left
      by_cases hr : rest ≠ []
      · rw [if_pos hr] at h; cases h
      · rw [if_neg hr] at h
        cases h
        exact ⟨rfl, by simpa using hr, rfl⟩
    | cons c cs =>
      have hc : c ≠ Char.ofNat 0 := by
        intro e; apply hn; rw [e]; simp
      rw [peek_cons, if_neg hc] at h
      simp only [List.tail_cons] at h
      by_cases h2 : c = '-'
      · subst h2
        rw [if_pos rfl] at h
        obtain ⟨f, e1, e2⟩ := getargs_no_more_options_some _ _ _ h
        exact Or.inr (Or.inr (Or.inl ⟨cs, f, rfl, e1, e2⟩))
      rw [if_neg h2] at h
      by_cases h3 : c = 'b'
      · subst h3
        rw [if_pos rfl] at h
        by_cases h4 : peek cs ≠ Char.ofNat 0
        · rw [if_pos h4] at h
          exact Or.inr (Or.inr (Or.inr (Or.inl ⟨cs, rfl, h4, h⟩)))
        · rw [if_neg h4] at h
          have hcs : cs = [] := by
            cases cs with
            | nil => rfl
            | cons x xs =>
              exfalso; apply hn
              have : x = Char.ofNat 0 := by simpa [peek_cons] using h4
              rw [this]; simp
          subst hcs
          cases rest with
          | nil => cases h
          | cons v rest2 =>
            exact Or.inr (Or.inr (Or.inr (Or.inr (Or.inl ⟨v, rest2, rfl, rfl, h⟩))))
      rw [if_neg h3] at h
      by_cases h5 : c = 'p'
      · subst h5
        rw [if_pos rfl] at h
        by_cases h4 : peek cs ≠ Char.ofNat 0
        · rw [if_pos h4] at h
          exact Or.inr (Or.inr (Or.inr (Or.inr (Or.inr (Or.inl ⟨cs, rfl, h4, h⟩)))))
        · rw [if_neg h4] at h
          have hcs : cs = [] := by
            cases cs with
            | nil => rfl
            | cons x xs =>
              exfalso; apply hn
              have : x = Char.ofNat 0 := by simpa [peek_cons] using h4
              rw [this]; simp
          subst hcs
          cases rest with
          | nil => cases h
          | cons v rest2 =>
            exact Or.inr (Or.inr (Or.inr (Or.inr (Or.inr (Or.inr (Or.inl
              ⟨v, rest2, rfl, rfl, h⟩))))))
      rw [if_neg h5] at h
      cases hf : getargs_flag c st with
      | none => rw [hf] at h; cases h
      | some st2 =>
        rw [hf] at h
        simp only [Option.some_bind] at h
        cases hcl : getargs_cluster cs st2 with
        | none => rw [hcl] at h; cases h
        | some st3 =>
          rw [hcl] at h
          simp only [Option.some_bind] at h
          exact Or.inr (Or.inr (Or.inr (Or.inr (Or.inr (Or.inr (Or.inr
            ⟨c, cs, st2, st3, rfl, hf, hcl, h⟩))))))

theorem noNul_cons {s : CStr} {rest : List CStr} (h : NoNul (s :: rest)) :
    Char.ofNat 0 ∉ s ∧ NoNul rest :=
  ⟨h s (List.mem_cons_self _ _), fun a ha => h a (List.mem_cons_of_mem _ ha)⟩

/-- Every normal return of the option loop of `getargs` comes from accepted option
arguments followed by the argument `-` alone, by one file name, or by an argument that
starts with `--` and one more argument. -/
theorem getargs_options_decompose :
    ∀ (n : Nat) (args : List CStr) (st st1 : Globals), args.length ≤ n → NoNul args →
      getargs_options args st = some st1 →
      ∃ pre tl, args = pre ++ tl ∧ OptionArgs pre ∧
        ((tl = [['-']] ∧ st1.input_file = FilePtr.stdin ∧
            st1.input_file_name = st.input_file_name) ∨
          (∃ f, tl = [f] ∧ peek f ≠ '-' ∧ st1.input_file = st.input_file ∧
            st1.input_file_name = f) ∨
          (∃ dd f, tl = [dd, f] ∧ peek dd = '-' ∧ peek dd.tail = '-' ∧
            st1.input_file = st.input_file ∧ st1.input_file_name = f)) := by
  intro n
  induction n with
  | zero =>
    intro args st st1 hl _ h
    have : args = [] := List.length_eq_zero.1 (by omega)
    subst this
    simp [getargs_options, getargs_no_more_options] at h
  | succ n ih =>
    intro args st st1 hl hn h
    cases args with
    | nil => simp [getargs_options, getargs_no_more_options] at h
    | cons s rest =>
      obtain ⟨hn1, hn2⟩ := noNul_cons hn
      have hlr : rest.length ≤ n := by simp at hl; omega
      rcases getargs_options_inv s rest st st1 hn1 h with
        ⟨a1, a2, a3⟩ | ⟨a1, a2, a3⟩ | ⟨t, f, a1, a2, a3⟩ | ⟨v, a1, a2, a3⟩ |
        ⟨v, rest2, a1, a2, a3⟩ | ⟨v, a1, a2, a3⟩ | ⟨v, rest2, a1, a2, a3⟩ |
        ⟨c, cs, st2, st3, a1, a2, a3, a4⟩
      · subst a2 a3
        exact ⟨[], [s], rfl, OptionArgs.nil, Or.inr (Or.inl ⟨s, rfl, a1, rfl, rfl⟩)⟩
      · subst a1 a2 a3
        exact ⟨[], [['-']], rfl, OptionArgs.nil, Or.inl ⟨rfl, rfl, rfl⟩⟩
      · subst a1 a2 a3
        exact ⟨[], ['-' :: '-' :: t, f], rfl, OptionArgs.nil,
          Or.inr (Or.inr ⟨_, f, rfl, rfl, rfl, rfl, rfl⟩)⟩
      · subst a1
        obtain ⟨pre, tl, e1, e2, e3⟩ := ih rest _ st1 hlr hn2 a3
        exact ⟨_ :: pre, tl, by rw [e1]; rfl, OptionArgs.b_attached v pre a2 e2, e3⟩
      · subst a1 a2
        obtain ⟨_, hn3⟩ := noNul_cons hn2
        obtain ⟨pre, tl, e1, e2, e3⟩ := ih rest2 _ st1 (by simp at hlr; omega) hn3 a3
        exact ⟨_ :: v :: pre, tl, by rw [e1]; rfl, OptionArgs.b_separate v pre e2, e3⟩
      · subst a1
        obtain ⟨pre, tl, e1, e2, e3⟩ := ih rest _ st1 hlr hn2 a3
        exact ⟨_ :: pre, tl, by rw [e1]; rfl, OptionArgs.p_attached v pre a2 e2, e3⟩
      · subst a1 a2
        obtain ⟨_, hn3⟩ := noNul_cons hn2
        obtain ⟨pre, tl, e1, e2, e3⟩ := ih rest2 _ st1 (by simp at hlr; omega) hn3 a3
        exact ⟨_ :: v :: pre, tl, by rw [e1]; rfl, OptionArgs.p_separate v pre e2, e3⟩
      · subst a1
        have hncs : Char.ofNat 0 ∉ cs := fun e =>
          hn1 (List.mem_cons_of_mem _ (List.mem_cons_of_mem _ e))
        obtain ⟨b1, b2, _⟩ := getargs_flag_some c st st2 a2
        obtain ⟨c1, c2, _⟩ := getargs_cluster_some cs st2 st3 hncs a3
        obtain ⟨pre, tl, e1, e2, e3⟩ := ih rest st3 st1 hlr hn2 a4
        have hsf := sameFiles_trans b2 c2
        refine ⟨_ :: pre, tl, by rw [e1]; rfl, OptionArgs.cluster c cs pre b1 c1 e2, ?_⟩
        rw [hsf.1, hsf.2.1] at e3
        exact e3

/-- The flags on a normal return of the option loop of `getargs`: the flag of a letter is
`1` if the letter occurs in an option cluster and keeps its value otherwise; and every
letter of an option cluster is a flag letter. -/
theorem getargs_options_flags :
    ∀ (n : Nat) (args : List CStr) (st st1 : Globals), args.length ≤ n → NoNul args →
      getargs_options args st = some st1 →
      (∀ c ∈ clusterLetters args, c ∈ flagLetters) ∧
      ∀ x, x ∈ flagLetters →
        flagOf x st1 = if x ∈ clusterLetters args then 1 else flagOf x st := by
  intro n
  induction n with
  | zero =>
    intro args st st1 hl _ h
    have : args = [] := List.length_eq_zero.1 (by omega)
    subst this
    simp [getargs_options, getargs_no_more_options] at h
  | succ n ih =>
    intro args st st1 hl hn h
    cases args with
    | nil => simp [getargs_options, getargs_no_more_options] at h
    | cons s rest =>
      obtain ⟨hn1, hn2⟩ := noNul_cons hn
      have hlr : rest.length ≤ n := by simp at hl; omega
      rcases getargs_options_inv s rest st st1 hn1 h with
        ⟨a1, a2, a3⟩ | ⟨a1, a2, a3⟩ | ⟨t, f, a1, a2, a3⟩ | ⟨v, a1, a2, a3⟩ |
        ⟨v, rest2, a1, a2, a3⟩ | ⟨v, a1, a2, a3⟩ | ⟨v, rest2, a1, a2, a3⟩ |
        ⟨c, cs, st2, st3, a1, a2, a3, a4⟩
      · subst a2 a3
        have e : clusterLetters [s] = [] := by simp [clusterLetters, a1]
        rw [e]
        exact ⟨by simp, fun x _ => by simp [flagOf]⟩
      · subst a1 a2 a3
        have e : clusterLetters [['-']] = [] := by simp [clusterLetters, peek]
        rw [e]
        exact ⟨by simp, fun x _ => by simp [flagOf]⟩
      · subst a1 a2 a3
        have e : clusterLetters [('-' :: '-' :: t), f] = [] := by simp [clusterLetters, peek]
        rw [e]
        exact ⟨by simp, fun x _ => by simp [flagOf]⟩
      · subst a1
        have hv : v ≠ [] := by intro e; subst e; exact a2 rfl
        have e : clusterLetters (('-' :: 'b' :: v) :: rest) = clusterLetters rest := by
          cases rest <;> simp [clusterLetters, peek, hv]
        rw [e]
        obtain ⟨r1, r2⟩ := ih rest _ st1 hlr hn2 a3
        exact ⟨r1, fun x hx => by rw [r2 x hx]; simp [flagOf]⟩
      · subst a1 a2
        obtain ⟨_, hn3⟩ := noNul_cons hn2
        have e : clusterLetters (['-', 'b'] :: v :: rest2) = clusterLetters rest2 := by
          simp [clusterLetters, peek]
        rw [e]
        obtain ⟨r1, r2⟩ := ih rest2 _ st1 (by simp at hlr; omega) hn3 a3
        exact ⟨r1, fun x hx => by rw [r2 x hx]; simp [flagOf]⟩
      · subst a1
        have hv : v ≠ [] := by intro e; subst e; exact a2 rfl
        have e : clusterLetters (('-' :: 'p' :: v) :: rest) = clusterLetters rest := by
          cases rest <;> simp [clusterLetters, peek, hv]
        rw [e]
        obtain ⟨r1, r2⟩ := ih rest _ st1 hlr hn2 a3
        exact ⟨r1, fun x hx => by rw [r2 x hx]; simp [flagOf]⟩
      · subst a1 a2
        obtain ⟨_, hn3⟩ := noNul_cons hn2
        have e : clusterLetters (['-', 'p'] :: v :: rest2) = clusterLetters rest2 := by
          simp [clusterLetters, peek]
        rw [e]
        obtain ⟨r1, r2⟩ := ih rest2 _ st1 (by simp at hlr; omega) hn3 a3
        exact ⟨r1, fun x hx => by rw [r2 x hx]; simp [flagOf]⟩
      · subst a1
        have hncs : Char.ofNat 0 ∉ cs := fun e =>
          hn1 (List.mem_cons_of_mem _ (List.mem_cons_of_mem _ e))
        obtain ⟨b1, _, b3⟩ := getargs_flag_some c st st2 a2
        obtain ⟨c1, _, c3⟩ := getargs_cluster_some cs st2 st3 hncs a3
        obtain ⟨n1, n2, n3, n4⟩ := flagLetters_ne b1
        have e : clusterLetters (('-' :: c :: cs) :: rest) = (c :: cs) ++ clusterLetters rest := by
          cases rest <;> simp [clusterLetters, peek, n2, n3, n4]
        rw [e]
        obtain ⟨r1, r2⟩ := ih rest st3 st1 hlr hn2 a4
        refine ⟨?_, fun x hx => ?_⟩
        · intro y hy
          rcases List.mem_append.1 hy with h1 | h1
          · rcases List.mem_cons.1 h1 with h2 | h2
            · rw [h2]; exact b1
            · exact c1 y h2
          · exact r1 y h1
        · rw [r2 x hx, c3 x hx, b3 x hx]
          by_cases e1 : x ∈ clusterLetters rest <;> by_cases e2 : x ∈ cs <;>
            by_cases e3 : x = c <;> simp [e1, e2, e3]

theorem getLast_snoc_one {α : Type} (a0 : α) (pre : List α) (f : α) :
    (a0 :: (pre ++ [f])).getLast? = some f := by
  rw [← List.cons_append, List.getLast?_append]
  simp

theorem getLast_snoc_two {α : Type} (a0 : α) (pre : List α) (d f : α) :
    (a0 :: (pre ++ [d, f])).getLast? = some f := by
  rw [← List.cons_append, List.getLast?_append]
  simp

theorem getargs_cons (a0 : CStr) (args : List CStr) (st : Globals) :
    getargs (a0 :: args) st =
      match getargs_options args { st with myname := a0 } with
      | some st2 => Outcome.returned st2
      | none => usage := rfl

theorem getargs_options_file (f : CStr) (rest : List CStr) (st : Globals) (h : peek f ≠ '-') :
    getargs_options (f :: rest) st = getargs_no_more_options (f :: rest) st := by
  rw [getargs_options_cons, if_pos h]

theorem getargs_options_dashdash (dd : CStr) (rest : List CStr) (st : Globals)
    (h1 : peek dd = '-') (h2 : peek dd.tail = '-') :
    getargs_options (dd :: rest) st = getargs_no_more_options rest st := by
  rw [getargs_options_cons, if_neg (by simp [h1]), if_neg (by rw [h2]; decide), if_pos h2]

theorem getargs_options_dash (rest : List CStr) (st : Globals) :
    getargs_options (['-'] :: rest) st =
      if rest ≠ [] then none else some { st with input_file := FilePtr.stdin } := by
  rw [getargs_options_cons, if_neg (by simp [peek]), if_pos (by simp [peek])]

theorem getargs_no_more_options_none (rest : List CStr) (st : Globals) (h : rest.length ≠ 1) :
    getargs_no_more_options rest st = none := by
  unfold getargs_no_more_options
  split
  · simp at h
  · rfl

/-! ## The merge walk of `closure` on an arbitrary kernel -/

/-- One emission keeps every item written or still to be copied and adds the emitted one,
whatever the order of the kernel. -/
theorem closure_emit_mem (d : Nat) (st : List Nat × List Nat) (x : Nat) :
    x ∈ (closure_emit d st).2 ++ (closure_emit d st).1 ↔ (x ∈ st.2 ++ st.1 ∨ x = d) := by
  obtain ⟨csp, out⟩ := st
  simp only [closure_emit, closure_copy_lt_eq, closure_skip_eq_eq]
  have h1 : csp.takeWhile (fun c => decide (c < d)) ++ csp.dropWhile (fun c => decide (c < d))
      = csp := List.takeWhile_append_dropWhile _ _
  have h2 : (csp.dropWhile (fun c => decide (c < d))).takeWhile (fun c => decide (c = d)) ++
      (csp.dropWhile (fun c => decide (c < d))).dropWhile (fun c => decide (c = d))
      = csp.dropWhile (fun c => decide (c < d)) := List.takeWhile_append_dropWhile _ _
  have h3 : ∀ y, y ∈ (csp.dropWhile (fun c => decide (c < d))).takeWhile
      (fun c => decide (c = d)) → y = d := by
    intro y hy
    have := List.mem_takeWhile_imp hy
    simpa using this
  have hm1 : x ∈ csp ↔ (x ∈ csp.takeWhile (fun c => decide (c < d)) ∨
      x ∈ csp.dropWhile (fun c => decide (c < d))) := by
    conv_lhs => rw [← h1]
    exact List.mem_append
  have hm2 : x ∈ csp.dropWhile (fun c => decide (c < d)) ↔
      (x ∈ (csp.dropWhile (fun c => decide (c < d))).takeWhile (fun c => decide (c = d)) ∨
       x ∈ (csp.dropWhile (fun c => decide (c < d))).dropWhile (fun c => decide (c = d))) := by
    conv_lhs => rw [← h2]
    exact List.mem_append
  simp only [List.mem_append, List.mem_singleton]
  constructor
  · rintro (((h | h) | h) | h)
    · exact Or.inl (Or.inl h)
    · exact Or.inl (Or.inr (hm1.2 (Or.inl h)))
    · exact Or.inr h
    · exact Or.inl (Or.inr (hm1.2 (Or.inr (hm2.2 (Or.inr h)))))
  · rintro ((h | h) | h)
    · exact Or.inl (Or.inl (Or.inl h))
    · rcases hm1.1 h with h | h
      · exact Or.inl (Or.inl (Or.inr h))
      · rcases hm2.1 h with h | h
        · exact Or.inl (Or.inr (h3 x h))
        · exact Or.inr h
    · exact Or.inl (Or.inr h)

/-- The emissions of a whole list of items, on an arbitrary kernel. -/
theorem closure_emit_fold_mem :
    ∀ (D : List Nat) (st : List Nat × List Nat) (x : Nat),
      x ∈ (D.foldl (fun st d => closure_emit d st) st).2 ++
          (D.foldl (fun st d => closure_emit d st) st).1 ↔ (x ∈ st.2 ++ st.1 ∨ x ∈ D) := by
  intro D
  induction D with
  | nil => intro st x; simp
  | cons d D ih =>
    intro st x
    rw [List.foldl_cons, ih, closure_emit_mem, List.mem_cons]
    constructor
    · rintro ((h | h) | h)
      · exact Or.inl h
      · exact Or.inr (Or.inl h)
      · exact Or.inr (Or.inr h)
    · rintro (h | h | h)
      · exact Or.inl (Or.inl h)
      · exact Or.inl (Or.inr h)
      · exact Or.inr h

/-! ## The reads of `rrhs` in `closure`, and the rows of `first_derives` -/

theorem foldl_snoc_eq (l : List Nat) : ∀ acc : List Nat,
    l.foldl (fun acc d => acc ++ [d]) acc = acc ++ l := by
  induction l with
  | nil => intro acc; simp
  | cons d l ih => intro acc; rw [List.foldl_cons, ih]; simp

theorem closure_bits_reads_eq (W ruleno word : Nat) (reads : List Nat) :
    closure_bits_reads W ruleno word reads =
      reads ++ ((List.range W).filter (fun i => word.testBit i)).map (fun i => ruleno + i) := by
  unfold closure_bits_reads
  rw [foldl_if_eq (fun i => word &&& (1 <<< i) ≠ 0) (fun i => ruleno + i)
    (fun d reads => reads ++ [d]), foldl_snoc_eq]
  congr 2
  apply List.filter_congr
  intro i _
  rw [Bool.eq_iff_iff, decide_eq_true_iff]
  exact and_shift_ne_zero word i

theorem closure_words_reads_eq (W : Nat) (hW : 0 < W) :
    ∀ (l : List Nat) (ruleno : Nat) (reads : List Nat),
      closure_words_reads W l ruleno reads =
        reads ++ (setBits W l).map (fun r => ruleno + r) := by
  intro l
  induction l with
  | nil => intro ruleno reads; simp [closure_words_reads, setBits]
  | cons word rest ih =>
    intro ruleno reads
    have hguard : (if word ≠ 0 then closure_bits_reads W ruleno word reads else reads) =
        closure_bits_reads W ruleno word reads := by
      by_cases h : word = 0
      · subst h
        rw [if_neg (by simp), closure_bits_reads_eq]
        simp
      · rw [if_pos h]
    unfold closure_words_reads
    rw [hguard, ih, closure_bits_reads_eq, setBits_cons W hW, List.map_append,
      List.append_assoc, List.map_map]
    congr 2
    apply List.map_congr_left
    intro r _
    simp only [Function.comp]
    rw [Nat.add_assoc]

/-- The reads of `rrhs` in `closure` are at the set bits of `ruleset`. -/
theorem closure_reads_eq (W : Nat) (hW : 0 < W) (g : Grammar) (fd nucleus : List Nat) :
    closure_reads W g fd nucleus =
      setBits W (closure_ruleset W g fd (WORDSIZE W g.nrules) nucleus
        (List.replicate (WORDSIZE W g.nrules) 0)) := by
  unfold closure_reads
  simp only [closure_words_reads_eq W hW, List.nil_append, Nat.zero_add, List.map_id_fun, id]
  simp

/-- What a successful `set_first_derives` leaves: `set_EFF` returned, and the bits of the
block are those of the rules of the nonterminals that `EFF` relates to the row. -/
theorem set_first_derives_inv (W : Nat) (hW : 0 < W) (g : Grammar) (fuel : Nat)
    (hsym : SymbolsOK g) (hd : DerivesInRange g) (fd : List Nat)
    (hfd : set_first_derives W fuel g = some fd) :
    ∃ EFF, set_EFF W fuel g = some EFF ∧
      fd.length = g.nvars * WORDSIZE W g.nrules ∧
      ∀ a r, a < g.nvars → r < WORDSIZE W g.nrules * W →
        (bitAt W (WORDSIZE W g.nrules) fd a r = true ↔
          ∃ j, j < g.nvars ∧ bitAt W (WORDSIZE W g.nvars) EFF a j = true ∧
            r ∈ rulesOf (g.derives (g.start_symbol + j))) := by
  obtain ⟨EFF, he⟩ : ∃ EFF, set_EFF W fuel g = some EFF := by
    unfold set_first_derives at hfd
    cases h : set_EFF W fuel g with
    | none => rw [h] at hfd; cases hfd
    | some EFF => exact ⟨EFF, rfl⟩
  obtain ⟨fd2, h1, h2, h3⟩ := set_first_derives_spec W hW g fuel hsym hd EFF he
  rw [hfd] at h1
  cases h1
  exact ⟨EFF, he, h2, h3⟩

/-- The row of a nonterminal after the dot of a kernel item is a row of the block. -/
theorem kernel_row_lt (g : Grammar) (hsym : SymbolsOK g) (c : Nat)
    (hin : ritemAt g c < g.nsyms) (hv : ISVAR g (ritemAt g c) = true) :
    (ritemAt g c).toNat - g.ntokens < g.nvars := by
  obtain ⟨hs1, hs2⟩ := hsym
  unfold ISVAR at hv
  have hv : (g.start_symbol : Int) ≤ ritemAt g c := by simpa using hv
  omega

/-! ## The entries of a `derives` list that the two scans visit -/

/-- The loop of `set_EFF` over a `derives` list handles its entries before the first one
that is not positive. -/
theorem set_EFF_scan_fold (W : Nat) (g : Grammar) (row : Nat) :
    ∀ (l : List Int) (EFF : List Nat),
      set_EFF_scan W g row l EFF =
        (scannedRules l).foldl
          (fun E r =>
            if ISVAR g (ritemAt g (rrhsAt g r)) then
              SETBIT W E row (ritemAt g (rrhsAt g r) - g.start_symbol).toNat
            else E) EFF := by
  intro l
  induction l with
  | nil => intro EFF; rfl
  | cons rule sp ih =>
    intro EFF
    by_cases h : rule > 0
    · by_cases hv : ISVAR g (ritemAt g (rrhsAt g rule.toNat)) = true
      · simp only [set_EFF_scan, scannedRules, h, if_true, hv, List.foldl_cons]
        exact ih _
      · simp only [set_EFF_scan, scannedRules, h, if_true, hv, List.foldl_cons]
        exact ih _
    · simp only [set_EFF_scan, scannedRules, h, if_false, List.foldl_nil]

/-- The loop of `set_first_derives` over a `derives` list handles its entries before the
first negative one. -/
theorem set_first_derives_scan_fold (W : Nat) (rrow : Nat) :
    ∀ (l : List Int) (fd : List Nat),
      set_first_derives_scan W rrow l fd =
        (rulesOf l).foldl (fun fd r => SETBIT W fd rrow r) fd := by
  intro l
  induction l with
  | nil => intro fd; rfl
  | cons rule rp ih =>
    intro fd
    by_cases h : rule ≥ 0
    · simp only [set_first_derives_scan, rulesOf, h, if_true, List.foldl_cons]
      exact ih _
    · simp only [set_first_derives_scan, rulesOf, h, if_false, List.foldl_nil]

theorem scannedRules_append_zero (post : List Int) :
    ∀ pre : List Nat, (∀ r ∈ pre, 0 < r) →
      scannedRules (pre.map Int.ofNat ++ 0 :: post) = pre := by
  intro pre
  induction pre with
  | nil => intro _; simp [scannedRules]
  | cons r pre ih =>
    intro h
    have hr : 0 < r := h r (List.mem_cons_self _ _)
    have hr2 : (Int.ofNat r) > 0 := by simpa using hr
    simp only [List.map_cons, List.cons_append, scannedRules, hr2, if_true]
    change (Int.ofNat r).toNat :: scannedRules (pre.map Int.ofNat ++ 0 :: post) = r :: pre
    rw [ih (fun x hx => h x (List.mem_cons_of_mem _ hx))]
    simp

theorem rulesOf_append_zero (post : List Int) :
    ∀ pre : List Nat, rulesOf (pre.map Int.ofNat ++ 0 :: post) = pre ++ 0 :: rulesOf post := by
  intro pre
  induction pre with
  | nil => simp [rulesOf]
  | cons r pre ih =>
    have hr2 : (Int.ofNat r) ≥ 0 := Int.ofNat_nonneg r
    simp only [List.map_cons, List.cons_append, rulesOf, hr2, if_true]
    change (Int.ofNat r).toNat :: rulesOf (pre.map Int.ofNat ++ 0 :: post) =
      r :: (pre ++ 0 :: rulesOf post)
    rw [ih]
    simp

/-- The matrix that `set_EFF` returns has its diagonal set. -/
theorem set_EFF_diag (W : Nat) (hW : 0 < W) (g : Grammar) (fuel : Nat)
    (hf : g.nvars * WORDSIZE W g.nvars < fuel) (EFF : List Nat)
    (he : set_EFF W fuel g = some EFF) (a : Nat) (ha : a < g.nvars) :
    bitAt W (WORDSIZE W g.nvars) EFF a a = true := by
  have hl : (set_EFF_rows W g (WORDSIZE W g.nvars)
      (List.replicate (g.nvars * WORDSIZE W g.nvars) 0)).1.length =
      g.nvars * WORDSIZE W g.nvars := by
    rw [length_set_EFF_rows]; simp
  obtain ⟨R1, R2, _, h2, _, _, _, h6, _⟩ :=
    reflexive_transitive_closure_spec W g.nvars _ fuel hW hl hf
  have he2 : some R2 = some EFF := h2.symm.trans he
  cases he2
  rw [h6 a a ha (Nat.lt_of_lt_of_le ha (le_wordsize_mul W g.nvars hW))]
  simp

/-! ## The closure of a closed item set -/

theorem scannedRules_subset_rulesOf :
    ∀ (l : List Int) (r : Nat), r ∈ scannedRules l → r ∈ rulesOf l := by
  intro l
  induction l with
  | nil => intro r h; simp [scannedRules] at h
  | cons rule sp ih =>
    intro r h
    by_cases hr : rule > 0
    · have hr2 : rule ≥ 0 := le_of_lt hr
      simp only [scannedRules, hr, if_true, List.mem_cons] at h
      simp only [rulesOf, hr2, if_true, List.mem_cons]
      rcases h with h | h
      · exact Or.inl h
      · exact Or.inr (ih r h)
    · simp [scannedRules, hr] at h

theorem firstSymbolsOK_of_itemsOK (g : Grammar) (hd : DerivesInRange g) (hit : ItemsOK g) :
    FirstSymbolsOK g := by
  intro j hj r hr
  exact (hit r (hd j hj r (scannedRules_subset_rulesOf _ r hr))).2

/-- Every nonterminal reached from one that occurs in `ritem`, by steps through the rules
that `set_EFF` visits, is a nonterminal that occurs in `ritem`. -/
theorem reached_occurs (g : Grammar) (hsym : SymbolsOK g) (hd : DerivesInRange g)
    (hit : ItemsOK g) (X Z : Nat)
    (hX : ∃ z, z < g.nvars ∧ X = g.start_symbol + z ∧
      ∃ k, k < g.ritem.length ∧ ritemAt g k = (X : Int))
    (h : Relation.ReflTransGen (ScanStep g) X Z) :
    ∃ z, z < g.nvars ∧ Z = g.start_symbol + z ∧
      ∃ k, k < g.ritem.length ∧ ritemAt g k = (Z : Int) := by
  induction h with
  | refl => exact hX
  | @tail Y Z0 _ hstep ih =>
    obtain ⟨y, hy, hY, _⟩ := ih
    subst hY
    obtain ⟨r0, hr0, h1, h2⟩ := hstep
    have hlt := hd y hy r0 (scannedRules_subset_rulesOf _ r0 hr0)
    obtain ⟨hi1, hi2⟩ := hit r0 hlt
    obtain ⟨hs1, hs2⟩ := hsym
    exact ⟨Z0 - g.start_symbol, by omega, by omega, rrhsAt g r0, hi1, h1⟩

/-- The rows of `first_derives` are closed under the first symbols of their rules, in a
grammar where no nonterminal that occurs in `ritem` has rule 0 in its `derives` list: if
the bit of rule `r` is set in the row of the nonterminal after the dot of the item `c`,
and the right-hand side of `r` starts with a nonterminal, then the row of this nonterminal is
contained in the row of the first. -/
theorem first_derives_row_closed (W : Nat) (hW : 0 < W) (g : Grammar) (fuel : Nat)
    (fd : List Nat) (hsym : SymbolsOK g) (hd : DerivesInRange g) (hit : ItemsOK g)
    (hz : RuleZeroUnused g) (hf : g.nvars * WORDSIZE W g.nvars < fuel)
    (hfd : set_first_derives W fuel g = some fd)
    (c : Nat) (hc1 : c < g.ritem.length) (hc2 : ritemAt g c < g.nsyms)
    (hv : ISVAR g (ritemAt g c) = true)
    (r : Nat) (hr : r < WORDSIZE W g.nrules * W)
    (hb : bitAt W (WORDSIZE W g.nrules) fd ((ritemAt g c).toNat - g.ntokens) r = true)
    (hv2 : ISVAR g (ritemAt g (rrhsAt g r)) = true)
    (r2 : Nat) (hr2 : r2 < WORDSIZE W g.nrules * W)
    (hb2 : bitAt W (WORDSIZE W g.nrules) fd
      ((ritemAt g (rrhsAt g r)).toNat - g.ntokens) r2 = true) :
    bitAt W (WORDSIZE W g.nrules) fd ((ritemAt g c).toNat - g.ntokens) r2 = true := by
  obtain ⟨EFF, he, _, h3⟩ := set_first_derives_inv W hW g fuel hsym hd fd hfd
  have hfs := firstSymbolsOK_of_itemsOK g hd hit
  obtain ⟨EFF2, he2, _, h5⟩ := set_EFF_spec W hW g fuel hsym hfs hf
  have heq : some EFF2 = some EFF := he2.symm.trans he
  cases heq
  have hnW := le_wordsize_mul W g.nvars hW
  have hb0 := kernel_row_lt g hsym c hc2 hv
  obtain ⟨hs1, hs2⟩ := id hsym
  have hvc : (g.start_symbol : Int) ≤ ritemAt g c := by
    unfold ISVAR at hv; simpa using hv
  have hvr : (g.start_symbol : Int) ≤ ritemAt g (rrhsAt g r) := by
    unfold ISVAR at hv2; simpa using hv2
  -- the row of the kernel item
  obtain ⟨j, hj, hej, hrj⟩ := (h3 _ r hb0 hr).1 hb
  have hrn : r < g.nrules := hd j hj r hrj
  obtain ⟨hi1, hi2⟩ := hit r hrn
  have hx0 := kernel_row_lt g hsym (rrhsAt g r) hi2 hv2
  obtain ⟨j2, hj2, hej2, hrj2⟩ := (h3 _ r2 hx0 hr2).1 hb2
  have hreach1 := ((h5 _ j hb0 (Nat.lt_of_lt_of_le hj hnW)).1 hej).2
  have hreach2 := ((h5 _ j2 hx0 (Nat.lt_of_lt_of_le hj2 hnW)).1 hej2).2
  -- the nonterminal `start_symbol + j` occurs in `ritem`
  have hB : g.start_symbol + ((ritemAt g c).toNat - g.ntokens) = (ritemAt g c).toNat := by
    omega
  have hocc := reached_occurs g hsym hd hit _ _
    ⟨(ritemAt g c).toNat - g.ntokens, hb0, rfl, c, hc1, by rw [hB]; omega⟩ hreach1
  obtain ⟨z, hz1, hz2, k, hk1, hk2⟩ := hocc
  have hzj : z = j := by omega
  subst hzj
  have hpos := hz k hk1 z hz1 hk2
  have hscan : r ∈ scannedRules (g.derives (g.start_symbol + z)) := by
    rw [scannedRules_eq_rulesOf _ hpos]; exact hrj
  have hX : g.start_symbol + ((ritemAt g (rrhsAt g r)).toNat - g.ntokens) =
      (ritemAt g (rrhsAt g r)).toNat := by omega
  have hstep : ScanStep g (g.start_symbol + z)
      (g.start_symbol + ((ritemAt g (rrhsAt g r)).toNat - g.ntokens)) :=
    ⟨r, hscan, by rw [hX]; omega, by omega⟩
  have hreach := (hreach1.tail hstep).trans hreach2
  exact (h3 _ r2 hb0 hr2).2 ⟨j2, hj2,
    (h5 _ j2 hb0 (Nat.lt_of_lt_of_le hj2 hnW)).2 ⟨hj2, hreach⟩, hrj2⟩

/-- Two strictly ascending lists with the same members are equal. -/
theorem sorted_ext (l1 l2 : List Nat) (h1 : l1.Pairwise (· < ·)) (h2 : l2.Pairwise (· < ·))
    (h : ∀ x, x ∈ l1 ↔ x ∈ l2) : l1 = l2 := by
  have n1 : l1.Nodup := h1.imp (fun hab => Nat.ne_of_lt hab)
  have n2 : l2.Nodup := h2.imp (fun hab => Nat.ne_of_lt hab)
  exact List.eq_of_perm_of_sorted ((List.perm_ext_iff_of_nodup n1 n2).2 h) h1 h2

/-! ## Warshall's algorithm on a Boolean matrix: closed form of a pass, and packing -/

/-- The row loop of a pass of Warshall's algorithm, in place, computes
`M[a][b] ∨ (M[a][k] ∧ M[k][b])` of the matrix before the pass in the rows done so far. -/
theorem spec_warshall_rows_eq (n k : Nat) (M : Nat → Nat → Bool) :
    ∀ m, (List.range m).foldl (fun M1 i => spec_warshall_row n k i M1) M =
      fun a b => if a < m ∧ b < n then M a b || (M a k && M k b) else M a b := by
  intro m
  induction m with
  | zero => funext a b; simp
  | succ m ih =>
    rw [List.range_succ, List.foldl_append, ih]
    funext a b
    simp only [List.foldl_cons, List.foldl_nil, spec_warshall_row, Nat.lt_irrefl, false_and,
      if_false]
    by_cases hmk : M m k = true
    · simp only [hmk, if_true]
      by_cases ha : a = m
      · subst ha
        by_cases hb : b < n
        · simp only [hb, and_true, if_true, Nat.lt_succ_self, true_and, hmk, Bool.true_and]
          by_cases hk : k < a
          · simp only [hk, true_and, if_true]
            cases M k b <;> cases M k k <;> cases M a b <;> simp
          · simp only [hk, false_and, if_false]
        · simp only [hb, and_false, if_false]
      · have h1 : (a < m + 1) = (a < m) := by
          apply propext; constructor <;> intro h <;> omega
        simp only [ha, false_and, if_false, h1]
    · have hmk2 : M m k = false := by simpa using hmk
      simp only [hmk2, Bool.false_eq_true, if_false]
      by_cases ha : a = m
      · subst ha
        simp [hmk2]
      · have h1 : (a < m + 1) = (a < m) := by
          apply propext; constructor <;> intro h <;> omega
        simp only [h1]

theorem spec_warshall_pass_eq (n k : Nat) (M : Nat → Nat → Bool) :
    spec_warshall_pass n k M =
      fun a b => if a < n ∧ b < n then M a b || (M a k && M k b) else M a b :=
  spec_warshall_rows_eq n k M n

theorem testBit_spec_pack_word_aux (f : Nat → Bool) (b : Nat) :
    ∀ (l : List Nat) (acc : Nat),
      (l.foldl (fun acc i => if f i then acc ||| (1 <<< i) else acc) acc).testBit b =
        (acc.testBit b || (decide (b ∈ l) && f b)) := by
  intro l
  induction l with
  | nil => intro acc; simp
  | cons i l ih =>
    intro acc
    rw [List.foldl_cons, ih]
    by_cases hf : f i = true
    · rw [if_pos hf, Nat.testBit_or, Nat.one_shiftLeft, Nat.testBit_two_pow]
      by_cases hib : i = b
      · subst hib; simp [hf]
      · have hbi : ¬ b = i := fun h => hib h.symm
        simp [hib, hbi]
    · rw [if_neg hf]
      by_cases hib : i = b
      · subst hib
        have hf2 : f i = false := by simpa using hf
        simp [hf2]
      · have hbi : ¬ b = i := fun h => hib h.symm
        simp [hbi]

theorem testBit_spec_pack_word (W : Nat) (f : Nat → Bool) (b : Nat) :
    (spec_pack_word W f).testBit b = (decide (b < W) && f b) := by
  unfold spec_pack_word
  rw [testBit_spec_pack_word_aux]
  simp

theorem length_spec_pack (W n : Nat) (M : Nat → Nat → Bool) :
    (spec_pack W n M).length = n * WORDSIZE W n := by
  simp [spec_pack]

theorem rd_spec_pack (W n : Nat) (M : Nat → Nat → Bool) (q : Nat)
    (hq : q < n * WORDSIZE W n) :
    rd (spec_pack W n M) q =
      spec_pack_word W (fun b =>
        decide (q % WORDSIZE W n * W + b < n) &&
          M (q / WORDSIZE W n) (q % WORDSIZE W n * W + b)) := by
  unfold rd spec_pack
  rw [List.getD_eq_getElem?_getD, List.getElem?_map, List.getElem?_range hq]
  rfl

/-- The packed matrix holds the relation in the columns below `n` and clear bits in the
columns from `n` on. -/
theorem bitAt_spec_pack (W n : Nat) (hW : 0 < W) (M : Nat → Nat → Bool) (i j : Nat)
    (hi : i < n) (hj : j < WORDSIZE W n * W) :
    bitAt W (WORDSIZE W n) (spec_pack W n M) i j = (decide (j < n) && M i j) := by
  have hjw : j / W < WORDSIZE W n := by rw [Nat.div_lt_iff_lt_mul hW]; exact hj
  have hrs : 0 < WORDSIZE W n := Nat.lt_of_le_of_lt (Nat.zero_le _) hjw
  have hq := idx_lt hi hjw
  have hdiv : (i * WORDSIZE W n + j / W) / WORDSIZE W n = i := by
    rw [Nat.mul_comm, Nat.mul_add_div hrs, Nat.div_eq_of_lt hjw, Nat.add_zero]
  have hmod : (i * WORDSIZE W n + j / W) % WORDSIZE W n = j / W := by
    rw [Nat.mul_comm, Nat.mul_add_mod, Nat.mod_eq_of_lt hjw]
  have hj2 : j / W * W + j % W = j := by
    rw [Nat.mul_comm]; exact Nat.div_add_mod j W
  unfold bitAt
  rw [rd_spec_pack W n M _ hq, testBit_spec_pack_word, hdiv, hmod, hj2]
  simp [Nat.mod_lt j hW]

/-- With enough fuel the word-level `transitive_closure` returns on the packed relation, and
the bits of its result in the columns below `n` are the entries that Warshall's algorithm
computes on the Boolean matrix. -/
theorem transitive_closure_spec_pack (W n : Nat) (M : Nat → Nat → Bool) (fuel : Nat)
    (hW : 0 < W) (hf : n * WORDSIZE W n < fuel) :
    ∃ R2, transitive_closure W fuel (spec_pack W n M) n = some R2 ∧
      R2.length = n * WORDSIZE W n ∧
      ∀ i j, i < n → j < n → bitAt W (WORDSIZE W n) R2 i j = spec_warshall n M i j := by
  have hnW := le_wordsize_mul W n hW
  obtain ⟨R2, h1, h2, h3⟩ := transitive_closure_inv W hW (spec_pack W n M) n
    (length_spec_pack W n M)
    (fun k R1 => ∀ i j, i < n → j < n → bitAt W (WORDSIZE W n) R1 i j =
      (List.range k).foldl (fun M1 k1 => spec_warshall_pass n k1 M1) M i j)
    (by
      intro i j hi hj
      rw [bitAt_spec_pack W n hW M i j hi (Nat.lt_of_lt_of_le hj hnW)]
      simp [hj])
    (by
      intro k R1 R3 hk _ hinv hpass i j hi hj
      rw [pass_bitAt W _ n k R1 R3 hW hpass i j hi (Nat.lt_of_lt_of_le hj hnW),
        List.range_succ, List.foldl_append, List.foldl_cons, List.foldl_nil,
        spec_warshall_pass_eq, hinv i j hi hj, hinv i k hi hk, hinv k j hk hj]
      simp [hi, hj])
    fuel hf
  exact ⟨R2, h1, by rw [h2, length_spec_pack], h3⟩

/-! ## Lemmas on the options `-b` and `-p` of `getargs` -/

theorem getargs_flag_keeps (c : Char) (st st1 : Globals) (h : getargs_flag c st = some st1) :
     st1.file_prefix = st.file_prefix ∧ st1.symbol_prefix = st.symbol_prefix := by
  unfold getargs_flag at h
  split_ifs at h <;> cases h <;> exact ⟨rfl, rfl⟩

theorem getargs_cluster_keeps :
    ∀ (cs : CStr) (st st1 : Globals), getargs_cluster cs st = some st1 →
       st1.file_prefix = st.file_prefix ∧ st1.symbol_prefix = st.symbol_prefix := by
  intro cs
  induction cs with
  | nil => intro st st1 h; cases h; exact ⟨rfl, rfl⟩
  | cons c cs ih =>
    intro st st1 h
    unfold getargs_cluster at h
    by_cases hc : c = Char.ofNat 0
    · rw [if_pos hc] at h; cases h; exact ⟨rfl, rfl⟩
    · rw [if_neg hc] at h
      cases hf : getargs_flag c st with
      | none => rw [hf] at h; cases h
      | some st2 =>
        rw [hf] at h
        simp only [Option.some_bind] at h
        obtain ⟨k1, k2⟩ := getargs_flag_keeps c st st2 hf
        obtain ⟨k3, k4⟩ := ih st2 st1 h
        exact ⟨k3.trans k1, k4.trans k2⟩

/-- Accepted option arguments lead the loop of `getargs` to one state, whatever follows
them. -/
theorem getargs_options_skip_all (pre : List CStr) (h : OptionArgs pre) :
    ∀ st : Globals, ∃ st1, SameFiles st st1 ∧
      ∀ rest : List CStr, getargs_options (pre ++ rest) st = getargs_options rest st1 := by
  induction h with
  | nil => intro st; exact ⟨st, sameFiles_refl _, fun _ => rfl⟩
  | cluster c cs pre2 hc hcs _ ih =>
    intro st
    obtain ⟨n1, n2, n3, n4⟩ := flagLetters_ne hc
    obtain ⟨st2, h2⟩ := getargs_flag_of_mem c st hc
    obtain ⟨st3, h3, h4⟩ := getargs_cluster_of_mem cs st2 hcs
    obtain ⟨st4, h6, h5⟩ := ih st3
    refine ⟨st4, sameFiles_trans (sameFiles_trans (getargs_flag_some c st st2 h2).2.1 h4) h6,
      ?_⟩
    intro rest
    rw [← h5, List.cons_append, getargs_options_cons]
    simp [peek, n1, n2, n3, n4, h2, h3]
  | b_attached v pre2 hv _ ih =>
    intro st
    obtain ⟨st4, h6, h5⟩ := ih { st with file_prefix := v }
    refine ⟨st4, h6, ?_⟩
    intro rest
    rw [← h5]
    rw [List.cons_append, getargs_options_cons]
    simp [peek_cons, hv]
  | b_separate v pre2 _ ih =>
    intro st
    obtain ⟨st4, h6, h5⟩ := ih { st with file_prefix := v }
    refine ⟨st4, h6, ?_⟩
    intro rest
    rw [← h5, List.cons_append, List.cons_append, getargs_options_cons]
    simp [peek]
  | p_attached v pre2 hv _ ih =>
    intro st
    obtain ⟨st4, h6, h5⟩ := ih { st with symbol_prefix := some v }
    refine ⟨st4, h6, ?_⟩
    intro rest
    rw [← h5]
    rw [List.cons_append, getargs_options_cons]
    simp [peek_cons, hv]
  | p_separate v pre2 _ ih =>
    intro st
    obtain ⟨st4, h6, h5⟩ := ih { st with symbol_prefix := some v }
    refine ⟨st4, h6, ?_⟩
    intro rest
    rw [← h5, List.cons_append, List.cons_append, getargs_options_cons]
    simp [peek]

/-- The option `-b` with an attached value. -/
theorem getargs_options_b_attached (s : CStr) (rest : List CStr) (st : Globals)
    (hs : peek s ≠ Char.ofNat 0) :
    getargs_options (('-' :: 'b' :: s) :: rest) st =
      getargs_options rest { st with file_prefix := s } := by
  rw [getargs_options_cons]
  simp [peek_cons, hs]

/-- The option `-b` with a separate value. -/
theorem getargs_options_b_separate (s : CStr) (rest : List CStr) (st : Globals) :
    getargs_options (['-', 'b'] :: s :: rest) st =
      getargs_options rest { st with file_prefix := s } := by
  rw [getargs_options_cons]
  simp [peek]

/-- The option `-b` without a value, as the last argument. -/
theorem getargs_options_b_last (st : Globals) :
    getargs_options [['-', 'b']] st = none := by
  rw [getargs_options_cons]
  simp [peek]

/-- The option `-p` with an attached value. -/
theorem getargs_options_p_attached (s : CStr) (rest : List CStr) (st : Globals)
    (hs : peek s ≠ Char.ofNat 0) :
    getargs_options (('-' :: 'p' :: s) :: rest) st =
      getargs_options rest { st with symbol_prefix := some s } := by
  rw [getargs_options_cons]
  simp [peek_cons, hs]

/-- The option `-p` with a separate value. -/
theorem getargs_options_p_separate (s : CStr) (rest : List CStr) (st : Globals) :
    getargs_options (['-', 'p'] :: s :: rest) st =
      getargs_options rest { st with symbol_prefix := some s } := by
  rw [getargs_options_cons]
  simp [peek]

/-- The option `-p` without a value, as the last argument. -/
theorem getargs_options_p_last (st : Globals) :
    getargs_options [['-', 'p']] st = none := by
  rw [getargs_options_cons]
  simp [peek]

theorem lastOptionB_cons (s : CStr) (rest : List CStr) :
    lastOptionB (s :: rest) =
      if peek s ≠ '-' then none
      else if s.tail = [] then none
      else if peek s.tail = '-' then none
      else if peek s.tail = 'b' then
        if s.tail.tail ≠ [] then
          match lastOptionB rest with
          | some w => some w
          | none => some s.tail.tail
        else
          match rest with
          | v :: rest2 =>
            match lastOptionB rest2 with
            | some w => some w
            | none => some v
          | [] => none
      else if peek s.tail = 'p' then
        if s.tail.tail ≠ [] then lastOptionB rest
        else
          match rest with
          | _ :: rest2 => lastOptionB rest2
          | [] => none
      else lastOptionB rest := by
  cases rest <;> rfl

theorem lastOptionP_cons (s : CStr) (rest : List CStr) :
    lastOptionP (s :: rest) =
      if peek s ≠ '-' then none
      else if s.tail = [] then none
      else if peek s.tail = '-' then none
      else if peek s.tail = 'p' then
        if s.tail.tail ≠ [] then
          match lastOptionP rest with
          | some w => some w
          | none => some s.tail.tail
        else
          match rest with
          | v :: rest2 =>
            match lastOptionP rest2 with
            | some w => some w
            | none => some v
          | [] => none
      else if peek s.tail = 'b' then
        if s.tail.tail ≠ [] then lastOptionP rest
        else
          match rest with
          | _ :: rest2 => lastOptionP rest2
          | [] => none
      else lastOptionP rest := by
  cases rest <;> rfl

/-- On a normal return `file_prefix` is the value of the last `-b` option among the option
arguments, and unchanged when there is none; likewise `symbol_prefix` and `-p`. -/
theorem getargs_options_last :
    ∀ (n : Nat) (args : List CStr) (st st1 : Globals), args.length ≤ n → NoNul args →
      getargs_options args st = some st1 →
       st1.file_prefix = (lastOptionB args).getD st.file_prefix ∧
       st1.symbol_prefix = (match lastOptionP args with
        | some w => some w
        | none => st.symbol_prefix) := by
  intro n
  induction n with
  | zero =>
    intro args st st1 hlen _ h
    have : args = [] := List.length_eq_zero.1 (Nat.le_zero.1 hlen)
    subst this
    simp [getargs_options, getargs_no_more_options] at h
  | succ n ih =>
    intro args st st1 hlen hn h
    cases args with
    | nil => simp [getargs_options, getargs_no_more_options] at h
    | cons s rest =>
      have hns : Char.ofNat 0 ∉ s := hn s (List.mem_cons_self _ _)
      have hnr : NoNul rest := fun a ha => hn a (List.mem_cons_of_mem _ ha)
      have hlr : rest.length ≤ n := by simpa using hlen
      rcases getargs_options_inv s rest st st1 hns h with
        ⟨hp, e1, e⟩ | ⟨e0, e1, e⟩ | ⟨t, f, e0, e1, e⟩ | ⟨v, e, hv, h2⟩ |
        ⟨v, rest2, e, e2, h2⟩ | ⟨v, e, hv, h2⟩ | ⟨v, rest2, e, e2, h2⟩ |
        ⟨c, cs, st2, st3, e, hf, hcl, h2⟩
      · subst e; subst e1
        rw [lastOptionB_cons, lastOptionP_cons]
        simp [hp]
      · subst e; subst e1; subst e0
        rw [lastOptionB_cons, lastOptionP_cons]
        simp [peek]
      · subst e; subst e1; subst e0
        rw [lastOptionB_cons, lastOptionP_cons]
        simp [peek]
      · subst e
        have hv2 : v ≠ [] := by
          intro e; apply hv; rw [e]; rfl
        obtain ⟨k1, k2⟩ := ih rest _ st1 hlr hnr h2
        rw [k1, k2]
        rw [lastOptionB_cons, lastOptionP_cons]
        cases hb : lastOptionB rest <;> simp [peek, hv2, hb]
      · subst e; subst e2
        have hnr2 : NoNul rest2 := fun a ha => hnr a (List.mem_cons_of_mem _ ha)
        have hlr2 : rest2.length ≤ n := by simp at hlr; omega
        obtain ⟨k1, k2⟩ := ih rest2 _ st1 hlr2 hnr2 h2
        rw [k1, k2]
        rw [lastOptionB_cons, lastOptionP_cons]
        cases hb : lastOptionB rest2 <;> simp [peek, hb]
      · subst e
        have hv2 : v ≠ [] := by
          intro e; apply hv; rw [e]; rfl
        obtain ⟨k1, k2⟩ := ih rest _ st1 hlr hnr h2
        rw [k1, k2]
        rw [lastOptionB_cons, lastOptionP_cons]
        cases hb : lastOptionP rest <;> simp [peek, hv2, hb]
      · subst e; subst e2
        have hnr2 : NoNul rest2 := fun a ha => hnr a (List.mem_cons_of_mem _ ha)
        have hlr2 : rest2.length ≤ n := by simp at hlr; omega
        obtain ⟨k1, k2⟩ := ih rest2 _ st1 hlr2 hnr2 h2
        rw [k1, k2]
        rw [lastOptionB_cons, lastOptionP_cons]
        cases hb : lastOptionP rest2 <;> simp [peek, hb]
      · subst e
        obtain ⟨hc, _, _⟩ := getargs_flag_some c st st2 hf
        obtain ⟨n1, n2, n3, n4⟩ := flagLetters_ne hc
        obtain ⟨f1, f2⟩ := getargs_flag_keeps c st st2 hf
        obtain ⟨c1, c2⟩ := getargs_cluster_keeps cs st2 st3 hcl
        obtain ⟨k1, k2⟩ := ih rest st3 st1 hlr hnr h2
        rw [k1, k2, c1, c2, f1, f2]
        rw [lastOptionB_cons, lastOptionP_cons]
        simp [peek, n1, n2, n3, n4]

/-! ## The buffers of `create_file_names` -/

/-- The library function `strcpy` in closed form, when the string fits into the buffer. -/
theorem strcpy_eq : ∀ (src : List Char) (dst : List Char) (off : Nat),
    off + src.length < dst.length →
    strcpy dst off src = dst.take off ++ src ++ Char.ofNat 0 :: dst.drop (off + src.length + 1) := by
  intro src
  induction src with
  | nil =>
    intro dst off h
    simp only [strcpy, List.length_nil, Nat.add_zero, List.append_nil] at h ⊢
    rw [List.set_eq_take_append_cons_drop, if_pos h]
  | cons c src ih =>
    intro dst off h
    simp only [List.length_cons] at h
    have h1 : off < dst.length := by omega
    unfold strcpy
    rw [ih _ _ (by rw [List.length_set]; omega)]
    have e1 : (dst.set off c).take (off + 1) = dst.take off ++ [c] := by
      rw [List.set_eq_take_append_cons_drop, if_pos h1]
      have hl : (List.take off dst).length = off := by rw [List.length_take]; omega
      rw [List.take_append_eq_append_take, hl]
      simp
    have e2 : (dst.set off c).drop (off + 1 + src.length + 1) =
        dst.drop (off + (src.length + 1) + 1) := by
      rw [List.drop_set_of_lt c dst (by omega)]
      congr 1; omega
    rw [e1, e2]
    simp

theorem set_length_append (d : List Char) (x y : Char) (rest : List Char) :
    (d ++ x :: rest).set d.length y = d ++ y :: rest := by
  induction d with
  | nil => rfl
  | cons a d ih => simp [ih]

/-- The template that the statements of `create_file_names` leave in one buffer. -/
theorem temp_name_eq (d : CStr) (buf : List Char) (c : Char)
    (hlen : buf.length = if d.length ≠ 0 ∧ d.getD (d.length - 1) (Char.ofNat 0) ≠ '/'
      then d.length + 13 + 1 else d.length + 13) :
    (strcpy
      (if decide (d.length ≠ 0 ∧ d.getD (d.length - 1) (Char.ofNat 0) ≠ '/') = true
        then (strcpy buf 0 d).set d.length '/' else strcpy buf 0 d)
      (if decide (d.length ≠ 0 ∧ d.getD (d.length - 1) (Char.ofNat 0) ≠ '/') = true
        then d.length + 1 else d.length) temp_form).set
      ((if decide (d.length ≠ 0 ∧ d.getD (d.length - 1) (Char.ofNat 0) ≠ '/') = true
        then d.length + 1 else d.length) + 5) c =
    d ++ (if d.length ≠ 0 ∧ d.getD (d.length - 1) (Char.ofNat 0) ≠ '/' then ['/'] else []) ++
      ['y', 'a', 'c', 'c', '.', c, 'X', 'X', 'X', 'X', 'X', 'X', Char.ofNat 0] := by
  have hX : temp_form = ['y', 'a', 'c', 'c', '.', 'X', 'X', 'X', 'X', 'X', 'X', 'X'] := by
    decide
  have htl : temp_form.length = 12 := by decide
  by_cases hs : d.length ≠ 0 ∧ d.getD (d.length - 1) (Char.ofNat 0) ≠ '/'
  · rw [if_pos hs] at hlen
    rw [if_pos hs]
    simp only [decide_eq_true hs, if_true]
    have e1 : strcpy buf 0 d = d ++ Char.ofNat 0 :: buf.drop (d.length + 1) := by
      rw [strcpy_eq d buf 0 (by omega)]
      simp
    have hr : (buf.drop (d.length + 1)).length = 13 := by
      rw [List.length_drop]; omega
    rw [e1, set_length_append]
    have e2 : strcpy (d ++ '/' :: buf.drop (d.length + 1)) (d.length + 1) temp_form =
        d ++ '/' :: (temp_form ++ [Char.ofNat 0]) := by
      rw [strcpy_eq temp_form _ (d.length + 1) (by simp [hr, htl])]
      have t1 : (d ++ '/' :: buf.drop (d.length + 1)).take (d.length + 1) = d ++ ['/'] := by
        rw [List.take_append_eq_append_take]
        simp
      have t2 : (d ++ '/' :: buf.drop (d.length + 1)).drop
          (d.length + 1 + temp_form.length + 1) = [] := by
        apply List.drop_eq_nil_of_le
        simp [hr, htl]
      rw [t1, t2]
      simp
    rw [e2, hX]
    have e3 : d.length + 1 + 5 = (d ++ ['/', 'y', 'a', 'c', 'c', '.']).length := by simp
    have e4 : d ++ '/' :: (['y', 'a', 'c', 'c', '.', 'X', 'X', 'X', 'X', 'X', 'X', 'X'] ++
        [Char.ofNat 0]) = (d ++ ['/', 'y', 'a', 'c', 'c', '.']) ++
        'X' :: ['X', 'X', 'X', 'X', 'X', 'X', Char.ofNat 0] := by simp
    rw [e3, e4, set_length_append]
    simp
  · rw [if_neg hs] at hlen
    rw [if_neg hs]
    simp only [decide_eq_false hs, Bool.false_eq_true, if_false]
    have e2 : strcpy (strcpy buf 0 d) d.length temp_form = d ++ (temp_form ++ [Char.ofNat 0]) := by
      have e1 : strcpy buf 0 d = d ++ Char.ofNat 0 :: buf.drop (d.length + 1) := by
        rw [strcpy_eq d buf 0 (by omega)]
        simp
      have hr : (buf.drop (d.length + 1)).length = 12 := by
        rw [List.length_drop]; omega
      rw [e1, strcpy_eq temp_form _ d.length (by simp [hr, htl])]
      have t1 : (d ++ Char.ofNat 0 :: buf.drop (d.length + 1)).take d.length = d := by
        rw [List.take_append_eq_append_take]
        simp
      have t2 : (d ++ Char.ofNat 0 :: buf.drop (d.length + 1)).drop
          (d.length + temp_form.length + 1) = [] := by
        apply List.drop_eq_nil_of_le
        simp [hr, htl]
      rw [t1, t2]
      simp
    rw [e2, hX]
    have e3 : d.length + 5 = (d ++ ['y', 'a', 'c', 'c', '.']).length := by simp
    have e4 : d ++ (['y', 'a', 'c', 'c', '.', 'X', 'X', 'X', 'X', 'X', 'X', 'X'] ++
        [Char.ofNat 0]) = (d ++ ['y', 'a', 'c', 'c', '.']) ++
        'X' :: ['X', 'X', 'X', 'X', 'X', 'X', Char.ofNat 0] := by simp
    rw [e3, e4, set_length_append]
    simp

theorem length_MALLOC (junk : Nat → Char) (n : Nat) : (MALLOC junk n).length = n := by
  simp [MALLOC]

/-- The test `len && tmpdir[len - 1] != '/'` holds iff the string is not empty and does not
end in `/`. -/
theorem slash_test_iff (d : CStr) :
    (d.length ≠ 0 ∧ d.getD (d.length - 1) (Char.ofNat 0) ≠ '/') ↔
      (d ≠ [] ∧ d.getLast? ≠ some '/') := by
  cases hd : d.getLast? with
  | none =>
    have : d = [] := List.getLast?_eq_none_iff.1 hd
    subst this
    simp
  | some x =>
    obtain ⟨ys, rfl⟩ := List.getLast?_eq_some_iff.1 hd
    simp [List.getD_eq_getElem?_getD]

theorem cstring_append_nul (s : CStr) (h : Char.ofNat 0 ∉ s) :
    cstring (s ++ [Char.ofNat 0]) = s := by
  unfold cstring
  rw [List.takeWhile_append_of_pos]
  · simp
  · intro a ha
    have : a ≠ Char.ofNat 0 := fun e => h (e ▸ ha)
    simpa using this

/-! ## Chains of steps from a nonterminal -/

/-- In a grammar where no nonterminal that occurs in `ritem` has rule 0 in its `derives`
list, the rules in the row of the nonterminal after the dot of an item are rules from 1
on, below `nrules`. -/
theorem first_derives_row_pos (W : Nat) (hW : 0 < W) (g : Grammar) (fuel : Nat)
    (fd : List Nat) (hsym : SymbolsOK g) (hd : DerivesInRange g) (hit : ItemsOK g)
    (hz : RuleZeroUnused g) (hf : g.nvars * WORDSIZE W g.nvars < fuel)
    (hfd : set_first_derives W fuel g = some fd)
    (c : Nat) (hc1 : c < g.ritem.length) (hc2 : ritemAt g c < g.nsyms)
    (hv : ISVAR g (ritemAt g c) = true)
    (r : Nat) (hr : r < WORDSIZE W g.nrules * W)
    (hb : bitAt W (WORDSIZE W g.nrules) fd ((ritemAt g c).toNat - g.ntokens) r = true) :
    0 < r ∧ r < g.nrules := by
  obtain ⟨EFF, he, _, h3⟩ := set_first_derives_inv W hW g fuel hsym hd fd hfd
  have hfs := firstSymbolsOK_of_itemsOK g hd hit
  obtain ⟨EFF2, he2, _, h5⟩ := set_EFF_spec W hW g fuel hsym hfs hf
  have heq : some EFF2 = some EFF := he2.symm.trans he
  cases heq
  have hnW := le_wordsize_mul W g.nvars hW
  have hb0 := kernel_row_lt g hsym c hc2 hv
  obtain ⟨hs1, hs2⟩ := id hsym
  have hvc : (g.start_symbol : Int) ≤ ritemAt g c := by
    unfold ISVAR at hv; simpa using hv
  obtain ⟨j, hj, hej, hrj⟩ := (h3 _ r hb0 hr).1 hb
  have hreach1 := ((h5 _ j hb0 (Nat.lt_of_lt_of_le hj hnW)).1 hej).2
  have hB : g.start_symbol + ((ritemAt g c).toNat - g.ntokens) = (ritemAt g c).toNat := by
    omega
  have hocc := reached_occurs g hsym hd hit _ _
    ⟨(ritemAt g c).toNat - g.ntokens, hb0, rfl, c, hc1, by rw [hB]; omega⟩ hreach1
  obtain ⟨z, hz1, hz2, k, hk1, hk2⟩ := hocc
  have hzj : z = j := by omega
  subst hzj
  exact ⟨hz k hk1 z hz1 hk2 r hrj, hd z hj r hrj⟩

/-- The output of `closure` on a strictly ascending kernel when the set bits of the rows
used are rule numbers from 1 on, below `nrules`, and `rrhs` is strictly increasing over
these. -/
theorem closure_of_bits_from_one (W : Nat) (hW : 0 < W) (g : Grammar) (fd nucleus : List Nat)
    (hrr : RrhsIncreasingFromOne g) (hk : nucleus.Pairwise (· < ·))
    (hbits : ∀ c ∈ nucleus, ISVAR g (ritemAt g c) = true → ∀ r, r < WORDSIZE W g.nrules * W →
      bitAt W (WORDSIZE W g.nrules) fd ((ritemAt g c).toNat - g.ntokens) r = true →
      0 < r ∧ r < g.nrules) :
    (closure W g fd nucleus).Pairwise (· < ·) ∧
    ∀ x, x ∈ closure W g fd nucleus ↔
      (x ∈ nucleus ∨ ∃ c, c ∈ nucleus ∧ ∃ r, r < g.nrules ∧ ISVAR g (ritemAt g c) = true ∧
        bitAt W (WORDSIZE W g.nrules) fd ((ritemAt g c).toNat - g.ntokens) r = true ∧
        x = rrhsAt g r) := by
  have hlt : ∀ r ∈ setBits W (closure_ruleset W g fd (WORDSIZE W g.nrules) nucleus
      (List.replicate (WORDSIZE W g.nrules) 0)), 0 < r ∧ r < g.nrules := by
    intro r hr
    rw [mem_setBits_ruleset W hW] at hr
    obtain ⟨h1, c, hc, hv, hb⟩ := hr
    exact hbits c hc hv r h1 hb
  have hD : ((setBits W (closure_ruleset W g fd (WORDSIZE W g.nrules) nucleus
      (List.replicate (WORDSIZE W g.nrules) 0))).map (rrhsAt g)).Pairwise (· < ·) := by
    rw [List.pairwise_map]
    exact List.Pairwise.imp_of_mem
      (fun {a b} ha hb hab => hrr b (hlt b hb).2 a hab (hlt a ha).1) (setBits_sorted W _)
  obtain ⟨h1, h2⟩ := closure_emit_fold _ nucleus [] hD hk List.Pairwise.nil
    (fun x hx => by simp at hx) (fun x hx => by simp at hx)
  rw [closure_unfold W hW]
  refine ⟨h1, fun x => ?_⟩
  rw [h2]
  simp only [List.not_mem_nil, false_or, List.mem_map]
  constructor
  · rintro (h | ⟨r, hr, rfl⟩)
    · exact Or.inl h
    · have hrn := (hlt r hr).2
      rw [mem_setBits_ruleset W hW] at hr
      obtain ⟨_, c, hc, hv, hb⟩ := hr
      exact Or.inr ⟨c, hc, r, hrn, hv, hb, rfl⟩
  · rintro (h | ⟨c, hc, r, hrn, hv, hb, rfl⟩)
    · exact Or.inl h
    · refine Or.inr ⟨r, ?_, rfl⟩
      rw [mem_setBits_ruleset W hW]
      have := le_wordsize_mul W g.nrules hW
      exact ⟨by omega, c, hc, hv, hb⟩

theorem rrhsIncreasingFromOne_of_increasing {g : Grammar} (h : RrhsIncreasing g) :
    RrhsIncreasingFromOne g :=
  fun r2 h2 r1 h1 _ => h r2 h2 r1 h1

/-- No rule 0 in any `derives` list: then no nonterminal that occurs in `ritem` has rule 0
in its list. -/
theorem ruleZeroUnused_of_noRuleZero {g : Grammar} (h : NoRuleZero g) : RuleZeroUnused g :=
  fun _ _ j hj _ => h j hj

/-! ## Claims on `warshall.c` -/

/-- C1: for every `n` and every packed `n`-by-`n` relation `R` with clear padding bits,
`transitive_closure(R, n)` returns and leaves in `R` the smallest transitive relation
containing the original one: bit `(i, j)` is set afterwards iff the original relation has
a non-empty path from `i` to `j`. -/
theorem transitive_closure_smallest (W n : Nat) (R : List Nat) (fuel : Nat) (hW : 0 < W)
    (hlen : R.length = n * WORDSIZE W n) (hpad : PaddingClear W R n)
    (hf : n * WORDSIZE W n < fuel) :
    ∃ R2, transitive_closure W fuel R n = some R2 ∧ R2.length = R.length ∧
      (∀ i j, i < n → j < WORDSIZE W n * W →
        (bitAt W (WORDSIZE W n) R2 i j = true ↔ Relation.TransGen (rel W R n) i j)) ∧
      (∀ i j, rel W R n i j → rel W R2 n i j) ∧
      (∀ i j k, rel W R2 n i j → rel W R2 n j k → rel W R2 n i k) ∧
      (∀ S : Nat → Nat → Prop, (∀ i j, rel W R n i j → S i j) →
        (∀ i j k, S i j → S j k → S i k) → ∀ i j, rel W R2 n i j → S i j) := by
  obtain ⟨R2, h1, h2, h3, _⟩ := transitive_closure_bits W n R hW hlen fuel hf
  have hnW := le_wordsize_mul W n hW
  have hrel : ∀ i j, Relation.TransGen (relx W R n) i j ↔ Relation.TransGen (rel W R n) i j := by
    intro i j
    constructor
    · exact Relation.TransGen.mono (fun a b h => (relx_eq_rel_of_padding hW hpad a b).1 h)
    · exact Relation.TransGen.mono (fun a b h => (relx_eq_rel_of_padding hW hpad a b).2 h)
  have hiff : ∀ i j, i < n → j < WORDSIZE W n * W →
      (bitAt W (WORDSIZE W n) R2 i j = true ↔ Relation.TransGen (rel W R n) i j) := by
    intro i j hi hj
    rw [h3 i j hi hj, hrel]
  refine ⟨R2, h1, h2, hiff, ?_, ?_, ?_⟩
  · intro i j h
    exact ⟨h.1, h.2.1, (hiff i j h.1 (Nat.lt_of_lt_of_le h.2.1 hnW)).2
      (Relation.TransGen.single h)⟩
  · intro i j k hij hjk
    refine ⟨hij.1, hjk.2.1, (hiff i k hij.1 (Nat.lt_of_lt_of_le hjk.2.1 hnW)).2 ?_⟩
    exact Relation.TransGen.trans
      ((hiff i j hij.1 (Nat.lt_of_lt_of_le hij.2.1 hnW)).1 hij.2.2)
      ((hiff j k hjk.1 (Nat.lt_of_lt_of_le hjk.2.1 hnW)).1 hjk.2.2)
  · intro S hS hT i j h
    have ht := (hiff i j h.1 (Nat.lt_of_lt_of_le h.2.1 hnW)).1 h.2.2
    clear h
    induction ht with
    | single h => exact hS _ _ h
    | tail _ hbc ih => exact hT _ _ _ ih (hS _ _ hbc)

/-- Witness for C1: with 32-bit words, the 5-by-5 relation with edges (0,1), (1,2), (3,4)
is closed to exactly the edges (0,1), (0,2), (1,2), (3,4). -/
theorem transitive_closure_smallest_witness :
    transitive_closure 32 6 [2, 4, 0, 16, 0] 5 = some [6, 4, 0, 16, 0] ∧
    ∃ R2, transitive_closure 32 6 [2, 4, 0, 16, 0] 5 = some R2 ∧
      R2.length = [2, 4, 0, 16, 0].length ∧
      (∀ i j, i < 5 → j < WORDSIZE 32 5 * 32 →
        (bitAt 32 (WORDSIZE 32 5) R2 i j = true ↔
          Relation.TransGen (rel 32 [2, 4, 0, 16, 0] 5) i j)) ∧
      (∀ i j, rel 32 [2, 4, 0, 16, 0] 5 i j → rel 32 R2 5 i j) ∧
      (∀ i j k, rel 32 R2 5 i j → rel 32 R2 5 j k → rel 32 R2 5 i k) ∧
      (∀ S : Nat → Nat → Prop, (∀ i j, rel 32 [2, 4, 0, 16, 0] 5 i j → S i j) →
        (∀ i j k, S i j → S j k → S i k) → ∀ i j, rel 32 R2 5 i j → S i j) :=
  ⟨by decide, transitive_closure_smallest 32 5 [2, 4, 0, 16, 0] 6 (by decide) (by decide)
    (by unfold PaddingClear; decide) (by decide)⟩

/-- C2: for every `n` and every packed `n`-by-`n` relation `R`,
`reflexive_transitive_closure(R, n)` returns exactly what `transitive_closure(R, n)`
returns with the `n` diagonal bits additionally set and no other bit changed; the diagonal
bit of row `i` is bit `i % W` of word `i / W` of that row, whatever the size of `n`
relative to the word width `W`. -/
theorem reflexive_transitive_closure_diagonal (W n : Nat) (R : List Nat) (fuel : Nat)
    (hW : 0 < W) (hlen : R.length = n * WORDSIZE W n) (hf : n * WORDSIZE W n < fuel) :
    ∃ R1 R2, transitive_closure W fuel R n = some R1 ∧
      reflexive_transitive_closure W fuel R n = some R2 ∧ R2.length = R1.length ∧
      (∀ q b, ((rd R2 q).testBit b = true ↔
        ((rd R1 q).testBit b = true ∨
          ∃ i, i < n ∧ q = i * WORDSIZE W n + i / W ∧ b = i % W))) ∧
      (∀ i j, i < n → j < WORDSIZE W n * W →
        bitAt W (WORDSIZE W n) R2 i j = (bitAt W (WORDSIZE W n) R1 i j || decide (i = j))) := by
  obtain ⟨R1, R2, h1, h2, _, h4, h5, h6, _⟩ :=
    reflexive_transitive_closure_spec W n R fuel hW hlen hf
  exact ⟨R1, R2, h1, h2, h4, h5, h6⟩

/-- Witness for C2: with 2-bit words (so that `n = 5` exceeds the word width and a row
spans three words) the relation with edges (0,1), (1,2), (3,4); the same relation with
32-bit words evaluates to the closure plus the five diagonal bits. -/
theorem reflexive_transitive_closure_diagonal_witness :
    reflexive_transitive_closure 32 6 [2, 4, 0, 16, 0] 5 = some [7, 6, 4, 24, 16] ∧
    reflexive_transitive_closure 2 16 [2, 0, 0, 0, 1, 0, 0, 0, 0, 0, 0, 1, 0, 0, 0] 5 =
      some [3, 1, 0, 2, 1, 0, 0, 1, 0, 0, 2, 1, 0, 0, 1] ∧
    ∃ R1 R2, transitive_closure 2 16 [2, 0, 0, 0, 1, 0, 0, 0, 0, 0, 0, 1, 0, 0, 0] 5 = some R1 ∧
      reflexive_transitive_closure 2 16 [2, 0, 0, 0, 1, 0, 0, 0, 0, 0, 0, 1, 0, 0, 0] 5 =
        some R2 ∧ R2.length = R1.length ∧
      (∀ q b, ((rd R2 q).testBit b = true ↔
        ((rd R1 q).testBit b = true ∨
          ∃ i, i < 5 ∧ q = i * WORDSIZE 2 5 + i / 2 ∧ b = i % 2))) ∧
      (∀ i j, i < 5 → j < WORDSIZE 2 5 * 2 →
        bitAt 2 (WORDSIZE 2 5) R2 i j = (bitAt 2 (WORDSIZE 2 5) R1 i j || decide (i = j))) :=
  ⟨by decide, by decide,
    reflexive_transitive_closure_diagonal 2 5 [2, 0, 0, 0, 1, 0, 0, 0, 0, 0, 0, 1, 0, 0, 0] 16
      (by decide) (by decide) (by decide)⟩

/-- C3: for every `n` and every packed `n`-by-`n` relation `R` of `W`-bit words, applying
`transitive_closure` to the result of `reflexive_transitive_closure(R, n)` changes
nothing, word for word. -/
theorem transitive_closure_reflexive_idempotent (W n : Nat) (R : List Nat) (fuel : Nat)
    (hW : 0 < W) (hlen : R.length = n * WORDSIZE W n) (hword : ∀ w ∈ R, w < 2 ^ W)
    (hf : n * WORDSIZE W n < fuel) :
    ∃ R2, reflexive_transitive_closure W fuel R n = some R2 ∧
      transitive_closure W fuel R2 n = some R2 := by
  obtain ⟨R1, R2, _, h2, h3, h4, _, h6, h7, h8⟩ :=
    reflexive_transitive_closure_spec W n R fuel hW hlen hf
  have hb2 := h8 (rd_lt_of_forall W R hword)
  have hlen2 : R2.length = n * WORDSIZE W n := by rw [h4, h3, hlen]
  have hnW := le_wordsize_mul W n hW
  have hclosed : ∀ r m c, r < n → m < n → c < WORDSIZE W n * W →
      bitAt W (WORDSIZE W n) R2 r m = true → bitAt W (WORDSIZE W n) R2 m c = true →
      bitAt W (WORDSIZE W n) R2 r c = true := by
    intro r m c hr hm hc a b
    have hmc : m < WORDSIZE W n * W := by omega
    rw [h6 r m hr hmc] at a
    rw [h6 m c hm hc] at b
    rw [h6 r c hr hc]
    simp only [Bool.or_eq_true, decide_eq_true_eq] at a b ⊢
    rcases a with a | a
    · rcases b with b | b
      · left
        exact (h7 r c hr hc).2
          (Relation.TransGen.trans ((h7 r m hr hmc).1 a) ((h7 m c hm hc).1 b))
      · subst b; left; exact a
    · subst a; exact b
  obtain ⟨R3, e1, _, e3⟩ := transitive_closure_inv W hW R2 n hlen2 (fun _ X => X = R2) rfl
    (by
      intro k X Y hk _ hX hp
      subst hX
      exact pass_fixed W n k X Y hW hlen2 hb2 hclosed hk hp)
    fuel hf
  subst e3
  exact ⟨R3, h2, e1⟩

/-- Witness for C3: the 5-by-5 relation with edges (0,1), (1,2), (3,4) and 32-bit words. -/
theorem transitive_closure_reflexive_idempotent_witness :
    ∃ R2, reflexive_transitive_closure 32 6 [2, 4, 0, 16, 0] 5 = some R2 ∧
      transitive_closure 32 6 R2 5 = some R2 :=
  transitive_closure_reflexive_idempotent 32 5 [2, 4, 0, 16, 0] 6 (by decide) (by decide)
    (by decide) (by decide)

/-! ## Claims on `closure.c` -/

/-- C7: for every grammar in which `derives[B]` lists exactly the rules with left-hand
side `B`, `set_first_derives()` returns, and for every nonterminal `A` and every rule
`r < nrules` whose left-hand side `lhs(r)` is a nonterminal the bit `FirstDerives[A, r]` is
set iff `EFF[A, lhs(r)]` is set in the matrix `set_EFF()` produced; a rule number whose
entry in `rlhs` is not a nonterminal (the unused rule numbers 0 and 1 of byacc) has its bit
clear in every row.  The word width `W` and `nvars` are arbitrary, so rows of `EFF` may span
several words. -/
theorem first_derives_iff_EFF (W : Nat) (g : Grammar) (fuel : Nat) (hW : 0 < W)
    (hsym : SymbolsOK g) (hd : DerivesExact g)
    (hf : g.nvars * WORDSIZE W g.nvars < fuel) :
    ∃ EFF fd, set_EFF W fuel g = some EFF ∧ set_first_derives W fuel g = some fd ∧
      (∀ A r, g.start_symbol ≤ A → A < g.nsyms → r < g.nrules →
        g.start_symbol ≤ rlhsAt g r → rlhsAt g r < g.nsyms →
        (bitAt W (WORDSIZE W g.nrules) fd (A - g.ntokens) r = true ↔
          bitAt W (WORDSIZE W g.nvars) EFF (A - g.start_symbol)
            (rlhsAt g r - g.start_symbol) = true)) ∧
      (∀ A r, g.start_symbol ≤ A → A < g.nsyms → r < g.nrules →
        ¬ (g.start_symbol ≤ rlhsAt g r ∧ rlhsAt g r < g.nsyms) →
        bitAt W (WORDSIZE W g.nrules) fd (A - g.ntokens) r = false) := by
  obtain ⟨EFF, he, _⟩ := set_EFF_returns W hW g fuel hf
  obtain ⟨fd, hfd, _, hbits⟩ :=
    set_first_derives_spec W hW g fuel hsym (derivesInRange_of_exact hd) EFF he
  obtain ⟨hs1, hs2⟩ := hsym
  have hrW := le_wordsize_mul W g.nrules hW
  refine ⟨EFF, fd, he, hfd, ?_, ?_⟩
  · intro A r hA1 hA2 hr hl1 hl2
    rw [hs1]
    rw [hs1] at hl1
    rw [hbits (A - g.ntokens) r (by omega) (by omega)]
    constructor
    · rintro ⟨j, hj, h1, h2⟩
      have := ((hd j hj).1 r h2).2
      have e : rlhsAt g r - g.ntokens = j := by omega
      rw [e]; exact h1
    · intro h
      refine ⟨rlhsAt g r - g.ntokens, by omega, h, ?_⟩
      exact (hd (rlhsAt g r - g.ntokens) (by omega)).2 r hr (by omega)
  · intro A r hA1 hA2 hr hl
    cases hb : bitAt W (WORDSIZE W g.nrules) fd (A - g.ntokens) r with
    | false => rfl
    | true =>
      exfalso
      obtain ⟨j, hj, _, h2⟩ := (hbits (A - g.ntokens) r (by omega) (by omega)).1 hb
      have := ((hd j hj).1 r h2).2
      apply hl
      constructor <;> omega

/-- Witness for C7: tables with the rule numbers of byacc (rules 0 and 1 unused, with
`rlhs` entry 0) and 2-bit words, so that the three nonterminals need two words per row of
`EFF`. -/
theorem first_derives_iff_EFF_witness :
    set_EFF 2 9 yaccGrammar = some [3, 1, 2, 1, 0, 1] ∧
    set_first_derives 2 9 yaccGrammar = some [0, 3, 3, 0, 2, 3, 0, 0, 2] ∧
    ∃ EFF fd, set_EFF 2 9 yaccGrammar = some EFF ∧ set_first_derives 2 9 yaccGrammar = some fd ∧
      (∀ A r, yaccGrammar.start_symbol ≤ A → A < yaccGrammar.nsyms → r < yaccGrammar.nrules →
        yaccGrammar.start_symbol ≤ rlhsAt yaccGrammar r →
        rlhsAt yaccGrammar r < yaccGrammar.nsyms →
        (bitAt 2 (WORDSIZE 2 yaccGrammar.nrules) fd (A - yaccGrammar.ntokens) r = true ↔
          bitAt 2 (WORDSIZE 2 yaccGrammar.nvars) EFF (A - yaccGrammar.start_symbol)
            (rlhsAt yaccGrammar r - yaccGrammar.start_symbol) = true)) ∧
      (∀ A r, yaccGrammar.start_symbol ≤ A → A < yaccGrammar.nsyms → r < yaccGrammar.nrules →
        ¬ (yaccGrammar.start_symbol ≤ rlhsAt yaccGrammar r ∧
          rlhsAt yaccGrammar r < yaccGrammar.nsyms) →
        bitAt 2 (WORDSIZE 2 yaccGrammar.nrules) fd (A - yaccGrammar.ntokens) r = false) :=
  ⟨by decide, by decide,
    first_derives_iff_EFF 2 yaccGrammar 9 (by decide) (by unfold SymbolsOK; decide)
      (by unfold DerivesExact; decide) (by decide)⟩

/-- C4: for every strictly ascending kernel of item positions, with `rrhs` strictly
increasing in the rule number and `first_derives` as built by `set_first_derives`,
`closure(nucleus, n)` leaves in `itemset .. itemsetend` the strictly ascending (sorted and
duplicate-free) list whose members are exactly the kernel items and the items `rrhs[r]`
for which some kernel item has a nonterminal `B` after its dot with `FirstDerives[B, r]`
set. -/
theorem closure_sorted_union (W : Nat) (g : Grammar) (fuel : Nat) (fd nucleus : List Nat)
    (hW : 0 < W) (hsym : SymbolsOK g) (hd : DerivesInRange g) (hrr : RrhsIncreasing g)
    (hfd : set_first_derives W fuel g = some fd) (hk : nucleus.Pairwise (· < ·))
    (hker : KernelOK g nucleus) :
    (closure W g fd nucleus).Pairwise (· < ·) ∧
    ∀ x, x ∈ closure W g fd nucleus ↔
      (x ∈ nucleus ∨ ∃ c, c ∈ nucleus ∧ ∃ r, r < g.nrules ∧ ISVAR g (ritemAt g c) = true ∧
        bitAt W (WORDSIZE W g.nrules) fd ((ritemAt g c).toNat - g.ntokens) r = true ∧
        x = rrhsAt g r) := by
  apply closure_of_bits_in_range W hW g fd nucleus hrr hk
  intro c hc hv r hr hb
  obtain ⟨EFF, he⟩ : ∃ EFF, set_EFF W fuel g = some EFF := by
    unfold set_first_derives at hfd
    cases h : set_EFF W fuel g with
    | none => rw [h] at hfd; cases hfd
    | some EFF => exact ⟨EFF, rfl⟩
  obtain ⟨fd2, h1, _, h3⟩ := set_first_derives_spec W hW g fuel hsym hd EFF he
  rw [hfd] at h1
  cases h1
  have hsym2 := hsym
  obtain ⟨hs1, hs2⟩ := hsym2
  have hin := (hker c hc).2
  unfold ISVAR at hv
  have hv : (g.start_symbol : Int) ≤ ritemAt g c := by simpa using hv
  have ha : (ritemAt g c).toNat - g.ntokens < g.nvars := by omega
  obtain ⟨j, hj, _, h4⟩ := (h3 _ r ha hr).1 hb
  exact hd j hj r h4

/-- Witness for C4: the expression grammar with 32-bit words, the kernel `{7, 13}` (dots
before `T` in `E → T` and before `F` in `T → F`); its closure is `[7, 9, 13, 15, 19]`. -/
theorem closure_sorted_union_witness :
    closure 32 exprGrammar [1, 126, 120, 96] [7, 13] = [7, 9, 13, 15, 19] ∧
    (closure 32 exprGrammar [1, 126, 120, 96] [7, 13]).Pairwise (· < ·) ∧
    ∀ x, x ∈ closure 32 exprGrammar [1, 126, 120, 96] [7, 13] ↔
      (x ∈ [7, 13] ∨ ∃ c, c ∈ [7, 13] ∧ ∃ r, r < exprGrammar.nrules ∧
        ISVAR exprGrammar (ritemAt exprGrammar c) = true ∧
        bitAt 32 (WORDSIZE 32 exprGrammar.nrules) [1, 126, 120, 96]
          ((ritemAt exprGrammar c).toNat - exprGrammar.ntokens) r = true ∧
        x = rrhsAt exprGrammar r) :=
  ⟨by decide, closure_sorted_union 32 exprGrammar 6 [1, 126, 120, 96] [7, 13] (by decide)
    (by unfold SymbolsOK; decide) (by unfold DerivesInRange; decide)
    (by unfold RrhsIncreasing; decide) (by decide) (by decide) (by unfold KernelOK; decide)⟩

/-- C8: `getargs` calls `usage()` (exit status 1) when `argc <= 1` and when, after the
accepted leading option arguments and an optional argument starting with `--`, no argument
or two or more arguments remain; when exactly one argument remains it returns with
`input_file_name` set to that argument, the last of `argv`; and a return that leaves
`input_file` unset happens only in this way. -/
theorem getargs_file_name (argv : List CStr) (st : Globals) :
    (argv.length ≤ 1 → getargs argv st = Outcome.exit 1) ∧
    (∀ a0 pre f, OptionArgs pre → peek f ≠ '-' → argv = a0 :: (pre ++ [f]) →
      ∃ st1, getargs argv st = Outcome.returned st1 ∧ st1.input_file_name = f ∧
        st1.input_file = st.input_file ∧ argv.getLast? = some f) ∧
    (∀ a0 pre dd f, OptionArgs pre → peek dd = '-' → peek dd.tail = '-' →
      argv = a0 :: (pre ++ [dd, f]) →
      ∃ st1, getargs argv st = Outcome.returned st1 ∧ st1.input_file_name = f ∧
        st1.input_file = st.input_file ∧ argv.getLast? = some f) ∧
    (∀ a0 pre rest, OptionArgs pre → rest.length ≠ 1 → (∀ f ∈ rest.head?, peek f ≠ '-') →
      argv = a0 :: (pre ++ rest) → getargs argv st = Outcome.exit 1) ∧
    (∀ a0 pre dd rest, OptionArgs pre → peek dd = '-' → peek dd.tail = '-' →
      rest.length ≠ 1 → argv = a0 :: (pre ++ dd :: rest) → getargs argv st = Outcome.exit 1) ∧
    (NoNul argv → st.input_file = FilePtr.null →
      ∀ st1, getargs argv st = Outcome.returned st1 → st1.input_file = FilePtr.null →
      ∃ a0 pre tl f, argv = a0 :: (pre ++ tl) ∧ OptionArgs pre ∧
        ((tl = [f] ∧ peek f ≠ '-') ∨ ∃ dd, tl = [dd, f] ∧ peek dd = '-' ∧ peek dd.tail = '-') ∧
        st1.input_file_name = f ∧ argv.getLast? = some f) := by
  refine ⟨?_, ?_, ?_, ?_, ?_, ?_⟩
  · intro h
    cases argv with
    | nil => rfl
    | cons a0 args =>
      cases args with
      | nil => rfl
      | cons a1 args2 => simp at h
  · intro a0 pre f hp hf e
    subst e
    obtain ⟨st1, h1, h2⟩ := getargs_options_skip pre hp [f] { st with myname := a0 }
    refine ⟨{ st1 with input_file_name := f }, ?_, rfl, h2.1, getLast_snoc_one _ _ _⟩
    rw [getargs_cons, h1, getargs_options_file f [] st1 hf]
    rfl
  · intro a0 pre dd f hp hd1 hd2 e
    subst e
    obtain ⟨st1, h1, h2⟩ := getargs_options_skip pre hp [dd, f] { st with myname := a0 }
    refine ⟨{ st1 with input_file_name := f }, ?_, rfl, h2.1, getLast_snoc_two _ _ _ _⟩
    rw [getargs_cons, h1, getargs_options_dashdash dd [f] st1 hd1 hd2]
    rfl
  · intro a0 pre rest hp hl hf e
    subst e
    obtain ⟨st1, h1, _⟩ := getargs_options_skip pre hp rest { st with myname := a0 }
    rw [getargs_cons, h1]
    cases rest with
    | nil => rfl
    | cons f rest2 =>
      rw [getargs_options_file f rest2 st1 (hf f (by simp)),
        getargs_no_more_options_none _ _ hl]
      rfl
  · intro a0 pre dd rest hp hd1 hd2 hl e
    subst e
    obtain ⟨st1, h1, _⟩ := getargs_options_skip pre hp (dd :: rest) { st with myname := a0 }
    rw [getargs_cons, h1, getargs_options_dashdash dd rest st1 hd1 hd2,
      getargs_no_more_options_none _ _ hl]
    rfl
  · intro hn hnull st1 h hnull1
    cases argv with
    | nil => cases h
    | cons a0 args =>
      rw [getargs_cons] at h
      cases ho : getargs_options args { st with myname := a0 } with
      | none => rw [ho] at h; cases h
      | some st2 =>
        rw [ho] at h
        have hst : st2 = st1 := by simpa using h
        subst hst
        obtain ⟨pre, tl, e1, e2, e3⟩ := getargs_options_decompose args.length args _ st2
          (Nat.le_refl _) (noNul_cons hn).2 ho
        subst e1
        rcases e3 with ⟨_, b2, _⟩ | ⟨f, b1, b2, _, b4⟩ | ⟨dd, f, b1, b2, b3, _, b5⟩
        · rw [b2] at hnull1; cases hnull1
        · subst b1
          exact ⟨a0, pre, [f], f, rfl, e2, Or.inl ⟨rfl, b2⟩, b4, getLast_snoc_one _ _ _⟩
        · subst b1
          exact ⟨a0, pre, [dd, f], f, rfl, e2, Or.inr ⟨dd, rfl, b2, b3⟩, b5,
            getLast_snoc_two _ _ _ _⟩

/-- Witness for C8: `yacc -dv -b out g.y` returns with `input_file_name = "g.y"`, and
`yacc -dv g.y extra` calls `usage()`. -/
theorem getargs_file_name_witness :
    (∃ st1, getargs ["yacc".toList, "-dv".toList, "-b".toList, "out".toList, "g.y".toList]
        initialGlobals = Outcome.returned st1 ∧ st1.input_file_name = "g.y".toList ∧
      st1.input_file = initialGlobals.input_file ∧
      ["yacc".toList, "-dv".toList, "-b".toList, "out".toList, "g.y".toList].getLast? =
        some "g.y".toList) ∧
    getargs ["yacc".toList, "-dv".toList, "g.y".toList, "extra".toList] initialGlobals =
      Outcome.exit 1 :=
  ⟨(getargs_file_name _ initialGlobals).2.1 "yacc".toList
      ["-dv".toList, "-b".toList, "out".toList] "g.y".toList
      (OptionArgs.cluster 'd' ['v'] _ (by decide) (by decide)
        (OptionArgs.b_separate "out".toList [] OptionArgs.nil))
      (by decide) rfl,
    (getargs_file_name _ initialGlobals).2.2.2.1 "yacc".toList ["-dv".toList]
      ["g.y".toList, "extra".toList]
      (OptionArgs.cluster 'd' ['v'] _ (by decide) (by decide) OptionArgs.nil)
      (by decide) (by decide) rfl⟩

/-- C9: when accepted leading option arguments are followed by the one-character argument
`-`, `getargs` returns with `input_file` set to standard input and `input_file_name`
unchanged if `-` is the last argument, and calls `usage()` if any argument follows it. -/
theorem getargs_stdin (a0 : CStr) (pre post : List CStr) (st : Globals) (h : OptionArgs pre) :
    (∃ st1, getargs (a0 :: (pre ++ [['-']])) st = Outcome.returned st1 ∧
      st1.input_file = FilePtr.stdin ∧ st1.input_file_name = st.input_file_name) ∧
    (post ≠ [] → getargs (a0 :: (pre ++ ['-'] :: post)) st = Outcome.exit 1) := by
  constructor
  · obtain ⟨st1, h1, h2⟩ := getargs_options_skip pre h [['-']] { st with myname := a0 }
    refine ⟨{ st1 with input_file := FilePtr.stdin }, ?_, rfl, h2.2.1⟩
    rw [getargs_cons, h1, getargs_options_dash]
    rfl
  · intro hp
    obtain ⟨st1, h1, _⟩ := getargs_options_skip pre h (['-'] :: post) { st with myname := a0 }
    rw [getargs_cons, h1, getargs_options_dash, if_pos hp]
    rfl

/-- Witness for C9: `yacc -v -` reads standard input, `yacc -v - x` calls `usage()`. -/
theorem getargs_stdin_witness :
    (∃ st1, getargs ("yacc".toList :: (["-v".toList] ++ [['-']])) initialGlobals =
        Outcome.returned st1 ∧
      st1.input_file = FilePtr.stdin ∧ st1.input_file_name = initialGlobals.input_file_name) ∧
    (["x".toList] ≠ [] →
      getargs ("yacc".toList :: (["-v".toList] ++ ['-'] :: ["x".toList])) initialGlobals =
        Outcome.exit 1) :=
  getargs_stdin "yacc".toList ["-v".toList] ["x".toList] initialGlobals
    (OptionArgs.cluster 'v' [] [] (by decide) (by decide) OptionArgs.nil)

/-- C10: on every argument vector of C strings on which `getargs` returns normally,
starting with all flags `0`, each of `dflag`, `lflag`, `rflag`, `tflag`, `vflag` is `1` if
its letter occurs in an option-cluster argument before the end of the options and `0`
otherwise (letters in the values of `-b` and `-p` and in the file name are not cluster
letters); and a cluster letter other than `d`, `l`, `r`, `t`, `v` makes `getargs` call
`usage()`. -/
theorem getargs_flags (argv : List CStr) (st : Globals) (hn : NoNul argv)
    (h0 : st.dflag = 0 ∧ st.lflag = 0 ∧ st.rflag = 0 ∧ st.tflag = 0 ∧ st.vflag = 0) :
    (∀ st1, getargs argv st = Outcome.returned st1 →
      (st1.dflag = if 'd' ∈ clusterLetters (argv.drop 1) then 1 else 0) ∧
      (st1.lflag = if 'l' ∈ clusterLetters (argv.drop 1) then 1 else 0) ∧
      (st1.rflag = if 'r' ∈ clusterLetters (argv.drop 1) then 1 else 0) ∧
      (st1.tflag = if 't' ∈ clusterLetters (argv.drop 1) then 1 else 0) ∧
      (st1.vflag = if 'v' ∈ clusterLetters (argv.drop 1) then 1 else 0)) ∧
    ((∃ c, c ∈ clusterLetters (argv.drop 1) ∧ c ∉ flagLetters) →
      getargs argv st = Outcome.exit 1) := by
  obtain ⟨d0, l0, r0, t0, v0⟩ := h0
  have key : ∀ st1, getargs argv st = Outcome.returned st1 →
      (∀ c ∈ clusterLetters (argv.drop 1), c ∈ flagLetters) ∧
      ∀ x, x ∈ flagLetters →
        flagOf x st1 = if x ∈ clusterLetters (argv.drop 1) then 1 else flagOf x st := by
    intro st1 h
    cases argv with
    | nil => cases h
    | cons a0 args =>
      rw [getargs_cons] at h
      cases ho : getargs_options args { st with myname := a0 } with
      | none => rw [ho] at h; cases h
      | some st2 =>
        rw [ho] at h
        have hst : st2 = st1 := by simpa using h
        subst hst
        have hfl := getargs_options_flags args.length args { st with myname := a0 } st2
          (Nat.le_refl _) (noNul_cons hn).2 ho
        exact ⟨hfl.1, fun x hx => by rw [hfl.2 x hx]; rfl⟩
  constructor
  · intro st1 h
    obtain ⟨_, k⟩ := key st1 h
    have kd := k 'd' (by decide)
    have kl := k 'l' (by decide)
    have kr := k 'r' (by decide)
    have kt := k 't' (by decide)
    have kv := k 'v' (by decide)
    simp only [flagOf, d0, l0, r0, t0, v0] at kd kl kr kt kv
    exact ⟨by simpa using kd, by simpa using kl, by simpa using kr, by simpa using kt,
      by simpa using kv⟩
  · rintro ⟨c, hc1, hc2⟩
    cases hg : getargs argv st with
    | exit status =>
      cases argv with
      | nil => cases hg; rfl
      | cons a0 args =>
        rw [getargs_cons] at hg
        cases ho : getargs_options args { st with myname := a0 } with
        | none => rw [ho] at hg; cases hg; rfl
        | some st2 => rw [ho] at hg; cases hg
    | returned st1 => exact absurd ((key st1 hg).1 c hc1) hc2

/-- Witness for C10: `yacc -dv -bdl -p t r.y` sets `dflag` and `vflag` only. -/
theorem getargs_flags_witness :
    (∀ st1, getargs ["yacc".toList, "-dv".toList, "-bdl".toList, "-p".toList, "t".toList,
        "r.y".toList] initialGlobals = Outcome.returned st1 →
      (st1.dflag = 1 ∧ st1.lflag = 0 ∧ st1.rflag = 0 ∧ st1.tflag = 0 ∧ st1.vflag = 1)) ∧
    getargs ["yacc".toList, "-dv".toList, "-bdl".toList, "-p".toList, "t".toList,
      "r.y".toList] initialGlobals =
      Outcome.returned { initialGlobals with
        dflag := 1, vflag := 1, file_prefix := "dl".toList, symbol_prefix := some "t".toList,
        input_file_name := "r.y".toList, myname := "yacc".toList } :=
  ⟨fun st1 h =>
    (getargs_flags ["yacc".toList, "-dv".toList, "-bdl".toList, "-p".toList, "t".toList,
      "r.y".toList] initialGlobals (by unfold NoNul; decide) (by decide)).1 st1 h,
    by decide⟩

/-! ## Further claims on `closure.c` -/

/-- C11: for every kernel in which the entry of `ritem` after the dot of every item is a
terminal or a negative end-of-rule sentinel, and for every content of `first_derives`,
`closure(nucleus, n)` writes exactly the kernel, the same items in the same order; the
empty kernel gives the empty item set. -/
theorem closure_of_complete_kernel (W : Nat) (g : Grammar) (fd nucleus : List Nat)
    (h : ∀ c ∈ nucleus, ritemAt g c < (g.start_symbol : Int)) :
    closure W g fd nucleus = nucleus ∧ closure W g fd [] = [] := by
  have hrs : ∀ (K ruleset : List Nat), (∀ c ∈ K, ritemAt g c < (g.start_symbol : Int)) →
      closure_ruleset W g fd (WORDSIZE W g.nrules) K ruleset = ruleset := by
    intro K
    induction K with
    | nil => intro ruleset _; rfl
    | cons c csp ih =>
      intro ruleset hK
      have hc : ISVAR g (ritemAt g c) = false := by
        have := hK c (List.mem_cons_self _ _)
        unfold ISVAR
        simp only [decide_eq_false_iff_not]
        omega
      simp only [closure_ruleset, hc]
      exact ih ruleset (fun x hx => hK x (List.mem_cons_of_mem _ hx))
  have hwords : ∀ (m ruleno : Nat) (st : List Nat × List Nat),
      closure_words W g (List.replicate m 0) ruleno st = st := by
    intro m
    induction m with
    | zero => intro ruleno st; rfl
    | succ m ih =>
      intro ruleno st
      rw [List.replicate_succ]
      simp only [closure_words, ne_eq, not_true_eq_false, if_false]
      exact ih _ _
  constructor
  · unfold closure
    simp only [hrs nucleus _ h, hwords, List.nil_append]
  · unfold closure
    simp only [closure_ruleset, hwords, List.nil_append]

/-- Witness for C11: in the expression grammar the items 2 (end of `$accept → E $end`), 4
(dot before `+`) and 1 (dot before `$end`), in this unsorted order and with a
`first_derives` filled with all-ones words. -/
theorem closure_of_complete_kernel_witness :
    closure 32 exprGrammar [4294967295, 4294967295, 4294967295, 4294967295] [2, 4, 1] =
      [2, 4, 1] ∧
    closure 32 exprGrammar [4294967295, 4294967295, 4294967295, 4294967295] [] = [] :=
  closure_of_complete_kernel 32 exprGrammar [4294967295, 4294967295, 4294967295, 4294967295]
    [2, 4, 1] (by decide)

/-- C12: without a sorted kernel the output of `closure` need not be the sorted,
duplicate-free union: for the expression grammar, with `first_derives` as built by
`set_first_derives`, and the unsorted kernel `[13, 9]` the output `[9, 13, 9, 15, 19]` is
out of ascending order and holds the item 9 twice. -/
theorem closure_unsorted_kernel :
    ∃ (g : Grammar) (fd nucleus : List Nat),
      set_first_derives 32 6 g = some fd ∧
      ¬ nucleus.Pairwise (fun a b => a < b) ∧
      closure 32 g fd nucleus = [9, 13, 9, 15, 19] ∧
      ¬ (closure 32 g fd nucleus).Pairwise (fun a b => a < b) ∧
      ¬ (closure 32 g fd nucleus).Nodup := by
  refine ⟨exprGrammar, [1, 126, 120, 96], [13, 9], ?_, ?_, ?_, ?_, ?_⟩
  · decide
  · decide
  · decide
  · have h : closure 32 exprGrammar [1, 126, 120, 96] [13, 9] = [9, 13, 9, 15, 19] := by decide
    rw [h]; decide
  · have h : closure 32 exprGrammar [1, 126, 120, 96] [13, 9] = [9, 13, 9, 15, 19] := by decide
    rw [h]; decide

/-- C17: for every kernel, sorted or not and with or without repeated items, the set of item
positions that `closure` writes is the set of the kernel items together with the items
`rrhs[r]` of the rules `r` whose bit is set in the OR of the `first_derives` rows of the
nonterminals after a dot of the kernel: nothing is lost and nothing else is added. -/
theorem closure_item_set (W : Nat) (hW : 0 < W) (g : Grammar) (fd nucleus : List Nat)
    (x : Nat) :
    x ∈ closure W g fd nucleus ↔
      (x ∈ nucleus ∨ ∃ r, r < WORDSIZE W g.nrules * W ∧
        (∃ c, c ∈ nucleus ∧ ISVAR g (ritemAt g c) = true ∧
          bitAt W (WORDSIZE W g.nrules) fd ((ritemAt g c).toNat - g.ntokens) r = true) ∧
        x = rrhsAt g r) := by
  rw [closure_unfold W hW, closure_emit_fold_mem]
  simp only [List.append_nil, List.nil_append, List.mem_map, mem_setBits_ruleset W hW]
  constructor
  · rintro (h | ⟨r, ⟨hr, hc⟩, rfl⟩)
    · exact Or.inl h
    · exact Or.inr ⟨r, hr, hc, rfl⟩
  · rintro (h | ⟨r, hr, hc, rfl⟩)
    · exact Or.inl h
    · exact Or.inr ⟨r, ⟨hr, hc⟩, rfl⟩

/-- Witness for C17: the unsorted kernel `[13, 9, 13]` of the expression grammar, with a
repeated item; the item 15 of rule 5 is written. -/
theorem closure_item_set_witness :
    15 ∈ closure 32 exprGrammar [1, 126, 120, 96] [13, 9, 13] ↔
      (15 ∈ [13, 9, 13] ∨ ∃ r, r < WORDSIZE 32 exprGrammar.nrules * 32 ∧
        (∃ c, c ∈ [13, 9, 13] ∧ ISVAR exprGrammar (ritemAt exprGrammar c) = true ∧
          bitAt 32 (WORDSIZE 32 exprGrammar.nrules) [1, 126, 120, 96]
            ((ritemAt exprGrammar c).toNat - exprGrammar.ntokens) r = true) ∧
        15 = rrhsAt exprGrammar r) :=
  closure_item_set 32 (by decide) exprGrammar [1, 126, 120, 96] [13, 9, 13] 15

/-- C19: provided every rule number in the `derives` lists is below `nrules`, every row of
the matrix built by `set_first_derives` has all bits at the columns `>= nrules` clear, and
therefore in `closure`, for every kernel, every index `ruleno + i` at which `rrhs` is read is
below `nrules`; the items that `closure` emits are the values of `rrhs` at these indices. -/
theorem closure_reads_in_range (W : Nat) (g : Grammar) (fuel : Nat) (fd nucleus : List Nat)
    (hW : 0 < W) (hsym : SymbolsOK g) (hd : DerivesInRange g)
    (hfd : set_first_derives W fuel g = some fd) (hker : KernelOK g nucleus) :
    (∀ a c, a < g.nvars → g.nrules ≤ c → c < WORDSIZE W g.nrules * W →
      bitAt W (WORDSIZE W g.nrules) fd a c = false) ∧
    (∀ idx ∈ closure_reads W g fd nucleus, idx < g.nrules) ∧
    closure W g fd nucleus =
      (((closure_reads W g fd nucleus).map (rrhsAt g)).foldl
        (fun st d => closure_emit d st) (nucleus, [])).2 ++
      (((closure_reads W g fd nucleus).map (rrhsAt g)).foldl
        (fun st d => closure_emit d st) (nucleus, [])).1 := by
  obtain ⟨EFF, _, _, h3⟩ := set_first_derives_inv W hW g fuel hsym hd fd hfd
  have hrow : ∀ a c, a < g.nvars → c < WORDSIZE W g.nrules * W →
      bitAt W (WORDSIZE W g.nrules) fd a c = true → c < g.nrules := by
    intro a c ha hc hb
    obtain ⟨j, hj, _, h4⟩ := (h3 a c ha hc).1 hb
    exact hd j hj c h4
  refine ⟨?_, ?_, ?_⟩
  · intro a c ha hge hc
    cases hb : bitAt W (WORDSIZE W g.nrules) fd a c with
    | false => rfl
    | true => have := hrow a c ha hc hb; omega
  · intro idx hidx
    rw [closure_reads_eq W hW, mem_setBits_ruleset W hW] at hidx
    obtain ⟨hlt, c, hc, hv, hb⟩ := hidx
    exact hrow _ idx (kernel_row_lt g hsym c (hker c hc).2 hv) hlt hb
  · rw [closure_reads_eq W hW]
    exact closure_unfold W hW g fd nucleus

/-- Witness for C19: the expression grammar with 32-bit words and the kernel `[0]` of the
initial state; `rrhs` is read at the rules 1 to 6. -/
theorem closure_reads_in_range_witness :
    closure_reads 32 exprGrammar [1, 126, 120, 96] [0] = [1, 2, 3, 4, 5, 6] ∧
    ((∀ a c, a < exprGrammar.nvars → exprGrammar.nrules ≤ c →
        c < WORDSIZE 32 exprGrammar.nrules * 32 →
        bitAt 32 (WORDSIZE 32 exprGrammar.nrules) [1, 126, 120, 96] a c = false) ∧
      (∀ idx ∈ closure_reads 32 exprGrammar [1, 126, 120, 96] [0], idx < exprGrammar.nrules) ∧
      closure 32 exprGrammar [1, 126, 120, 96] [0] =
        (((closure_reads 32 exprGrammar [1, 126, 120, 96] [0]).map (rrhsAt exprGrammar)).foldl
          (fun st d => closure_emit d st) ([0], [])).2 ++
        (((closure_reads 32 exprGrammar [1, 126, 120, 96] [0]).map (rrhsAt exprGrammar)).foldl
          (fun st d => closure_emit d st) ([0], [])).1) :=
  ⟨by decide, closure_reads_in_range 32 exprGrammar 6 [1, 126, 120, 96] [0] (by decide)
    (by unfold SymbolsOK; decide) (by unfold DerivesInRange; decide) (by decide)
    (by unfold KernelOK; decide)⟩

/-! ## Claims on the scans of `derives` -/

/-- C18: the loop of `set_EFF` over a `derives` list ends at the first entry `<= 0` and the
loop of `set_first_derives` at the first entry `< 0`.  Hence for every grammar in which
`derives[A]` holds the rule number 0, `set_EFF` handles neither rule 0 nor any rule listed
after it in `derives[A]`, whereas `set_first_derives` sets the bit `FirstDerives[A, 0]`; and
in every grammar whose `derives` lists hold rule numbers `>= 1` only, the two loops visit the
same entries. -/
theorem derives_scans_end (W : Nat) (g : Grammar) (fuel : Nat) (fd : List Nat) (a : Nat)
    (pre : List Nat) (post : List Int) (hW : 0 < W) (hsym : SymbolsOK g)
    (hd : DerivesInRange g) (hf : g.nvars * WORDSIZE W g.nvars < fuel)
    (hfd : set_first_derives W fuel g = some fd) (ha : a < g.nvars)
    (hder : g.derives (g.start_symbol + a) = pre.map Int.ofNat ++ 0 :: post)
    (hpre : ∀ r ∈ pre, 0 < r) :
    (∀ (l : List Int) (row : Nat) (EFF : List Nat),
      set_EFF_scan W g row l EFF =
        (scannedRules l).foldl
          (fun E r =>
            if ISVAR g (ritemAt g (rrhsAt g r)) then
              SETBIT W E row (ritemAt g (rrhsAt g r) - g.start_symbol).toNat
            else E) EFF) ∧
    (∀ (l : List Int) (rrow : Nat) (fd0 : List Nat),
      set_first_derives_scan W rrow l fd0 =
        (rulesOf l).foldl (fun fd1 r => SETBIT W fd1 rrow r) fd0) ∧
    scannedRules (g.derives (g.start_symbol + a)) = pre ∧
    rulesOf (g.derives (g.start_symbol + a)) = pre ++ 0 :: rulesOf post ∧
    (∀ (row : Nat) (EFF : List Nat),
      set_EFF_scan W g row (g.derives (g.start_symbol + a)) EFF =
        set_EFF_scan W g row (pre.map Int.ofNat) EFF) ∧
    (∀ (rrow : Nat) (fd0 : List Nat),
      set_first_derives_scan W rrow (g.derives (g.start_symbol + a)) fd0 =
        set_first_derives_scan W rrow post
          (SETBIT W (set_first_derives_scan W rrow (pre.map Int.ofNat) fd0) rrow 0)) ∧
    bitAt W (WORDSIZE W g.nrules) fd a 0 = true ∧
    (NoRuleZero g → ∀ j, j < g.nvars →
      scannedRules (g.derives (g.start_symbol + j)) =
        rulesOf (g.derives (g.start_symbol + j))) := by
  have hs := scannedRules_append_zero post pre hpre
  have hr := rulesOf_append_zero post pre
  have hmapS : ∀ l : List Nat, (∀ r ∈ l, 0 < r) → scannedRules (l.map Int.ofNat) = l := by
    intro l
    induction l with
    | nil => intro _; rfl
    | cons r l ih =>
      intro h
      have hr2 : (Int.ofNat r) > 0 := by simpa using h r (List.mem_cons_self _ _)
      simp only [List.map_cons, scannedRules, hr2, if_true]
      rw [ih (fun x hx => h x (List.mem_cons_of_mem _ hx))]
      simp
  have hmapR : ∀ l : List Nat, rulesOf (l.map Int.ofNat) = l := by
    intro l
    induction l with
    | nil => rfl
    | cons r l ih =>
      have hr2 : (Int.ofNat r) ≥ 0 := Int.ofNat_nonneg r
      simp only [List.map_cons, rulesOf, hr2, if_true]
      rw [ih]
      simp
  refine ⟨fun l row EFF => set_EFF_scan_fold W g row l EFF,
    fun l rrow fd0 => set_first_derives_scan_fold W rrow l fd0, ?_, ?_, ?_, ?_, ?_, ?_⟩
  · rw [hder, hs]
  · rw [hder, hr]
  · intro row EFF
    rw [set_EFF_scan_fold, set_EFF_scan_fold, hder, hs, hmapS pre hpre]
  · intro rrow fd0
    rw [set_first_derives_scan_fold, set_first_derives_scan_fold, set_first_derives_scan_fold,
      hder, hr, hmapR, List.foldl_append, List.foldl_cons]
  · obtain ⟨EFF, he, _, h3⟩ := set_first_derives_inv W hW g fuel hsym hd fd hfd
    have h0 : 0 ∈ rulesOf (g.derives (g.start_symbol + a)) := by rw [hder, hr]; simp
    have hn : 0 < g.nrules := hd a ha 0 h0
    have hlt : 0 < WORDSIZE W g.nrules * W :=
      Nat.lt_of_lt_of_le hn (le_wordsize_mul W g.nrules hW)
    exact (h3 a 0 ha hlt).2 ⟨a, ha, set_EFF_diag W hW g fuel hf EFF he a ha, h0⟩
  · intro hz j hj
    exact scannedRules_eq_rulesOf _ (hz j hj)

/-- Witness for C18: the grammar `$accept → S $end`, `S → x` with the augmented rule at
index 0 and `A = $accept`, whose list `derives[A]` is `0, -1`. -/
theorem derives_scans_end_witness :
    scannedRules (augGrammar.derives (augGrammar.start_symbol + 0)) = [] ∧
    rulesOf (augGrammar.derives (augGrammar.start_symbol + 0)) = [0] ∧
    bitAt 32 (WORDSIZE 32 augGrammar.nrules) [1, 2] 0 0 = true :=
  have h := derives_scans_end 32 augGrammar 3 [1, 2] 0 [] [-1] (by decide)
    (by unfold SymbolsOK; decide) (by unfold DerivesInRange; decide) (by decide) (by decide)
    (by decide) (by decide) (by decide)
  ⟨h.2.2.1, h.2.2.2.1.trans (by decide), h.2.2.2.2.2.2.1⟩

/-- C16: `closure` is idempotent on sorted kernels: for every grammar whose
`first_derives` was built by `set_first_derives`, with `rrhs` strictly increasing over the
rule numbers from 1 on and with no rule 0 in the `derives` list of a nonterminal that occurs
in `ritem` (so in every grammar without rule 0 in its `derives` lists), and for every
strictly ascending kernel, `closure` applied to the item list that `closure` wrote for the
kernel writes the same item list again. -/
theorem closure_idempotent (W : Nat) (g : Grammar) (fuel : Nat)
    (fd nucleus : List Nat) (hW : 0 < W) (hsym : SymbolsOK g) (hd : DerivesInRange g)
    (hrr : RrhsIncreasingFromOne g) (hit : ItemsOK g) (hz : RuleZeroUnused g)
    (hf : g.nvars * WORDSIZE W g.nvars < fuel)
    (hfd : set_first_derives W fuel g = some fd) (hk : nucleus.Pairwise (· < ·))
    (hker : KernelOK g nucleus) :
    closure W g fd (closure W g fd nucleus) = closure W g fd nucleus := by
  have hnW := le_wordsize_mul W g.nrules hW
  obtain ⟨hs1, hm1⟩ := closure_of_bits_from_one W hW g fd nucleus hrr hk
    (fun c hc hv r hr hb => first_derives_row_pos W hW g fuel fd hsym hd hit hz hf hfd c
      (hker c hc).1 (hker c hc).2 hv r hr hb)
  have hker2 : KernelOK g (closure W g fd nucleus) := by
    intro x hx
    rcases (hm1 x).1 hx with h | ⟨c, _, r, hr, _, _, rfl⟩
    · exact hker x h
    · exact hit r hr
  obtain ⟨hs2, hm2⟩ := closure_of_bits_from_one W hW g fd (closure W g fd nucleus) hrr hs1
    (fun c hc hv r hr hb => first_derives_row_pos W hW g fuel fd hsym hd hit hz hf hfd c
      (hker2 c hc).1 (hker2 c hc).2 hv r hr hb)
  apply sorted_ext _ _ hs2 hs1
  intro x
  rw [hm2]
  constructor
  · rintro (h | ⟨c2, hc2, r2, hr2, hv2, hb2, rfl⟩)
    · exact h
    · rcases (hm1 c2).1 hc2 with h | ⟨c, hc, r, hr, hv, hb, rfl⟩
      · exact (hm1 _).2 (Or.inr ⟨c2, h, r2, hr2, hv2, hb2, rfl⟩)
      · have hb3 := first_derives_row_closed W hW g fuel fd hsym hd hit hz hf hfd c
          (hker c hc).1 (hker c hc).2 hv r (Nat.lt_of_lt_of_le hr hnW) hb hv2 r2
          (Nat.lt_of_lt_of_le hr2 hnW) hb2
        exact (hm1 _).2 (Or.inr ⟨c, hc, r2, hr2, hv, hb3, rfl⟩)
  · intro h
    exact Or.inl h

/-- Witness for C16: tables with the rule numbers of byacc and the kernel `[1]` of the
initial state (dot before `E` in `$accept → E $end`), whose item set is `[1, 4, 8, 10]`; and
the expression grammar in the numbering of the specification, where rule 0 is the rule of
`$accept` and `$accept` occurs on no right-hand side, with the kernel `[0]`. -/
theorem closure_idempotent_witness :
    closure 32 yaccGrammar [60, 56, 32] [1] = [1, 4, 8, 10] ∧
    closure 32 yaccGrammar [60, 56, 32] (closure 32 yaccGrammar [60, 56, 32] [1]) =
      closure 32 yaccGrammar [60, 56, 32] [1] ∧
    closure 32 exprGrammar [1, 126, 120, 96] (closure 32 exprGrammar [1, 126, 120, 96] [0]) =
      closure 32 exprGrammar [1, 126, 120, 96] [0] :=
  ⟨by decide,
    closure_idempotent 32 yaccGrammar 4 [60, 56, 32] [1] (by decide)
      (by unfold SymbolsOK; decide) (by unfold DerivesInRange; decide)
      (by unfold RrhsIncreasingFromOne; decide) (by unfold ItemsOK; decide)
      (by unfold RuleZeroUnused; decide) (by decide) (by decide) (by decide)
      (by unfold KernelOK; decide),
    closure_idempotent 32 exprGrammar 6 [1, 126, 120, 96] [0] (by decide)
      (by unfold SymbolsOK; decide) (by unfold DerivesInRange; decide)
      (by unfold RrhsIncreasingFromOne; decide) (by unfold ItemsOK; decide)
      (by unfold RuleZeroUnused; decide) (by decide) (by decide) (by decide)
      (by unfold KernelOK; decide)⟩

/-- Where rule 0 is used: in the grammar 0: `A → B c`, 1: `S → A`, 2: `B → d`, whose rule 0
has a left-hand side that occurs on a right-hand side, the loop of `set_EFF` does not visit
rule 0, the row of `A` in `first_derives` lacks rule 2, and `closure` of the item set
`[0, 3]` that `closure` wrote for the kernel `[3]` writes `[0, 3, 5]`; the condition on
rule 0 cannot be dropped. -/
theorem closure_twice_rule_zero :
    SymbolsOK ruleZeroGrammar ∧ DerivesExact ruleZeroGrammar ∧
    RrhsIncreasing ruleZeroGrammar ∧ KernelOK ruleZeroGrammar [3] ∧
    [3].Pairwise (fun a b : Nat => a < b) ∧
    set_first_derives 32 4 ruleZeroGrammar = some [3, 1, 4] ∧
    closure 32 ruleZeroGrammar [3, 1, 4] [3] = [0, 3] ∧
    closure 32 ruleZeroGrammar [3, 1, 4] (closure 32 ruleZeroGrammar [3, 1, 4] [3]) =
      [0, 3, 5] ∧
    closure 32 ruleZeroGrammar [3, 1, 4] (closure 32 ruleZeroGrammar [3, 1, 4] [3]) ≠
      closure 32 ruleZeroGrammar [3, 1, 4] [3] := by
  refine ⟨by unfold SymbolsOK; decide, by unfold DerivesExact; decide,
    by unfold RrhsIncreasing; decide, by unfold KernelOK; decide, by decide, by decide,
    by decide, by decide, by decide⟩

/-! ## Refinement of Warshall's algorithm by `transitive_closure` -/

/-- C13: for every word size `W >= 1` and every `n`-by-`n` relation, packing the relation
least significant bit first into rows of `WORDSIZE(n)` words, running the word-level
`transitive_closure` and unpacking gives the Boolean matrix that Warshall's algorithm (pivot
loop outermost, row loop inside, the whole pivot row ORed into each row whose pivot-column
entry is set) computes on the unpacked matrix; hence the result is the same for every word
size. -/
theorem transitive_closure_refines_warshall (W W2 n : Nat) (M : Nat → Nat → Bool)
    (fuel fuel2 : Nat) (hW : 0 < W) (hW2 : 0 < W2) (hf : n * WORDSIZE W n < fuel)
    (hf2 : n * WORDSIZE W2 n < fuel2) :
    (∀ i j, i < n → j < n → spec_unpack W n (spec_pack W n M) i j = M i j) ∧
    ∃ R1 R2, transitive_closure W fuel (spec_pack W n M) n = some R1 ∧
      transitive_closure W2 fuel2 (spec_pack W2 n M) n = some R2 ∧
      (∀ i j, i < n → j < n → spec_unpack W n R1 i j = spec_warshall n M i j) ∧
      spec_unpack W n R1 = spec_unpack W2 n R2 := by
  obtain ⟨R1, h1, _, h3⟩ := transitive_closure_spec_pack W n M fuel hW hf
  obtain ⟨R2, k1, _, k3⟩ := transitive_closure_spec_pack W2 n M fuel2 hW2 hf2
  refine ⟨?_, R1, R2, h1, k1, ?_, ?_⟩
  · intro i j hi hj
    unfold spec_unpack
    rw [bitAt_spec_pack W n hW M i j hi (Nat.lt_of_lt_of_le hj (le_wordsize_mul W n hW))]
    simp [hi, hj]
  · intro i j hi hj
    unfold spec_unpack
    rw [h3 i j hi hj]
    simp [hi, hj]
  · funext i j
    unfold spec_unpack
    by_cases h : i < n ∧ j < n
    · rw [h3 i j h.1 h.2, k3 i j h.1 h.2]
    · simp [h]

/-- Witness for C13: the relation `0 → 1 → 2` on three elements, with words of 32 bits and
of 2 bits; with 2-bit words a row takes two words. -/
theorem transitive_closure_refines_warshall_witness :
    spec_pack 32 3 (fun i j => decide (i + 1 = j)) = [2, 4, 0] ∧
    spec_pack 2 3 (fun i j => decide (i + 1 = j)) = [2, 0, 0, 1, 0, 0] ∧
    transitive_closure 32 4 [2, 4, 0] 3 = some [6, 4, 0] ∧
    transitive_closure 2 7 [2, 0, 0, 1, 0, 0] 3 = some [2, 1, 0, 1, 0, 0] ∧
    ((∀ i j, i < 3 → j < 3 →
        spec_unpack 32 3 (spec_pack 32 3 (fun i j => decide (i + 1 = j))) i j =
          (fun i j => decide (i + 1 = j)) i j) ∧
      ∃ R1 R2, transitive_closure 32 4 (spec_pack 32 3 (fun i j => decide (i + 1 = j))) 3 =
          some R1 ∧
        transitive_closure 2 7 (spec_pack 2 3 (fun i j => decide (i + 1 = j))) 3 = some R2 ∧
        (∀ i j, i < 3 → j < 3 →
          spec_unpack 32 3 R1 i j = spec_warshall 3 (fun i j => decide (i + 1 = j)) i j) ∧
        spec_unpack 32 3 R1 = spec_unpack 2 3 R2) :=
  ⟨by decide, by decide, by decide, by decide,
    transitive_closure_refines_warshall 32 2 3 (fun i j => decide (i + 1 = j)) 4 7
      (by decide) (by decide) (by decide) (by decide)⟩

/-! ## Claims on the options `-b` and `-p` of `getargs` -/

/-- C14, where the claim fails: `yacc -bfoo -bbar g.y` has the shape
`pre ++ ["-b" ++ s] ++ post` with `pre` empty, `s = "foo"` and `post = ["-bbar", "g.y"]`;
`getargs` returns, in this form and in the form with the separate value, and leaves
`file_prefix = "bar"`, the value of the later option, not `s`. -/
theorem getargs_later_b_replaces :
    OptionArgs [] ∧ peek "foo".toList ≠ Char.ofNat 0 ∧
    (∃ st2, getargs ["yacc".toList, "-bfoo".toList, "-bbar".toList, "g.y".toList]
        initialGlobals = Outcome.returned st2 ∧
       st2.file_prefix = "bar".toList ∧ st2.file_prefix ≠ "foo".toList) ∧
    (∃ st2, getargs ["yacc".toList, "-b".toList, "foo".toList, "-bbar".toList, "g.y".toList]
        initialGlobals = Outcome.returned st2 ∧
       st2.file_prefix = "bar".toList ∧ st2.file_prefix ≠ "foo".toList) := by
  refine ⟨OptionArgs.nil, by decide, ⟨_, rfl, by decide, by decide⟩,
    ⟨_, rfl, by decide, by decide⟩⟩

/-- C14, amended: for every non-empty string `s` and all argument lists `pre` and `post`
such that every argument of `pre` is consumed as an option, `getargs` on
`pre ++ ["-b" ++ s] ++ post` and on `pre ++ ["-b", s] ++ post` gives the same outcome, the
same call of `usage()` or the same globals on a normal return; the returned `file_prefix` is
`s` unless `post` holds a further `-b` option among its option arguments, and then it is the
value of the last such option.  The same holds for `-p` with `symbol_prefix`.  A `-b` or
`-p` that is the last argument and has no attached value makes `getargs` call `usage()`. -/
theorem getargs_attached_separate (a0 : CStr) (pre post : List CStr) (s : CStr)
    (st : Globals) (hpre : OptionArgs pre) (hs : peek s ≠ Char.ofNat 0) :
    getargs (a0 :: (pre ++ ('-' :: 'b' :: s) :: post)) st =
      getargs (a0 :: (pre ++ ['-', 'b'] :: s :: post)) st ∧
    (NoNul post → ∀ st2,
      getargs (a0 :: (pre ++ ('-' :: 'b' :: s) :: post)) st = Outcome.returned st2 →
       st2.file_prefix = (lastOptionB post).getD s) ∧
    getargs (a0 :: (pre ++ ('-' :: 'p' :: s) :: post)) st =
      getargs (a0 :: (pre ++ ['-', 'p'] :: s :: post)) st ∧
    (NoNul post → ∀ st2,
      getargs (a0 :: (pre ++ ('-' :: 'p' :: s) :: post)) st = Outcome.returned st2 →
       st2.symbol_prefix = some ((lastOptionP post).getD s)) ∧
    getargs (a0 :: (pre ++ [['-', 'b']])) st = Outcome.exit 1 ∧
    getargs (a0 :: (pre ++ [['-', 'p']])) st = Outcome.exit 1 := by
  obtain ⟨st1, _, hskip⟩ := getargs_options_skip_all pre hpre { st with myname := a0 }
  have hret : ∀ (args : List CStr) (st2 : Globals),
      getargs (a0 :: args) st = Outcome.returned st2 →
      getargs_options args { st with myname := a0 } = some st2 := by
    intro args st2 h
    rw [getargs_cons] at h
    cases hg : getargs_options args { st with myname := a0 } with
    | none => rw [hg] at h; cases h
    | some st3 =>
      rw [hg] at h
      have hst : st3 = st2 := by simpa using h
      rw [hst]
  refine ⟨?_, ?_, ?_, ?_, ?_, ?_⟩
  · rw [getargs_cons, getargs_cons, hskip, hskip, getargs_options_b_attached s post st1 hs,
      getargs_options_b_separate]
  · intro hn st2 h
    have h2 := hret _ st2 h
    rw [hskip, getargs_options_b_attached s post st1 hs] at h2
    exact (getargs_options_last post.length post _ st2 (Nat.le_refl _) hn h2).1
  · rw [getargs_cons, getargs_cons, hskip, hskip, getargs_options_p_attached s post st1 hs,
      getargs_options_p_separate]
  · intro hn st2 h
    have h2 := hret _ st2 h
    rw [hskip, getargs_options_p_attached s post st1 hs] at h2
    have h3 := (getargs_options_last post.length post _ st2 (Nat.le_refl _) hn h2).2
    rw [h3]
    cases lastOptionP post <;> rfl
  · rw [getargs_cons, hskip, getargs_options_b_last]
    rfl
  · rw [getargs_cons, hskip, getargs_options_p_last]
    rfl

/-- Witness for C14: `yacc -d -bout g.y` and `yacc -d -b out g.y` give the same outcome with
`file_prefix = "out"`; `yacc -bfoo -- -bar` and `yacc -bfoo -p -bz g.y` leave
`file_prefix = "foo"`, their later arguments `-bar` and `-bz` being a file name and the
value of `-p`; `yacc -bfoo -bbar g.y` leaves `file_prefix = "bar"`; `yacc -d -b` calls
`usage()`. -/
theorem getargs_attached_separate_witness :
    getargs ["yacc".toList, "-d".toList, "-bout".toList, "g.y".toList] initialGlobals =
      getargs ["yacc".toList, "-d".toList, "-b".toList, "out".toList, "g.y".toList]
        initialGlobals ∧
    (∀ st2, getargs ["yacc".toList, "-d".toList, "-bout".toList, "g.y".toList]
        initialGlobals = Outcome.returned st2 → st2.file_prefix = "out".toList) ∧
    (∀ st2, getargs ["yacc".toList, "-bfoo".toList, "--".toList, "-bar".toList]
        initialGlobals = Outcome.returned st2 → st2.file_prefix = "foo".toList) ∧
    (∀ st2, getargs ["yacc".toList, "-bfoo".toList, "-p".toList, "-bz".toList, "g.y".toList]
        initialGlobals = Outcome.returned st2 → st2.file_prefix = "foo".toList) ∧
    (∀ st2, getargs ["yacc".toList, "-bfoo".toList, "-bbar".toList, "g.y".toList]
        initialGlobals = Outcome.returned st2 → st2.file_prefix = "bar".toList) ∧
    getargs ["yacc".toList, "-d".toList, "-b".toList] initialGlobals = Outcome.exit 1 :=
  have h := getargs_attached_separate "yacc".toList ["-d".toList] ["g.y".toList] "out".toList
    initialGlobals (OptionArgs.cluster 'd' [] _ (by decide) (by decide) OptionArgs.nil)
    (by decide)
  ⟨h.1, fun st2 h2 => (h.2.1 (by unfold NoNul; decide) st2 h2).trans (by decide),
    fun st2 h2 => ((getargs_attached_separate "yacc".toList [] ["--".toList, "-bar".toList]
      "foo".toList initialGlobals OptionArgs.nil (by decide)).2.1
        (by unfold NoNul; decide) st2 h2).trans (by decide),
    fun st2 h2 => ((getargs_attached_separate "yacc".toList []
      ["-p".toList, "-bz".toList, "g.y".toList]
      "foo".toList initialGlobals OptionArgs.nil (by decide)).2.1
        (by unfold NoNul; decide) st2 h2).trans (by decide),
    fun st2 h2 => ((getargs_attached_separate "yacc".toList [] ["-bbar".toList, "g.y".toList]
      "foo".toList initialGlobals OptionArgs.nil (by decide)).2.1
        (by unfold NoNul; decide) st2 h2).trans (by decide),
    h.2.2.2.2.1⟩

/-! ## Claims on `create_file_names` -/

/-- C15: before `mktemp` is applied, `create_file_names` has built the three templates
`d ++ sep ++ "yacc.aXXXXXX"`, `d ++ sep ++ "yacc.tXXXXXX"` and `d ++ sep ++ "yacc.uXXXXXX"`
for the action, text and union files, where `d` is the value of `TMPDIR`, or `/tmp` when it
is unset, and `sep` is `/` iff `d` is not empty and does not end in `/`; the three templates
are pairwise distinct. -/
theorem create_file_names_templates (env_TMPDIR : Option CStr) (junk : Nat → Nat → Char)
    (d : CStr) (hd : d = env_TMPDIR.getD "/tmp".toList) (hn : Char.ofNat 0 ∉ d) :
    cstring (create_file_names env_TMPDIR junk).action_file_name =
      d ++ (if d ≠ [] ∧ d.getLast? ≠ some '/' then ['/'] else []) ++ "yacc.aXXXXXX".toList ∧
    cstring (create_file_names env_TMPDIR junk).text_file_name =
      d ++ (if d ≠ [] ∧ d.getLast? ≠ some '/' then ['/'] else []) ++ "yacc.tXXXXXX".toList ∧
    cstring (create_file_names env_TMPDIR junk).union_file_name =
      d ++ (if d ≠ [] ∧ d.getLast? ≠ some '/' then ['/'] else []) ++ "yacc.uXXXXXX".toList ∧
    cstring (create_file_names env_TMPDIR junk).action_file_name ≠
      cstring (create_file_names env_TMPDIR junk).text_file_name ∧
    cstring (create_file_names env_TMPDIR junk).action_file_name ≠
      cstring (create_file_names env_TMPDIR junk).union_file_name ∧
    cstring (create_file_names env_TMPDIR junk).text_file_name ≠
      cstring (create_file_names env_TMPDIR junk).union_file_name := by
  have hkey : ∀ (k : Nat) (c : Char), c ≠ Char.ofNat 0 →
      cstring ((strcpy
        (if decide (d.length ≠ 0 ∧ d.getD (d.length - 1) (Char.ofNat 0) ≠ '/') = true
          then (strcpy (MALLOC (junk k)
            (if d.length ≠ 0 ∧ d.getD (d.length - 1) (Char.ofNat 0) ≠ '/'
              then d.length + 13 + 1 else d.length + 13)) 0 d).set d.length '/'
          else strcpy (MALLOC (junk k)
            (if d.length ≠ 0 ∧ d.getD (d.length - 1) (Char.ofNat 0) ≠ '/'
              then d.length + 13 + 1 else d.length + 13)) 0 d)
        (if decide (d.length ≠ 0 ∧ d.getD (d.length - 1) (Char.ofNat 0) ≠ '/') = true
          then d.length + 1 else d.length) temp_form).set
        ((if decide (d.length ≠ 0 ∧ d.getD (d.length - 1) (Char.ofNat 0) ≠ '/') = true
          then d.length + 1 else d.length) + 5) c) =
      d ++ (if d ≠ [] ∧ d.getLast? ≠ some '/' then ['/'] else []) ++
        ['y', 'a', 'c', 'c', '.', c, 'X', 'X', 'X', 'X', 'X', 'X'] := by
    intro k c hc
    rw [temp_name_eq d _ c (length_MALLOC _ _)]
    have e : d ++ (if d.length ≠ 0 ∧ d.getD (d.length - 1) (Char.ofNat 0) ≠ '/'
          then ['/'] else []) ++
        ['y', 'a', 'c', 'c', '.', c, 'X', 'X', 'X', 'X', 'X', 'X', Char.ofNat 0] =
        (d ++ (if d ≠ [] ∧ d.getLast? ≠ some '/' then ['/'] else []) ++
          ['y', 'a', 'c', 'c', '.', c, 'X', 'X', 'X', 'X', 'X', 'X']) ++ [Char.ofNat 0] := by
      by_cases hs : d.length ≠ 0 ∧ d.getD (d.length - 1) (Char.ofNat 0) ≠ '/'
      · rw [if_pos hs, if_pos ((slash_test_iff d).1 hs)]; simp
      · rw [if_neg hs, if_neg (fun h => hs ((slash_test_iff d).2 h))]; simp
    rw [e, cstring_append_nul]
    intro hmem
    rw [List.mem_append, List.mem_append] at hmem
    rcases hmem with (h | h) | h
    · exact hn h
    · split_ifs at h
      · have h1 : Char.ofNat 0 ≠ '/' := by decide
        rw [List.mem_singleton] at h
        exact h1 h
      · simp at h
    · have h0 : Char.ofNat 0 ≠ 'y' ∧ Char.ofNat 0 ≠ 'a' ∧ Char.ofNat 0 ≠ 'c' ∧
          Char.ofNat 0 ≠ '.' ∧ Char.ofNat 0 ≠ 'X' := by decide
      simp only [List.mem_cons, List.mem_singleton, List.not_mem_nil, or_false] at h
      rcases h with h | h | h | h | h | h | h | h | h | h | h | h
      · exact h0.1 h
      · exact h0.2.1 h
      · exact h0.2.2.1 h
      · exact h0.2.2.1 h
      · exact h0.2.2.2.1 h
      · exact hc h.symm
      · exact h0.2.2.2.2 h
      · exact h0.2.2.2.2 h
      · exact h0.2.2.2.2 h
      · exact h0.2.2.2.2 h
      · exact h0.2.2.2.2 h
      · exact h0.2.2.2.2 h
  have ha : cstring (create_file_names env_TMPDIR junk).action_file_name =
      d ++ (if d ≠ [] ∧ d.getLast? ≠ some '/' then ['/'] else []) ++ "yacc.aXXXXXX".toList := by
    have h1 := hkey 0 'a' (by decide)
    simp only [create_file_names, ← hd]
    exact h1
  have ht : cstring (create_file_names env_TMPDIR junk).text_file_name =
      d ++ (if d ≠ [] ∧ d.getLast? ≠ some '/' then ['/'] else []) ++ "yacc.tXXXXXX".toList := by
    have h1 := hkey 1 't' (by decide)
    simp only [create_file_names, ← hd]
    exact h1
  have hu : cstring (create_file_names env_TMPDIR junk).union_file_name =
      d ++ (if d ≠ [] ∧ d.getLast? ≠ some '/' then ['/'] else []) ++ "yacc.uXXXXXX".toList := by
    have h1 := hkey 2 'u' (by decide)
    simp only [create_file_names, ← hd]
    exact h1
  refine ⟨ha, ht, hu, ?_, ?_, ?_⟩
  · rw [ha, ht]
    intro h
    exact absurd (List.append_cancel_left h) (by decide)
  · rw [ha, hu]
    intro h
    exact absurd (List.append_cancel_left h) (by decide)
  · rw [ht, hu]
    intro h
    exact absurd (List.append_cancel_left h) (by decide)

/-- Witness for C15: `TMPDIR` unset gives `/tmp/yacc.aXXXXXX`; `TMPDIR=/usr/tmp/` gives
`/usr/tmp/yacc.tXXXXXX` without a second `/`; an empty `TMPDIR` gives `yacc.uXXXXXX`. -/
theorem create_file_names_templates_witness :
    cstring (create_file_names none (fun _ _ => 'j')).action_file_name =
      "/tmp/yacc.aXXXXXX".toList ∧
    cstring (create_file_names (some "/usr/tmp/".toList) (fun _ _ => 'j')).text_file_name =
      "/usr/tmp/yacc.tXXXXXX".toList ∧
    cstring (create_file_names (some []) (fun _ _ => 'j')).union_file_name =
      "yacc.uXXXXXX".toList ∧
    cstring (create_file_names none (fun _ _ => 'j')).text_file_name ≠
      cstring (create_file_names none (fun _ _ => 'j')).union_file_name :=
  ⟨(create_file_names_templates none (fun _ _ => 'j') "/tmp".toList rfl (by decide)).1.trans
      (by decide),
    (create_file_names_templates (some "/usr/tmp/".toList) (fun _ _ => 'j')
      "/usr/tmp/".toList rfl (by decide)).2.1.trans (by decide),
    (create_file_names_templates (some []) (fun _ _ => 'j') [] rfl (by decide)).2.2.1.trans
      (by decide),
    (create_file_names_templates none (fun _ _ => 'j') "/tmp".toList rfl
      (by decide)).2.2.2.2.2⟩

end Byacc
